import Mathlib

/-!
Verification development for the market-pair resolution engine
(`token_registry_core.py`): the key generator, candidate matcher,
cache-aware build orchestrator, retrying fetch client, usability check
and expiry pruner, embedded shallowly over Lean lists and strings.

Strings are modelled as lists of characters; the Python regular
expressions used by the code are implemented as explicit fueled
scanners over character lists, restricted to the ASCII behaviour the
code relies on (plus the specific non-ASCII characters the code
mentions: curly quotes, arrows, en-dash, full-width comma).
-/

namespace TokReg

/-! ### Character classes (ASCII model of the Python regex classes) -/

def isPyWs (c : Char) : Bool :=
  c = ' ' || c = '\t' || c = '\n' || c = '\x0b' || c = '\x0c' || c = '\r'

def isDigitC (c : Char) : Bool := '0' ≤ c && c ≤ '9'

def isLowerC (c : Char) : Bool := 'a' ≤ c && c ≤ 'z'

def isUpperC (c : Char) : Bool := 'A' ≤ c && c ≤ 'Z'

def isAlnumC (c : Char) : Bool := isLowerC c || isUpperC c || isDigitC c

/-- Python regex `\w` (ASCII): letters, digits, underscore. -/
def isWordC (c : Char) : Bool := isAlnumC c || c = '_'

/-- ASCII `str.lower` on a single character. -/
def pyLower (c : Char) : Char :=
  if isUpperC c then Char.ofNat (c.toNat + 32) else c

def isLowerAlnum (c : Char) : Bool := isLowerC c || isDigitC c

/-- `\b` holds just after the scanned prefix when the next character is
not a word character (or the string ends). -/
def noWordAhead : List Char → Bool
  | [] => true
  | c :: _ => !isWordC c

/-! ### Small list-of-char utilities -/

def dropLeadingWs : List Char → List Char
  | [] => []
  | c :: cs => if isPyWs c then dropLeadingWs cs else c :: cs

/-- Python `str.strip()` (ASCII whitespace). -/
def trimWs (cs : List Char) : List Char :=
  (dropLeadingWs (dropLeadingWs cs.reverse).reverse)

def dropLeadingChar (q : Char) : List Char → List Char
  | [] => []
  | c :: cs => if c = q then dropLeadingChar q cs else c :: cs

/-- Python `str.strip(q)` for a single strip character `q`. -/
def stripChar (q : Char) (cs : List Char) : List Char :=
  dropLeadingChar q (dropLeadingChar q cs.reverse).reverse

def squeezeSpaces : List Char → List Char
  | [] => []
  | [c] => [c]
  | a :: b :: cs =>
    if a = ' ' && b = ' ' then squeezeSpaces (b :: cs)
    else a :: squeezeSpaces (b :: cs)

/-- Python `re.sub(r"\s+", " ", s)`: each maximal whitespace run becomes
one space. -/
def collapseWs (cs : List Char) : List Char :=
  squeezeSpaces (cs.map (fun c => if isPyWs c then ' ' else c))

/-- `startsWith pat cs`: if `cs` begins with `pat`, the rest of `cs`. -/
def afterPrefix : List Char → List Char → Option (List Char)
  | [], cs => some cs
  | _ :: _, [] => none
  | p :: ps, c :: cs => if c = p then afterPrefix ps cs else none

/-- Leading whitespace-run length and the remainder. -/
def takeWs : List Char → Nat × List Char
  | [] => (0, [])
  | c :: cs =>
    if isPyWs c then
      let r := takeWs cs
      (r.1 + 1, r.2)
    else (0, c :: cs)

/-- Maximal leading digit run and the remainder. -/
def takeDigits : List Char → List Char × List Char
  | [] => ([], [])
  | c :: cs =>
    if isDigitC c then
      let r := takeDigits cs
      (c :: r.1, r.2)
    else ([], c :: cs)

def natOfDigits (ds : List Char) : Nat :=
  ds.foldl (fun a c => a * 10 + (c.toNat - 48)) 0

def digitChar (d : Nat) : Char := Char.ofNat (48 + d)

def natDigits : Nat → Nat → List Char
  | 0, _ => []
  | f + 1, n => if n < 10 then [digitChar n] else natDigits f (n / 10) ++ [digitChar (n % 10)]

/-- Decimal representation of a natural number (Python `str(n)` for `n ≥ 0`). -/
def natToStr (n : Nat) : String := String.mk (natDigits (n + 1) n)

/-- `round` to nearest integer, ties to even (Python `round` semantics,
on exact decimals): rounds `n / den`. -/
def roundHalfEven (n den : Nat) : Nat :=
  let q := n / den
  let r := n % den
  if 2 * r < den then q
  else if 2 * r > den then q + 1
  else if q % 2 = 0 then q else q + 1

/-- Value of `<intDigits>.<fracDigits>` rounded to the nearest integer,
ties to even. -/
def roundDigits (ds fs : List Char) : Nat :=
  if fs = [] then natOfDigits ds
  else roundHalfEven (natOfDigits (ds ++ fs)) (10 ^ fs.length)

/-! ### Generic fueled scanners (Python `re.search` / `re.sub`) -/

/-- `re.sub` for a pattern starting at a `\b` boundary and ending in a word
character: each match is replaced by a single space.  `matchAt` returns the
remainder after a successful match at the current position. -/
def subScanB (matchAt : List Char → Option (List Char)) :
    Nat → Bool → List Char → List Char
  | 0, _, cs => cs
  | _ + 1, _, [] => []
  | f + 1, prevW, c :: rest =>
    if !prevW then
      match matchAt (c :: rest) with
      | some rest' => ' ' :: subScanB matchAt f true rest'
      | none => c :: subScanB matchAt f (isWordC c) rest
    else c :: subScanB matchAt f (isWordC c) rest

/-- `re.search` for a pattern starting at a `\b` boundary: first match. -/
def searchScanB {α : Type} (matchAt : List Char → Option α) :
    Nat → Bool → List Char → Option α
  | 0, _, _ => none
  | _ + 1, _, [] => none
  | f + 1, prevW, c :: rest =>
    if !prevW then
      match matchAt (c :: rest) with
      | some a => some a
      | none => searchScanB matchAt f (isWordC c) rest
    else searchScanB matchAt f (isWordC c) rest

/-- `re.search` for a pattern with no leading boundary: first match. -/
def searchScanNB {α : Type} (matchAt : List Char → Option α) :
    Nat → List Char → Option α
  | 0, _ => none
  | _ + 1, [] => none
  | f + 1, c :: rest =>
    match matchAt (c :: rest) with
    | some a => some a
    | none => searchScanNB matchAt f rest

/-! ### `_norm_text` -/

/-- `_norm_text`: strip, lower, unify curly quotes, strip quote ends,
arrows to spaces, en-dash to hyphen, strip non-`[a-z0-9\s]`, collapse
whitespace. -/
def normTextL (cs0 : List Char) : List Char :=
  let s1 := (trimWs cs0).map pyLower
  let s2 := s1.map (fun c =>
    if c = '“' || c = '”' then '"' else if c = '’' then '\'' else c)
  let s3 := stripChar '\'' (stripChar '"' s2)
  let s4 := s3.map (fun c =>
    if c = '↑' || c = '↓' || c = '→' then ' '
    else if c = '–' then '-' else c)
  let s5 := s4.map (fun c => if isLowerAlnum c || isPyWs c then c else ' ')
  trimWs (collapseWs s5)

def normText (s : String) : String := String.mk (normTextL s.toList)

/-! ### `_digits_only` -/

def digitsOnlyL (cs : List Char) : List Char := cs.filter isDigitC

/-! ### `_strip_years`: `re.sub(r"\b(19|20)\d{2}\b", " ", s)` then collapse -/

def matchYearAt : List Char → Option (List Char)
  | a :: b :: c :: d :: rest =>
    if ((a = '1' && b = '9') || (a = '2' && b = '0')) && isDigitC c && isDigitC d
        && noWordAhead rest
    then some rest else none
  | _ => none

def stripYearsL (cs : List Char) : List Char :=
  trimWs (collapseWs (subScanB matchYearAt (cs.length + 1) false cs))

def stripYears (s : String) : String := String.mk (stripYearsL s.toList)

/-! ### `_strip_rate_words` -/

/-- `rates?\b` at the current position. -/
def matchRateTail (cs : List Char) : Option (List Char) :=
  match afterPrefix ['r', 'a', 't', 'e'] cs with
  | none => none
  | some rest =>
    match rest with
    | 's' :: rest2 => if noWordAhead rest2 then some rest2 else none
    | _ => if noWordAhead rest then some rest else none

/-- `interest\s+rates?\b` at the current position. -/
def matchInterestRatesAt (cs : List Char) : Option (List Char) :=
  match afterPrefix ['i', 'n', 't', 'e', 'r', 'e', 's', 't'] cs with
  | none => none
  | some r1 =>
    let w := takeWs r1
    if w.1 = 0 then none else matchRateTail w.2

/-- `rate\b` at the current position (third, redundant substitution). -/
def matchRateOnlyAt (cs : List Char) : Option (List Char) :=
  match afterPrefix ['r', 'a', 't', 'e'] cs with
  | none => none
  | some rest => if noWordAhead rest then some rest else none

def stripRateWordsL (cs0 : List Char) : List Char :=
  let cs := trimWs cs0
  let s1 := subScanB matchInterestRatesAt (cs.length + 1) false cs
  let s2 := subScanB matchRateTail (s1.length + 1) false s1
  let s3 := subScanB matchRateOnlyAt (s2.length + 1) false s2
  trimWs (collapseWs s3)

def stripRateWords (s : String) : String := String.mk (stripRateWordsL s.toList)

/-! ### `_extract_month_day` -/

def MONTHS : List (List Char) :=
  ["january".toList, "february".toList, "march".toList, "april".toList,
   "may".toList, "june".toList, "july".toList, "august".toList,
   "september".toList, "october".toList, "november".toList, "december".toList]

def matchMonthAt (cs : List Char) : Option (List Char × List Char) :=
  (MONTHS.filterMap (fun m =>
    match afterPrefix m cs with
    | some rest => some (m, rest)
    | none => none)).head?

/-- `\b(<month>)\s+(\d{1,2})\b` at the current position, returning the
month name and the day value. -/
def matchMonthDayAt (cs : List Char) : Option (List Char × Nat) :=
  match matchMonthAt cs with
  | none => none
  | some (m, rest) =>
    let w := takeWs rest
    if w.1 = 0 then none
    else
      match w.2 with
      | d1 :: d2 :: r3 =>
        if isDigitC d1 && isDigitC d2 && noWordAhead r3 then
          some (m, natOfDigits [d1, d2])
        else if isDigitC d1 && !isWordC d2 then
          some (m, natOfDigits [d1])
        else none
      | [d1] => if isDigitC d1 then some (m, natOfDigits [d1]) else none
      | [] => none

def extractMonthDay (s : String) : Option String :=
  let t := (trimWs s.toList).map pyLower
  match searchScanB matchMonthDayAt (t.length + 1) false t with
  | none => none
  | some (m, d) => some (String.mk (m ++ ' ' :: natDigits (d + 1) d))

/-! ### `_extract_range` -/

def matchRangeAt (cs : List Char) : Option (List Char × List Char) :=
  let a := takeDigits cs
  if a.1 = [] then none
  else
    let r2 := (takeWs a.2).2
    let cont : List Char → Option (List Char × List Char) := fun r3 =>
      let r4 := (takeWs r3).2
      let b := takeDigits r4
      if b.1 = [] then none else some (a.1, b.1)
    match r2 with
    | '-' :: r3 => cont r3
    | '–' :: r3 => cont r3
    | t :: o :: r3 =>
      if (t = 't' || t = 'T') && (o = 'o' || o = 'O') then cont r3 else none
    | _ => none

def extractRange (s : String) : Option String :=
  let t := s.toList.filter (fun c => c ≠ ',')
  match searchScanNB matchRangeAt (t.length + 1) t with
  | none => none
  | some (a, b) => some (String.mk (a ++ '-' :: b))

/-! ### `_extract_directional_threshold` -/

/-- `(>=|<=|>|<)\s*\$?\s*(\d+(?:\.\d+)?)` at the current position. -/
def matchSymAt (cs : List Char) : Option (String × Nat) :=
  let go : String → List Char → Option (String × Nat) := fun op r =>
    let r1 := (takeWs r).2
    let r2 := match r1 with
      | '$' :: r' => r'
      | _ => r1
    let r3 := (takeWs r2).2
    let d := takeDigits r3
    if d.1 = [] then none
    else
      let fr : List Char :=
        match d.2 with
        | '.' :: r5 =>
          let f := takeDigits r5
          if f.1 = [] then [] else f.1
        | _ => []
      some (op, roundDigits d.1 fr)
  match cs with
  | '>' :: '=' :: r => go "ge" r
  | '<' :: '=' :: r => go "le" r
  | '>' :: r => go "gt" r
  | '<' :: r => go "lt" r
  | _ => none

/-- `\$\s*(\d{2,}(?:\.\d+)?)` at the current position: integer and
fraction digits. -/
def matchDollarNumAt (cs : List Char) : Option (List Char × List Char) :=
  match cs with
  | '$' :: r =>
    let r1 := (takeWs r).2
    let d := takeDigits r1
    if d.1.length < 2 then none
    else
      match d.2 with
      | '.' :: r3 =>
        let f := takeDigits r3
        if f.1 = [] then some (d.1, []) else some (d.1, f.1)
      | _ => some (d.1, [])
  | _ => none

/-- `\b(\d{2,}(?:\.\d+)?)\b` at the current position. -/
def matchBareNumAt (cs : List Char) : Option (List Char × List Char) :=
  let d := takeDigits cs
  if d.1.length < 2 then none
  else
    match d.2 with
    | '.' :: r3 =>
      let f := takeDigits r3
      if f.1 ≠ [] && noWordAhead f.2 then some (d.1, f.1)
      else some (d.1, [])
    | rest => if noWordAhead rest then some (d.1, []) else none

def geWords : List (List Char) :=
  ["up".toList, "reach".toList, "hit".toList, "at least".toList,
   "above".toList, "over".toList, "greater than".toList, "more than".toList]

def leWords : List (List Char) :=
  ["down".toList, "dip".toList, "below".toList, "under".toList,
   "less than".toList, "at most".toList]

def matchAnyWordAt (ws : List (List Char)) (cs : List Char) : Option Unit :=
  if ws.any (fun w =>
      match afterPrefix w cs with
      | some rest => noWordAhead rest
      | none => false)
  then some () else none

/-- `\b(w1|w2|...)\b` found anywhere in `cs`. -/
def hasWordIn (ws : List (List Char)) (cs : List Char) : Bool :=
  (searchScanB (matchAnyWordAt ws) (cs.length + 1) false cs).isSome

def extractDirThreshold (s : String) : Option (String × Nat) :=
  let raw := s.toList
  let t := raw.filter (fun c => c ≠ ',')
  match searchScanNB matchSymAt (t.length + 1) t with
  | some r => some r
  | none =>
    let numS : Option (List Char × List Char) :=
      match searchScanNB matchDollarNumAt (t.length + 1) t with
      | some v => some v
      | none => searchScanB matchBareNumAt (t.length + 1) false t
    match numS with
    | none => none
    | some (ds, fs) =>
      let n := roundDigits ds fs
      let tl := t.map pyLower
      if raw.contains '↑' || hasWordIn geWords tl then some ("ge", n)
      else if raw.contains '↓' || hasWordIn leWords tl then some ("le", n)
      else none

/-! ### `_expand_compact_number_to_int` -/

/-- `\b(\d+(?:\.\d+)?)\s*([kmb])\b` at the current position, returning
the expanded integer. -/
def matchCompactAt (cs : List Char) : Option Nat :=
  let d := takeDigits cs
  if d.1 = [] then none
  else
    let fr : List Char × List Char :=
      match d.2 with
      | '.' :: r2 =>
        let f := takeDigits r2
        if f.1 = [] then ([], d.2) else (f.1, f.2)
      | _ => ([], d.2)
    let r4 := (takeWs fr.2).2
    let mul : Option (Nat × List Char) :=
      match r4 with
      | 'k' :: r5 => some (1000, r5)
      | 'm' :: r5 => some (1000000, r5)
      | 'b' :: r5 => some (1000000000, r5)
      | _ => none
    match mul with
    | none => none
    | some (e, r5) =>
      if noWordAhead r5 then
        let den := 10 ^ fr.1.length
        some (roundHalfEven (natOfDigits (d.1 ++ fr.1) * e) den)
      else none

def expandCompactNumber (s : String) : Option Nat :=
  let t := ((trimWs s.toList).map pyLower).filter
    (fun c => !(c = '$' || c = ',' || c = '，'))
  searchScanB matchCompactAt (t.length + 1) false t

/-! ### `_make_keys` -/

def insertKey (k : String) (ks : List String) : List String :=
  if k ∈ ks then ks else ks ++ [k]

/-- `if k: keys.add(k)`. -/
def addIf (k : String) (acc : List String) : List String :=
  if k = "" then acc else insertKey k acc

/-- `if o: keys.add(o)` for an optional extraction result. -/
def addOpt (o : Option String) (acc : List String) : List String :=
  match o with
  | some k => insertKey k acc
  | none => acc

/-- Body of the `for raw in texts` loop after the initial
`raw.strip()`/emptiness gate, on the stripped text. -/
def keysForTextStripped (acc : List String) (rawT : String) : List String :=
    let base := normText rawT
    let acc := addIf base acc
    let noComma := normText (String.mk
      (rawT.toList.filter (fun c => !(c = ',' || c = '，'))))
    let acc := addIf noComma acc
    let acc := if base = "" then acc else addIf (stripYears base) acc
    let acc := if noComma = "" then acc else addIf (stripYears noComma) acc
    let acc := acc.foldl (fun a k0 => addIf (stripRateWords k0) a) acc
    let acc := addOpt (extractMonthDay rawT) acc
    let digits := String.mk (digitsOnlyL rawT.toList)
    let acc := if digits.length ≥ 3 then insertKey digits acc else acc
    let acc := match expandCompactNumber rawT with
      | some v => if v ≥ 100 then insertKey (natToStr v) acc else acc
      | none => acc
    let acc := addOpt (extractRange rawT) acc
    match extractDirThreshold rawT with
    | some (op, n) => insertKey (natToStr n) (insertKey (op ++ "_" ++ natToStr n) acc)
    | none => acc

/-- One text's contribution to the key set (`for raw in texts` loop body). -/
def keysForText (acc : List String) (raw : String) : List String :=
  let rawT := String.mk (trimWs raw.toList)
  if rawT = "" then acc else keysForTextStripped acc rawT

/-- `re.fullmatch(r"(increase|decrease)(\s+rates?)?", k0)`: on success,
the canonical head word. -/
def incDecHead (k : String) : Option String :=
  let cs := k.toList
  let tryWord : String → Option String := fun w =>
    match afterPrefix w.toList cs with
    | none => none
    | some rest =>
      if rest = [] then some w
      else
        let ws := takeWs rest
        if ws.1 = 0 then none
        else
          match afterPrefix ['r', 'a', 't', 'e'] ws.2 with
          | some [] => some w
          | some ['s'] => some w
          | _ => none
  match tryWord "increase" with
  | some w => some w
  | none => tryWord "decrease"

/-- `_make_keys` (`extra = ""` models `extra_text=None`: both are falsy
and treated identically by the Python code). -/
def makeKeys (label : String) (extra : String) : List String :=
  if label = "" && extra = "" then []
  else
    let texts := (if label = "" then [] else [label])
      ++ (if extra = "" then [] else [extra])
    let ks := texts.foldl keysForText []
    let ks := ks.foldl (fun a k0 =>
      let a := match incDecHead k0 with
        | some w => insertKey w a
        | none => a
      if k0 = "hold" || k0 = "no change" || k0 = "unchanged" || k0 = "nochange"
      then insertKey "no change" (insertKey "hold" a) else a) ks
    let ks := if ks.contains "another game" || ks.contains "another"
      then insertKey "other" ks else ks
    let ks := if ks.contains "other" then insertKey "another game" ks else ks
    ks.filter (fun k => k ≠ "")

/-! ### `_key_weight` / `_score_keys` -/

def isDirThresholdKey (cs : List Char) : Bool :=
  match cs with
  | a :: b :: '_' :: rest =>
    (a = 'g' || a = 'l') && (b = 'e' || b = 't')
      && rest.length ≥ 2 && rest.all isDigitC
  | _ => false

def isRangeKey (cs : List Char) : Bool :=
  let a := takeDigits cs
  a.1.length ≥ 2 &&
    (match a.2 with
     | '-' :: r2 =>
       let b := takeDigits r2
       b.1.length ≥ 2 && b.2 = []
     | _ => false)

def isMonthDayKey (cs : List Char) : Bool :=
  match matchMonthAt cs with
  | none => false
  | some (_, rest) =>
    let w := takeWs rest
    w.1 ≥ 1 &&
      (match w.2 with
       | [d] => isDigitC d
       | [d1, d2] => isDigitC d1 && isDigitC d2
       | _ => false)

def keyWeight (k : String) : Nat :=
  let cs := trimWs k.toList
  if cs = [] then 0
  else if isDirThresholdKey cs then 12
  else if cs.length ≥ 3 && cs.all isDigitC then 10
  else if isRangeKey cs then 9
  else if isMonthDayKey cs then 7
  else
    let s := String.mk cs
    if s = "increase" || s = "decrease" || s = "hold" || s = "no change" then 3
    else if s = "yes" || s = "no" then 2
    else 1

def scoreKeys (ks : List String) : Nat := (ks.map keyWeight).sum

/-- The characters that can occur in a generated fingerprint: lowercase
letters, digits, space, hyphen, underscore. -/
def isKeyChar (c : Char) : Bool :=
  isLowerAlnum c || c = ' ' || c = '-' || c = '_'

/-- A well-formed fingerprint: only key characters, and no leading or
trailing whitespace (so Python `str.strip` is the identity on it). -/
def GoodK (k : String) : Prop :=
  (∀ c ∈ k.toList, isKeyChar c = true) ∧ trimWs k.toList = k.toList

/-! ### `_is_placeholder_candidate` -/

def placeholderWords : List (List Char) :=
  ["game".toList, "movie".toList, "team".toList, "option".toList,
   "candidate".toList, "player".toList, "item".toList]

def isAsciiLetter (c : Char) : Bool := isLowerC c || isUpperC c

/-- `re.fullmatch(r"(Game|Movie|Team|Option|Candidate|Player|Item)\s+[A-Z]", n,
IGNORECASE)` on the stripped name (`[A-Z]` matches either case under
IGNORECASE). -/
def placeholderFullmatch (cs : List Char) : Bool :=
  placeholderWords.any (fun w =>
    match afterPrefix w (cs.map pyLower) with
    | none => false
    | some rest =>
      let ws := takeWs rest
      ws.1 ≥ 1 &&
        (match ws.2 with
         | [c] => isAsciiLetter c
         | _ => false))

def anotherGameWord : List (List Char) := ["another game".toList]

def isPlaceholderCandidate (name : String) : Bool :=
  let n := trimWs name.toList
  placeholderFullmatch n || hasWordIn anotherGameWord (n.map pyLower)

/-! ### Candidate matcher (categorical branch of `build_entry_from_urls`) -/

/-- Python truthiness of an optional string field. -/
def truthyOS : Option String → Bool
  | none => false
  | some s => s ≠ ""

/-- One Opinion child market (output of `opinion_fetch_categorical_children`). -/
structure OpChild where
  market_id : Option Nat
  title : String
  yes_token_id : Option String
  no_token_id : Option String
  deriving DecidableEq, Repr

/-- One Polymarket candidate market (output of
`gamma_event_to_candidate_markets`). -/
structure PmMarket where
  market_id : String
  question : String
  candidate : String
  yes_token_id : Option String
  no_token_id : Option String
  endDate : Option String
  placeholder : Bool
  deriving DecidableEq, Repr

/-- Opinion item pre-annotated with keys and normalized title. -/
structure OpItem where
  child : OpChild
  keys : List String
  norm : String
  deriving DecidableEq, Repr

def mkOpItem (c : OpChild) : OpItem :=
  { child := c, keys := makeKeys c.title "", norm := normText c.title }

/-- Polymarket item pre-annotated with keys and normalized candidate. -/
structure PmItem where
  m : PmMarket
  keys : List String
  norm : String
  deriving DecidableEq, Repr

def mkPmItems (ms : List PmMarket) : List PmItem :=
  (ms.filter (fun m => !m.placeholder)).map (fun m =>
    { m := m, keys := makeKeys m.candidate m.question, norm := normText m.candidate })

/-- Intersection of the two key sets (both duplicate-free lists). -/
def interKeys (a b : List String) : List String := a.filter (fun k => k ∈ b)

/-- Whether the inner matching loop considers `cand` at all for `it`
given the already-used Polymarket market ids. -/
def pbEligible (it : OpItem) (used : List String) (cand : PmItem) : Bool :=
  cand.m.market_id ≠ "" && cand.m.market_id ∉ used
    && truthyOS cand.m.yes_token_id && truthyOS cand.m.no_token_id
    && interKeys it.keys cand.keys ≠ []

def pbScore (it : OpItem) (cand : PmItem) : Nat :=
  scoreKeys (interKeys it.keys cand.keys)

/-- One iteration of the inner matching loop over `(best_pm, best_score)`:
skip ineligible candidates, replace the best on a strictly higher score
or on an equal score with a matching non-empty normalized label. -/
def pbStep (it : OpItem) (used : List String)
    (acc : Option PmItem × Nat) (cand : PmItem) : Option PmItem × Nat :=
  if pbEligible it used cand then
    if pbScore it cand > acc.2 || (pbScore it cand = acc.2
        && it.norm ≠ "" && it.norm = cand.norm)
    then (some cand, pbScore it cand) else acc
  else acc

/-- Inner loop of the categorical matcher: pick the best Polymarket
candidate for one Opinion item. -/
def pickBest (it : OpItem) (pms : List PmItem) (used : List String) :
    Option PmItem :=
  (pms.foldl (pbStep it used) (none, 0)).1

/-- Invariant of the inner matching loop's fold over `(best_pm, best_score)`:
either nothing eligible has been seen and the accumulator is still
`(None, 0)`, or the accumulator holds an eligible candidate `b` of maximal
score among the processed prefix, every candidate after `b` is neither a
strictly better scorer nor a norm-tied equal scorer, and `b` is itself
norm-tied or no processed norm-tied maximal scorer exists at all (in which
case everything before `b` scores strictly less). -/
def pbInv (it : OpItem) (used : List String) (processed : List PmItem)
    (acc : Option PmItem × Nat) : Prop :=
  (acc = (none, 0) ∧ ∀ c ∈ processed, pbEligible it used c = false) ∨
  (∃ b, acc = (some b, pbScore it b) ∧ pbEligible it used b = true ∧
    (∀ c ∈ processed, pbEligible it used c = true →
      pbScore it c ≤ pbScore it b) ∧
    ∃ l1 l2, processed = l1 ++ b :: l2 ∧
      (∀ c ∈ l2, pbEligible it used c = true →
        pbScore it c = pbScore it b → ¬(it.norm ≠ "" ∧ it.norm = c.norm)) ∧
      ((it.norm ≠ "" ∧ it.norm = b.norm) ∨
       ((∀ c ∈ l1, pbEligible it used c = true →
          pbScore it c < pbScore it b) ∧
        ∀ c ∈ processed, pbEligible it used c = true →
          pbScore it c = pbScore it b → ¬(it.norm ≠ "" ∧ it.norm = c.norm))))

/-- One matched pair (the dict appended to `pairs`). -/
structure MatchedPair where
  candidate : String
  op_market_id : Option Nat
  op_yes_token_id : Option String
  op_no_token_id : Option String
  pm_market_id : String
  pm_question : String
  pm_candidate : String
  pm_yes_token_id : Option String
  pm_no_token_id : Option String
  pm_endDate : Option String
  deriving DecidableEq, Repr

/-- An unmatched Opinion child as recorded in `unmatched_opinion`. -/
structure UnmatchedOp where
  market_id : Option Nat
  candidate : String
  yes_token_id : Option String
  no_token_id : Option String
  deriving DecidableEq, Repr

/-- An unmatched Polymarket market as recorded in `unmatched_polymarket`. -/
structure UnmatchedPm where
  market_id : String
  question : String
  candidate : String
  yes_token_id : Option String
  no_token_id : Option String
  endDate : Option String
  deriving DecidableEq, Repr

/-- `best_pm.get("endDate") or ev_end_date` (empty string is falsy). -/
def pyOrStr (a : Option String) (b : Option String) : Option String :=
  match a with
  | some s => if s ≠ "" then some s else b
  | none => b

def mkPair (oc : OpChild) (pm : PmMarket) (evEnd : Option String) : MatchedPair :=
  { candidate := oc.title
    op_market_id := oc.market_id
    op_yes_token_id := oc.yes_token_id
    op_no_token_id := oc.no_token_id
    pm_market_id := pm.market_id
    pm_question := pm.question
    pm_candidate := pm.candidate
    pm_yes_token_id := pm.yes_token_id
    pm_no_token_id := pm.no_token_id
    pm_endDate := pyOrStr pm.endDate evEnd }

/-- Outer matching loop: fold over the Opinion items accumulating pairs
and the set of used Polymarket market ids. -/
def matchLoop (pms : List PmItem) (ops : List OpItem) :
    List MatchedPair × List String → Option String → List MatchedPair × List String :=
  fun acc evEnd =>
    ops.foldl (fun (st : List MatchedPair × List String) it =>
      match pickBest it pms st.2 with
      | some best =>
        (st.1 ++ [mkPair it.child best.m evEnd], st.2 ++ [best.m.market_id])
      | none => st) acc

structure MatchResult where
  pairs : List MatchedPair
  unmatched_opinion : List UnmatchedOp
  unmatched_polymarket : List UnmatchedPm
  deriving DecidableEq, Repr

/-- The categorical matching portion of `build_entry_from_urls`: from the
Opinion children and the (already placeholder-filtered) Polymarket
candidate markets to pairs plus the two unmatched lists. -/
def matchCategorical (opChildren : List OpChild) (pmMarkets : List PmMarket)
    (evEnd : Option String) : MatchResult :=
  let opItems := opChildren.map mkOpItem
  let pmItems := mkPmItems pmMarkets
  let st := matchLoop pmItems opItems ([], []) evEnd
  let pairs := st.1
  let used := st.2
  let matchedIds := pairs.map (fun p => p.op_market_id)
  let unmatchedOp := (opChildren.filter
    (fun c => c.market_id ∉ matchedIds)).map (fun c =>
      { market_id := c.market_id, candidate := c.title
        yes_token_id := c.yes_token_id, no_token_id := c.no_token_id })
  let unmatchedPm := (pmItems.filter (fun cand =>
    cand.m.market_id ≠ "" && cand.m.market_id ∉ used
      && !cand.m.placeholder
      && !isPlaceholderCandidate cand.m.candidate)).map (fun cand =>
      { market_id := cand.m.market_id, question := cand.m.question
        candidate := cand.m.candidate
        yes_token_id := cand.m.yes_token_id
        no_token_id := cand.m.no_token_id
        endDate := pyOrStr cand.m.endDate evEnd })
  { pairs := pairs, unmatched_opinion := unmatchedOp
    unmatched_polymarket := unmatchedPm }

/-! ### JSON-like values (Python dicts/lists as loaded from the cache file) -/

inductive JVal where
  | null : JVal
  | bool : Bool → JVal
  | num : Int → JVal
  | str : String → JVal
  | arr : List JVal → JVal
  | obj : List (String × JVal) → JVal
  deriving Repr

/-- A Python dict with string keys. -/
abbrev JObj := List (String × JVal)

/-- `d.get(k)` (first binding wins, mirroring dict-key uniqueness). -/
def dGet (o : JObj) (k : String) : Option JVal :=
  match o.find? (fun p => p.1 = k) with
  | some p => some p.2
  | none => none

/-- `d[k] = v`: replace the first binding for `k`, else append. -/
def jset (o : JObj) (k : String) (v : JVal) : JObj :=
  match o with
  | [] => [(k, v)]
  | p :: rest => if p.1 = k then (k, v) :: rest else p :: jset rest k v

/-- Python truthiness of a JSON value. -/
def truthy : JVal → Bool
  | .null => false
  | .bool b => b
  | .num n => n ≠ 0
  | .str s => s ≠ ""
  | .arr xs => !xs.isEmpty
  | .obj fs => !fs.isEmpty

def truthyO : Option JVal → Bool
  | none => false
  | some v => truthy v

/-- Python `a or b` over optional values (`none` models Python `None`). -/
def pyOrJ (a b : Option JVal) : Option JVal :=
  if truthyO a then a else b

/-! ### `_entry_is_usable` -/

def SCHEMA_VERSION : Int := 6

/-- `entry.get(k, {})` followed by attribute access: absent gives the
empty dict, a present non-dict raises (`none` here). -/
def dGetObjD (e : JObj) (k : String) : Option JObj :=
  match dGet e k with
  | none => some []
  | some (.obj o) => some o
  | some _ => none

/-- `_entry_is_usable` (the `try`/`except` returns `False` whenever a
present non-dict `opinion`/`polymarket` field makes `.get` raise). -/
def entryIsUsable (e : JObj) : Bool :=
  match dGet e "schema_version" with
  | some (.num n) =>
    if n ≠ SCHEMA_VERSION then false
    else
      match dGet e "type" with
      | some (.str t) =>
        if t = "binary" then
          match dGetObjD e "opinion", dGetObjD e "polymarket" with
          | some op, some pm =>
            truthyO (dGet op "yes_token_id") && truthyO (dGet op "no_token_id")
              && truthyO (dGet pm "clob_token_ids")
          | _, _ => false
        else if t = "categorical" then
          match dGet e "pairs" with
          | some (.arr _) => true
          | _ => false
        else false
      | _ => false
  | _ => false

/-- Modelled from the spec's words, for comparison with `entryIsUsable`:
"the usability check returns True iff the schema-version tag equals the
current SCHEMA_VERSION and, for binary kind, both Opinion trade
identifiers and the Polymarket clob-token-id list are present, or, for
categorical kind, the pairs field is a list (possibly empty)".
"Present" is read as Python-truthy: a missing, null or empty identifier
is not a present identifier. -/
def entryUsableSpec (e : JObj) : Bool :=
  let schemaOk := match dGet e "schema_version" with
    | some (.num n) => n = SCHEMA_VERSION
    | _ => false
  let kindIs := fun (t : String) => match dGet e "type" with
    | some (.str t') => t' = t
    | _ => false
  let fieldPresent := fun (sect key : String) =>
    match dGetObjD e sect with
    | some o => truthyO (dGet o key)
    | none => false
  let pairsIsList := match dGet e "pairs" with
    | some (.arr _) => true
    | _ => false
  schemaOk &&
    ((kindIs "binary" && fieldPresent "opinion" "yes_token_id"
        && fieldPresent "opinion" "no_token_id"
        && fieldPresent "polymarket" "clob_token_ids")
      || (kindIs "categorical" && pairsIsList))

/-! ### `build_all` -/

/-- One market configuration; the cache key computed from its URLs and
the build outcome for it are supplied as functions, so only the name and
an identity are carried here. -/
structure MCfg where
  name : String
  id : Nat
  deriving DecidableEq, Repr

abbrev CacheMap := List (String × JObj)

def cacheGet (c : CacheMap) (k : String) : Option JObj :=
  match c.find? (fun p => p.1 = k) with
  | some p => some p.2
  | none => none

def cacheSet (c : CacheMap) (k : String) (e : JObj) : CacheMap :=
  match c with
  | [] => [(k, e)]
  | p :: rest => if p.1 = k then (k, e) :: rest else p :: cacheSet rest k e

/-- `key in cache and _entry_is_usable(cache[key])`. -/
def cacheUsableAt (c : CacheMap) (k : String) : Bool :=
  match cacheGet c k with
  | some e => entryIsUsable e
  | none => false

def cacheGetD (c : CacheMap) (k : String) : JObj :=
  match cacheGet c k with
  | some e => e
  | none => []

/-- `cached["name"] = name`. -/
def setNm (e : JObj) (name : String) : JObj := jset e "name" (.str name)

structure B1State where
  results : List (Option JObj)
  cache : CacheMap
  tasks : List (Nat × String × MCfg)
  deriving Repr

/-- Body of the first loop of `build_all` for one indexed config: a
cache-hit is taken immediately (and the in-cache dict is renamed in
place), everything else becomes a task.  A config whose cache key cannot
be computed contributes nothing. -/
def phase1Step (keyOf : MCfg → Option String) (refresh : Bool)
    (st : B1State) (p : Nat × MCfg) : B1State :=
  match keyOf p.2 with
  | none => st
  | some key =>
    if !refresh && cacheUsableAt st.cache key then
      let e := setNm (cacheGetD st.cache key) p.2.name
      { st with results := st.results.set p.1 (some e)
                cache := cacheSet st.cache key e }
    else { st with tasks := st.tasks ++ [(p.1, key, p.2)] }

/-- First loop of `build_all` over the enumerated config list. -/
def buildPhase1 (keyOf : MCfg → Option String) (refresh : Bool)
    (cache0 : CacheMap) (cfgs : List MCfg) : B1State :=
  cfgs.enum.foldl (phase1Step keyOf refresh)
    { results := List.replicate cfgs.length none
      cache := if refresh then [] else cache0
      tasks := [] }

/-- Handling of one completed task in the `as_completed` loop:
`buildRes` is the outcome of `build_entry_from_urls` for the config
(`none` models an exception). -/
def taskStep (refresh keep : Bool) (buildRes : MCfg → Option JObj)
    (st : List (Option JObj) × CacheMap) (t : Nat × String × MCfg) :
    List (Option JObj) × CacheMap :=
  match buildRes t.2.2 with
  | some e => (st.1.set t.1 (some e), cacheSet st.2 t.2.1 e)
  | none =>
    if !refresh && keep && cacheUsableAt st.2 t.2.1 then
      let e := setNm (cacheGetD st.2 t.2.1) t.2.2.name
      (st.1.set t.1 (some e), cacheSet st.2 t.2.1 e)
    else st

/-- `build_all`: `order` lists the positions in the task list in
completion order (`as_completed` yields in an arbitrary order). -/
def buildAll (cfgs : List MCfg) (cache0 : CacheMap) (refresh keep : Bool)
    (keyOf : MCfg → Option String) (buildRes : MCfg → Option JObj)
    (order : List Nat) : List JObj :=
  let st1 := buildPhase1 keyOf refresh cache0 cfgs
  if st1.tasks = [] then st1.results.filterMap id
  else
    let fin := (order.filterMap (fun j => st1.tasks.get? j)).foldl
      (taskStep refresh keep buildRes) (st1.results, st1.cache)
    fin.1.filterMap id

/-- Number of tasks `build_all` dispatches (for stating hypotheses about
the completion order). -/
def numTasks (cfgs : List MCfg) (cache0 : CacheMap) (refresh : Bool)
    (keyOf : MCfg → Option String) : Nat :=
  (buildPhase1 keyOf refresh cache0 cfgs).tasks.length

/-- What one configuration contributes on its own: the usable prior
cache entry on a cache hit, else the fresh entry on success, else the
prior cache entry if usable (with the config's name written in), else
nothing. -/
def perConfig (cache0 : CacheMap) (refresh keep : Bool)
    (keyOf : MCfg → Option String) (buildRes : MCfg → Option JObj)
    (cfg : MCfg) : Option JObj :=
  match keyOf cfg with
  | none => none
  | some key =>
    let cache := if refresh then [] else cache0
    if !refresh && cacheUsableAt cache key then
      some (setNm (cacheGetD cache key) cfg.name)
    else
      match buildRes cfg with
      | some e => some e
      | none =>
        if !refresh && keep && cacheUsableAt cache key then
          some (setNm (cacheGetD cache key) cfg.name)
        else none

/-- Phase-1 cache-hit outcome of one config against the initial cache
(what `build_all`'s first loop contributes for it under distinct keys). -/
def phase1Res (cacheI : CacheMap) (refresh : Bool) (keyOf : MCfg → Option String)
    (cfg : MCfg) : Option JObj :=
  match keyOf cfg with
  | none => none
  | some k =>
    if !refresh && cacheUsableAt cacheI k
    then some (setNm (cacheGetD cacheI k) cfg.name) else none

/-- The task an indexed config contributes in phase 1 (`none` on a cache
hit or a missing key). -/
def phase1Task (cacheI : CacheMap) (refresh : Bool) (keyOf : MCfg → Option String)
    (p : Nat × MCfg) : Option (Nat × String × MCfg) :=
  match keyOf p.2 with
  | none => none
  | some k =>
    if !refresh && cacheUsableAt cacheI k then none else some (p.1, k, p.2)

/-! ### `_request_with_retry` -/

/-- What one HTTP attempt does: raise a `requests` exception (payload
identifies the exception object) or produce a response with a status
code. -/
inductive AttemptOutcome where
  | exc : Nat → AttemptOutcome
  | resp : Nat → AttemptOutcome
  deriving DecidableEq, Repr

def retryableStatus (s : Nat) : Bool :=
  s = 429 || s = 500 || s = 502 || s = 503 || s = 504

/-- The retry loop body; `fuel` is the number of remaining attempts,
`k` the current attempt index, `lastExc` the last exception seen.
`Except.error le` models `raise TokenFetcherError(... err=le)`;
`Except.ok (k, s)` models returning attempt `k`'s response (status `s`). -/
def retryGo (att : Nat → AttemptOutcome) :
    Nat → Nat → Option Nat → Except (Option Nat) (Nat × Nat)
  | 0, _, lastExc => .error lastExc
  | fuel + 1, k, lastExc =>
    match att k with
    | .resp s =>
      if s = 200 then .ok (k, 200)
      else if s = 403 && k = 0 then retryGo att fuel (k + 1) lastExc
      else if retryableStatus s then retryGo att fuel (k + 1) lastExc
      else .ok (k, s)
    | .exc e => retryGo att fuel (k + 1) (some e)

/-- `_request_with_retry` with `MAX_RETRIES = maxRetries`, the rate
limiter and the sleeps abstracted away (they return no data). -/
def requestWithRetry (maxRetries : Nat) (att : Nat → AttemptOutcome) :
    Except (Option Nat) (Nat × Nat) :=
  retryGo att maxRetries 0 none

/-- Whether attempt `k` with outcome `o` is retried rather than
returned: an exception, a retryable status, or a first-attempt 403. -/
def retriedAttempt (k : Nat) (o : AttemptOutcome) : Bool :=
  match o with
  | .exc _ => true
  | .resp s => (s = 403 && k = 0) || retryableStatus s

/-- The exception raised by the latest of the first `n` attempts, if any. -/
def lastExcBefore (att : Nat → AttemptOutcome) : Nat → Option Nat
  | 0 => none
  | n + 1 =>
    match att n with
    | .exc e => some e
    | .resp _ => lastExcBefore att n

/-! ### `_parse_iso_dt` / `_collect_end_dts` / `prune_expired_markets`

Timestamps are modelled as integers (UTC epoch seconds); the standard
library parser `datetime.fromisoformat` (plus the timezone
normalisation to UTC) is abstracted as a parameter
`fromIso : String → Option Int` (`none` models a parse failure). -/

/-- `t.replace("Z", "+00:00")` on a stripped string (single-character
pattern, so a character-wise scan is exact). -/
def replaceZ : List Char → List Char
  | [] => []
  | c :: cs =>
    if c = 'Z' then '+' :: '0' :: '0' :: ':' :: '0' :: '0' :: replaceZ cs
    else c :: replaceZ cs

def parseIsoDt (fromIso : String → Option Int) (v : Option JVal) : Option Int :=
  match v with
  | some (.str s) =>
    if s = "" then none
    else fromIso (String.mk (replaceZ (trimWs s.toList)))
  | _ => none

/-- `x.get(k) or {}` followed by attribute access: a truthy non-dict
value makes the subsequent `.get` raise. -/
def asObjOrEmpty (v : Option JVal) : Except Unit JObj :=
  match v with
  | none => .ok []
  | some w =>
    if truthy w then
      match w with
      | .obj o => .ok o
      | _ => .error ()
    else .ok []

/-- `for p in (x or [])`: iterating a truthy number or boolean raises;
strings iterate into their characters, dicts into their keys. -/
def iterVal (v : Option JVal) : Except Unit (List JVal) :=
  match v with
  | none => .ok []
  | some w =>
    if truthy w then
      match w with
      | .arr xs => .ok xs
      | .str s => .ok (s.toList.map (fun c => .str (String.mk [c])))
      | .obj fs => .ok (fs.map (fun p => .str p.1))
      | _ => .error ()
    else .ok []

/-- `o.get("endDate") or o.get("end_date")`. -/
def endField (o : JObj) : Option JVal :=
  pyOrJ (dGet o "endDate") (dGet o "end_date")

/-- Resolution timestamps of the `pairs` elements (skipping non-dicts). -/
def collectPairDts (fromIso : String → Option Int) :
    List JVal → Except Unit (List Int)
  | [] => .ok []
  | p :: rest =>
    match p with
    | .obj po => do
      let pm ← asObjOrEmpty (dGet po "polymarket")
      let rest' ← collectPairDts fromIso rest
      match parseIsoDt fromIso (endField pm) with
      | some dt => .ok (dt :: rest')
      | none => .ok rest'
    | _ => collectPairDts fromIso rest

/-- Resolution timestamps of the `unmatched_polymarket` elements. -/
def collectUnmatchedDts (fromIso : String → Option Int) :
    List JVal → Except Unit (List Int)
  | [] => .ok []
  | u :: rest =>
    match u with
    | .obj uo => do
      let rest' ← collectUnmatchedDts fromIso rest
      match parseIsoDt fromIso (endField uo) with
      | some dt => .ok (dt :: rest')
      | none => .ok rest'
    | _ => collectUnmatchedDts fromIso rest

/-- `_collect_end_dts`. -/
def collectEndDts (fromIso : String → Option Int) (e : JObj) :
    Except Unit (List Int) :=
  match dGet e "type" with
  | some (.str t) =>
    if t = "binary" then do
      let pm ← asObjOrEmpty (dGet e "polymarket")
      match parseIsoDt fromIso (endField pm) with
      | some dt => .ok [dt]
      | none => .ok []
    else if t = "categorical" then do
      let dt0 := parseIsoDt fromIso (pyOrJ (dGet e "polymarket_event_endDate")
        (dGet e "polymarket_event_end_date"))
      let ps ← iterVal (dGet e "pairs")
      let pdts ← collectPairDts fromIso ps
      let us ← iterVal (dGet e "unmatched_polymarket")
      let udts ← collectUnmatchedDts fromIso us
      match dt0 with
      | some d => .ok (d :: (pdts ++ udts))
      | none => .ok (pdts ++ udts)
    else .ok []
  | _ => .ok []

def isExpiredAt (now grace dt : Int) : Bool := dt + grace < now

/-- The removed-child detail record's parent-slug chain
(`entry.get("polymarket_event_slug") or (entry.get("polymarket") or
{}).get("slug") or ""`): lazily evaluated, it raises only when the first
alternative is falsy and `polymarket` is a truthy non-dict. -/
def parentSlugChain (e : JObj) : Except Unit Unit :=
  if truthyO (dGet e "polymarket_event_slug") then .ok ()
  else do
    let _ ← asObjOrEmpty (dGet e "polymarket")
    .ok ()

/-- The sub-filter over `pairs`: non-dict elements are dropped, expired
dict elements are dropped (after the removed-child bookkeeping), all
other elements are kept. -/
def filterPairList (fromIso : String → Option Int) (now grace : Int)
    (e : JObj) : List JVal → Except Unit (List JVal)
  | [] => .ok []
  | p :: rest =>
    match p with
    | .obj po => do
      let pm ← asObjOrEmpty (dGet po "polymarket")
      match parseIsoDt fromIso (endField pm) with
      | some dt =>
        if isExpiredAt now grace dt then do
          parentSlugChain e
          filterPairList fromIso now grace e rest
        else do
          let rest' ← filterPairList fromIso now grace e rest
          .ok (.obj po :: rest')
      | none => do
        let rest' ← filterPairList fromIso now grace e rest
        .ok (.obj po :: rest')
    | _ => filterPairList fromIso now grace e rest

/-- The sub-filter over `unmatched_polymarket`. -/
def filterUnmatchedList (fromIso : String → Option Int) (now grace : Int)
    (e : JObj) : List JVal → Except Unit (List JVal)
  | [] => .ok []
  | u :: rest =>
    match u with
    | .obj uo => do
      match parseIsoDt fromIso (endField uo) with
      | some dt =>
        if isExpiredAt now grace dt then do
          parentSlugChain e
          filterUnmatchedList fromIso now grace e rest
        else do
          let rest' ← filterUnmatchedList fromIso now grace e rest
          .ok (.obj uo :: rest')
      | none => do
        let rest' ← filterUnmatchedList fromIso now grace e rest
        .ok (.obj uo :: rest')
    | _ => filterUnmatchedList fromIso now grace e rest

def entryIsCategorical (e : JObj) : Bool :=
  match dGet e "type" with
  | some (.str t) => t = "categorical"
  | _ => false

/-- Second half of the categorical sub-filtering stage, applied to the
entry with its `pairs` already rewritten: filter `unmatched_polymarket`
and write the filtered list back. -/
def subFilterUnmStage (fromIso : String → Option Int) (now grace : Int)
    (e1 : JObj) : Except Unit JObj := do
  let us ← iterVal (dGet e1 "unmatched_polymarket")
  let newUs ← filterUnmatchedList fromIso now grace e1 us
  .ok (jset e1 "unmatched_polymarket" (.arr newUs))

/-- The categorical sub-filtering stage: filter `pairs` and
`unmatched_polymarket` and write the filtered lists back. -/
def subFilterEntry (fromIso : String → Option Int) (now grace : Int)
    (e : JObj) : Except Unit JObj :=
  if entryIsCategorical e then do
    let ps ← iterVal (dGet e "pairs")
    let newPairs ← filterPairList fromIso now grace e ps
    subFilterUnmStage fromIso now grace (jset e "pairs" (.arr newPairs))
  else .ok e

/-- `not (entry.get("pairs") or [])`. -/
def noPairsLeft (e : JObj) : Bool :=
  !truthyO (pyOrJ (dGet e "pairs") (some (.arr [])))

/-- The final stage for an entry not dropped by the latest-timestamp
rule: a categorical entry left without pairs is dropped only when its
latest-known timestamp is itself expired. -/
def pruneEntryKeepCheck (fromIso : String → Option Int) (now grace : Int)
    (e : JObj) : Except Unit (Option JObj) :=
  if entryIsCategorical e && noPairsLeft e then do
    let dts2 ← collectEndDts fromIso e
    match dts2.max? with
    | some latest2 =>
      if isExpiredAt now grace latest2 then .ok none else .ok (some e)
    | none => .ok (some e)
  else .ok (some e)

/-- Process one entry: `Except.ok none` means the entry is dropped,
`Except.ok (some e')` that the (possibly sub-filtered) entry is kept.
(`if latest and (latest + grace) < now_utc` splits into the `max?` match
plus the expiry test; a datetime is always truthy.) -/
def pruneEntry (fromIso : String → Option Int) (now grace : Int)
    (e0 : JObj) : Except Unit (Option JObj) := do
  let e ← subFilterEntry fromIso now grace e0
  let dts ← collectEndDts fromIso e
  match dts.max? with
  | some latest =>
    if isExpiredAt now grace latest then do
      let _ ← asObjOrEmpty (dGet e "polymarket")
      .ok none
    else pruneEntryKeepCheck fromIso now grace e
  | none => pruneEntryKeepCheck fromIso now grace e

/-- `prune_expired_markets` (the `verbose` printing carries no data; the
detail-record computations that can raise are retained). -/
def pruneExpiredMarkets (fromIso : String → Option Int) (now grace : Int) :
    List JVal → Except Unit (List JVal)
  | [] => .ok []
  | r :: rest =>
    match r with
    | .obj e => do
      let kept ← pruneEntry fromIso now grace e
      let rest' ← pruneExpiredMarkets fromIso now grace rest
      match kept with
      | some e' => .ok (.obj e' :: rest')
      | none => .ok rest'
    | _ => pruneExpiredMarkets fromIso now grace rest

/-! ### Shape predicates for the pruner

`prune_expired_markets` can only raise on data whose *shape* is broken
(a truthy non-dict where a dict is accessed, or iterating a truthy
number); these predicates capture exactly the shape accesses and place
no constraint whatsoever on the `endDate`/`end_date` timestamp fields. -/

/-- `(o.get(k) or {}).get(...)` cannot raise: the field is absent, falsy,
or a dict. -/
def fieldObjOk (o : JObj) (k : String) : Bool :=
  match dGet o k with
  | none => true
  | some (.obj _) => true
  | some w => !truthy w

def pairElemOk : JVal → Bool
  | .obj po => fieldObjOk po "polymarket"
  | _ => true

/-- `for x in (e.get(k) or [])` cannot raise and each element satisfies
`elemOk`. -/
def listFieldOk (e : JObj) (k : String) (elemOk : JVal → Bool) : Bool :=
  match dGet e k with
  | none => true
  | some (.arr xs) => xs.all elemOk
  | some w => !truthy w

/-- Shape well-formedness of one entry for the pruner; note that no
timestamp field is constrained. -/
def wellShapedEntry (e : JObj) : Bool :=
  fieldObjOk e "polymarket" && listFieldOk e "pairs" pairElemOk
    && listFieldOk e "unmatched_polymarket" (fun _ => true)

/-- First-defined alternative of two optional values. -/
def oOr (a b : Option Nat) : Option Nat :=
  match a with
  | some x => some x
  | none => b

/-- The exception raised in the attempt window `[k, k + m)`, if any
(latest wins). -/
def lastExcIn (att : Nat → AttemptOutcome) (k : Nat) : Nat → Option Nat
  | 0 => none
  | m + 1 =>
    match att (k + m) with
    | .exc e => some e
    | .resp _ => lastExcIn att k m

/-- The exception attempt `k` raised, if it raised one. -/
def excAt (att : Nat → AttemptOutcome) (k : Nat) : Option Nat :=
  match att k with
  | .exc e => some e
  | .resp _ => none

/-! ### Concrete instances used by the theorems below -/

/-- Side-A (Opinion) children for the spec's matching example. -/
def opChildrenEx : List OpChild :=
  [⟨some 1, "Decrease", some "oy1", some "on1"⟩,
   ⟨some 2, "Increase", some "oy2", some "on2"⟩,
   ⟨some 3, "No change", some "oy3", some "on3"⟩]

/-- Side-B (Polymarket) candidate markets for the spec's matching example. -/
def pmMarketsEx : List PmMarket :=
  [⟨"101", "", "25 bps decrease", some "py1", some "pn1", none, false⟩,
   ⟨"102", "", "25 bps increase", some "py2", some "pn2", none, false⟩,
   ⟨"103", "", "Fed holds rates", some "py3", some "pn3", none, false⟩]

/-- A side-A item whose label ties two identical side-B candidates. -/
def opItemTie : OpItem := mkOpItem ⟨some 1, "alpha", some "y", some "n"⟩

def pmItemTieA : PmItem :=
  { m := ⟨"1", "", "alpha", some "a", some "b", none, false⟩
    keys := makeKeys "alpha" "", norm := normText "alpha" }

def pmItemTieB : PmItem :=
  { m := ⟨"2", "", "alpha", some "c", some "d", none, false⟩
    keys := makeKeys "alpha" "", norm := normText "alpha" }

/-- An Opinion child carrying neither trade identifier. -/
def opChildNoIds : OpChild := ⟨some 1, "alpha", none, none⟩

def pmMarketWithIds : PmMarket := ⟨"9", "", "alpha", some "py", some "pn", none, false⟩

/-- The pair the matcher emits for `opChildNoIds` against
`pmMarketWithIds`. -/
def pairC4 : MatchedPair :=
  ⟨"alpha", some 1, none, none, "9", "", "alpha", some "py", some "pn", none⟩

/-- A fully usable binary cache entry. -/
def entryUsableEx : JObj :=
  [("schema_version", .num 6), ("type", .str "binary"), ("name", .str "A"),
   ("opinion", .obj [("yes_token_id", .str "y"), ("no_token_id", .str "n")]),
   ("polymarket", .obj [("clob_token_ids", .arr [.str "c1", .str "c2"])])]

/-- Attempts for the retry witness: one connection failure, then 200. -/
def attEx : Nat → AttemptOutcome := fun k => if k = 0 then .exc 5 else .resp 200

/-- Attempts for the retry witness: a 500, then an exception; with two
total attempts every attempt is retried and retries are exhausted. -/
def attEx2 : Nat → AttemptOutcome := fun k => if k = 0 then .resp 500 else .exc 7

/-- A cache entry persisted under schema version 5 (complete fields). -/
def entryV5Ex : JObj := ("schema_version", JVal.num 5) :: entryUsableEx

/-- An ISO parser that rejects every string (for witnesses). -/
def fiW : String → Option Int := fun _ => none

/-- An ISO parser understanding exactly the string `"2020"` (for
witnesses). -/
def fiW2 : String → Option Int := fun s => if s = "2020" then some 100 else none

/-- A matched-pair dict with no timestamp anywhere (for witnesses). -/
def pairW : JObj := [("candidate", JVal.str "x")]

/-- A well-shaped binary entry with no timestamp (for witnesses). -/
def entryW : JObj := [("type", JVal.str "binary")]

/-- A binary entry whose Polymarket end date parses (via `fiW2`) to 100
(for witnesses). -/
def entryExp : JObj :=
  [("type", JVal.str "binary"),
   ("polymarket", JVal.obj [("endDate", JVal.str "2020")])]

def cfgDupA : MCfg := ⟨"A", 0⟩

def cfgDupB : MCfg := ⟨"B", 1⟩

/-- Both configurations share the cache key `"k"`. -/
def keyOfDup : MCfg → Option String := fun _ => some "k"

/-- Config `A` builds successfully, config `B`'s task raises. -/
def buildResDup : MCfg → Option JObj :=
  fun c => if c.id = 0 then some entryUsableEx else none

def cfgWA : MCfg := ⟨"A", 0⟩

def cfgWB : MCfg := ⟨"B", 1⟩

def keyOfW : MCfg → Option String := fun c => some c.name

def buildResW : MCfg → Option JObj :=
  fun c => if c.name = "A" then some entryUsableEx else none

/-! ## Theorems -/

/-- **C1** (counterexample): on side-A labels `["Decrease", "Increase",
"No change"]` and side-B labels `["25 bps decrease", "25 bps increase",
"Fed holds rates"]`, the key generator plus candidate matcher do NOT
produce 3 matched pairs with zero unmatched items: they produce no pair
at all. -/
theorem c1_counterexample :
    ¬((matchCategorical opChildrenEx pmMarketsEx none).pairs.length = 3 ∧
      (matchCategorical opChildrenEx pmMarketsEx none).unmatched_opinion.length = 0 ∧
      (matchCategorical opChildrenEx pmMarketsEx none).unmatched_polymarket.length = 0) := by
  decide

/-- **C1** (amended): on those inputs the matcher produces exactly 0
matched pairs and 3 unmatched items on each side; the only fingerprint
of `"Decrease"` is `"decrease"`, which is not among the fingerprints of
`"25 bps decrease"` (whose only fingerprint is the whole label), so the
two share no fingerprint and are not paired. -/
theorem c1_amended :
    (matchCategorical opChildrenEx pmMarketsEx none).pairs = [] ∧
    (matchCategorical opChildrenEx pmMarketsEx none).unmatched_opinion.length = 3 ∧
    (matchCategorical opChildrenEx pmMarketsEx none).unmatched_polymarket.length = 3 ∧
    makeKeys "Decrease" "" = ["decrease"] ∧
    makeKeys "25 bps decrease" "" = ["25 bps decrease"] ∧
    interKeys (makeKeys "Decrease" "") (makeKeys "25 bps decrease" "") = [] := by
  decide

/-- **C2** (counterexample): with two eligible side-B candidates of equal
score whose normalized labels both string-equal the side-A item's
normalized label, the matcher picks the SECOND-encountered candidate,
not the first. -/
theorem c2_counterexample :
    pickBest opItemTie [pmItemTieA, pmItemTieB] [] = some pmItemTieB ∧
    pmItemTieA ≠ pmItemTieB ∧
    pbEligible opItemTie [] pmItemTieA = true ∧
    pbEligible opItemTie [] pmItemTieB = true ∧
    pbScore opItemTie pmItemTieA = pbScore opItemTie pmItemTieB ∧
    pmItemTieA.norm = opItemTie.norm ∧
    pmItemTieB.norm = opItemTie.norm := by
  decide

/-- **C3** (counterexample): the key generator returns the empty set for
the non-empty label `"!"`. -/
theorem c3_counterexample : makeKeys "!" "" = [] ∧ "!" ≠ "" := by
  decide

/-- **C4** (counterexample): an Opinion (side-A) outcome carrying neither
trade identifier is still matched, and the emitted pair carries `None`
for both side-A trade identifiers. -/
theorem c4_counterexample :
    (matchCategorical [opChildNoIds] [pmMarketWithIds] none).pairs.map
      (fun p => (p.op_yes_token_id, p.op_no_token_id)) = [(none, none)] ∧
    (matchCategorical [opChildNoIds] [pmMarketWithIds] none).pairs.length = 1 := by
  decide

/-- **C5** (counterexample): two configs share cache key `"k"`; the
loaded cache is empty, config `A` succeeds and config `B`'s task fails
after `A` completes.  The claim says `B` contributes no entry (its task
failed and no usable prior cache entry exists), but `B` contributes
`A`'s fresh entry (renamed to `B`): the result has two entries. -/
theorem c5_counterexample :
    buildAll [cfgDupA, cfgDupB] [] false true keyOfDup buildResDup [0, 1]
      = [entryUsableEx, setNm entryUsableEx "B"] ∧
    cacheGet ([] : CacheMap) "k" = none ∧
    buildResDup cfgDupB = none ∧
    entryIsUsable entryUsableEx = true := by
  exact ⟨rfl, rfl, rfl, rfl⟩

/-! ### Retry-client lemmas (C6) -/

theorem oOr_assoc (a b c : Option Nat) : oOr (oOr a b) c = oOr a (oOr b c) := by
  cases a <;> simp [oOr]

theorem oOr_none_right (a : Option Nat) : oOr a none = a := by
  cases a <;> simp [oOr]

theorem retryGo_zero (att : Nat → AttemptOutcome) (k : Nat) (le : Option Nat) :
    retryGo att 0 k le = .error le := rfl

theorem retryGo_succ (att : Nat → AttemptOutcome) (fuel k : Nat) (le : Option Nat) :
    retryGo att (fuel + 1) k le =
      match att k with
      | .resp s =>
        if s = 200 then .ok (k, 200)
        else if s = 403 && k = 0 then retryGo att fuel (k + 1) le
        else if retryableStatus s then retryGo att fuel (k + 1) le
        else .ok (k, s)
      | .exc e => retryGo att fuel (k + 1) (some e) := rfl

theorem lastExcIn_succ_left (att : Nat → AttemptOutcome) (k m : Nat) :
    lastExcIn att k (m + 1) = oOr (lastExcIn att (k + 1) m) (excAt att k) := by
  induction m with
  | zero =>
    show (match att (k + 0) with | .exc e => some e | .resp _ => lastExcIn att k 0) = _
    rw [Nat.add_zero]
    cases h : att k <;> simp [lastExcIn, oOr, excAt, h]
  | succ m ih =>
    have hx : k + (m + 1) = (k + 1) + m := by omega
    have lhs : lastExcIn att k (m + 1 + 1) =
        (match att ((k + 1) + m) with
         | .exc e => some e
         | .resp _ => lastExcIn att k (m + 1)) := by
      show (match att (k + (m + 1)) with
        | .exc e => some e
        | .resp _ => lastExcIn att k (m + 1)) = _
      rw [hx]
    have rhs : lastExcIn att (k + 1) (m + 1) =
        (match att ((k + 1) + m) with
         | .exc e => some e
         | .resp _ => lastExcIn att (k + 1) m) := rfl
    rw [lhs, rhs]
    cases hm : att ((k + 1) + m) with
    | exc e => simp [oOr]
    | resp s => simpa [oOr] using ih

theorem lastExcBefore_eq (att : Nat → AttemptOutcome) (n : Nat) :
    lastExcBefore att n = lastExcIn att 0 n := by
  induction n with
  | zero => rfl
  | succ n ih =>
    show (match att n with | .exc e => some e | .resp _ => lastExcBefore att n) = _
    show _ = (match att (0 + n) with | .exc e => some e | .resp _ => lastExcIn att 0 n)
    rw [Nat.zero_add, ih]

theorem retryGo_step_retried (att : Nat → AttemptOutcome) (fuel k : Nat)
    (le : Option Nat) (h : retriedAttempt k (att k) = true) :
    retryGo att (fuel + 1) k le =
      retryGo att fuel (k + 1) (oOr (excAt att k) le) := by
  rw [retryGo_succ]
  unfold excAt
  cases ho : att k with
  | exc e => simp [oOr]
  | resp s =>
    rw [ho] at h
    unfold retriedAttempt at h
    simp only [Bool.or_eq_true, Bool.and_eq_true, decide_eq_true_eq] at h
    have hs200 : ¬(s = 200) := by
      rintro rfl
      simp [retryableStatus] at h
    rcases h with ⟨h403, hk0⟩ | hretry
    · subst h403
      subst hk0
      simp [oOr]
    · have : (decide (s = 403) && decide (k = 0)) = true ∨
          (decide (s = 403) && decide (k = 0)) = false := by
        cases (decide (s = 403) && decide (k = 0)) <;> simp
      rcases this with h4 | h4 <;> simp [hs200, h4, hretry, oOr]

theorem retryGo_exhaust (att : Nat → AttemptOutcome) :
    ∀ fuel k le, (∀ i, i < fuel → retriedAttempt (k + i) (att (k + i)) = true) →
      retryGo att fuel k le = .error (oOr (lastExcIn att k fuel) le) := by
  intro fuel
  induction fuel with
  | zero =>
    intro k le _
    rw [retryGo_zero]
    simp [lastExcIn, oOr]
  | succ fuel ih =>
    intro k le h
    have h0 : retriedAttempt k (att k) = true := by
      simpa using h 0 (Nat.succ_pos _)
    rw [retryGo_step_retried att fuel k le h0]
    rw [ih (k + 1) _ (fun i hi => by
      have := h (i + 1) (by omega)
      have hx : k + (i + 1) = (k + 1) + i := by omega
      rwa [hx] at this)]
    rw [lastExcIn_succ_left, oOr_assoc]

theorem retryGo_returns (att : Nat → AttemptOutcome) :
    ∀ j fuel k le, j < fuel →
      (∀ i, i < j → retriedAttempt (k + i) (att (k + i)) = true) →
      ((att (k + j) = .resp 200 → retryGo att fuel k le = .ok (k + j, 200)) ∧
       (∀ s, att (k + j) = .resp s → s ≠ 200 → retryableStatus s = false →
         ¬(s = 403 ∧ k + j = 0) → retryGo att fuel k le = .ok (k + j, s))) := by
  intro j
  induction j with
  | zero =>
    intro fuel k le hlt _
    cases fuel with
    | zero => omega
    | succ fuel =>
      constructor
      · intro h200
        rw [Nat.add_zero] at h200 ⊢
        rw [retryGo_succ, h200]
        simp
      · intro s hs hne hnr hn403
        rw [Nat.add_zero] at hs hn403 ⊢
        rw [retryGo_succ, hs]
        have : (decide (s = 403) && decide (k = 0)) = false := by
          by_cases h1 : s = 403
          · have h2 : ¬(k = 0) := fun hk => hn403 ⟨h1, hk⟩
            simp [h1, h2]
          · simp [h1]
        simp [hne, this, hnr]
  | succ j ih =>
    intro fuel k le hlt hpre
    cases fuel with
    | zero => omega
    | succ fuel =>
      have h0 : retriedAttempt k (att k) = true := by
        simpa using hpre 0 (Nat.succ_pos _)
      rw [retryGo_step_retried att fuel k le h0]
      have hsh : (k + 1) + j = k + (j + 1) := by omega
      have := ih fuel (k + 1) (oOr (excAt att k) le)
        (by omega)
        (fun i hi => by
          have := hpre (i + 1) (by omega)
          have hx : k + (i + 1) = (k + 1) + i := by omega
          rwa [hx] at this)
      rwa [hsh] at this

/-! ### Usability-check lemmas (C7) -/

theorem entryIsUsable_eq_spec (e : JObj) : entryIsUsable e = entryUsableSpec e := by
  unfold entryIsUsable entryUsableSpec
  cases hsv : dGet e "schema_version" with
  | none => simp
  | some v =>
    cases v with
    | num n =>
      by_cases hn : n = SCHEMA_VERSION
      · subst hn
        cases ht : dGet e "type" with
        | none => simp
        | some tv =>
          cases tv with
          | str t =>
            by_cases hb : t = "binary"
            · subst hb
              cases hop : dGetObjD e "opinion" with
              | none =>
                cases hpm : dGetObjD e "polymarket" <;> simp [hop, hpm]
              | some op =>
                cases hpm : dGetObjD e "polymarket" with
                | none => simp [hop, hpm]
                | some pm => simp [hop, hpm]
            · by_cases hc : t = "categorical"
              · subst hc
                simp only [hb, if_false, if_true]
                cases hp : dGet e "pairs" with
                | none => simp [hb]
                | some pv => cases pv <;> simp [hb]
              · simp [hb, hc]
          | null => simp
          | bool b => simp
          | num m => simp
          | arr xs => simp
          | obj fs => simp
      · simp [hn]
    | null => simp
    | bool b => simp
    | str s => simp
    | arr xs => simp
    | obj fs => simp

/-- **C6**: an HTTP 200 response on a reached attempt is returned
immediately; a reached response whose status is not 200, not retryable
(429/500/502/503/504) and not a first-attempt 403 is returned as-is;
and when every attempt is retried, exhausting the `maxRetries` attempts
raises the distinct fetch-failure error (`Except.error`, modelling
`TokenFetcherError`) carrying the last underlying exception (`none` when
every retry was triggered by an HTTP status rather than an exception). -/
theorem c6_fetch_retry (n : Nat) (att : Nat → AttemptOutcome) :
    (∀ k, k < n → (∀ j, j < k → retriedAttempt j (att j) = true) →
      ((att k = .resp 200 → requestWithRetry n att = .ok (k, 200)) ∧
       (∀ s, att k = .resp s → s ≠ 200 → retryableStatus s = false →
         ¬(s = 403 ∧ k = 0) → requestWithRetry n att = .ok (k, s)))) ∧
    ((∀ j, j < n → retriedAttempt j (att j) = true) →
      requestWithRetry n att = .error (lastExcBefore att n)) := by
  constructor
  · intro k hk hpre
    have h := retryGo_returns att k n 0 none hk
      (fun i hi => by simpa using hpre i hi)
    rw [Nat.zero_add] at h
    exact h
  · intro hall
    have h := retryGo_exhaust att n 0 none
      (fun i hi => by simpa using hall i hi)
    rw [requestWithRetry, h, lastExcBefore_eq, oOr_none_right]

/-- Witness for C6: with 2 attempts, an exception then a 200 returns the
200 on attempt 1; a 500 then an exception exhausts both attempts and the
raised error carries the exception from attempt 1. -/
theorem c6_witness :
    requestWithRetry 2 attEx = .ok (1, 200) ∧
    requestWithRetry 2 attEx2 = .error (some 7) := by
  constructor
  · exact ((c6_fetch_retry 2 attEx).1 1 (by omega)
      (fun j hj => by
        have hj0 : j = 0 := by omega
        subst hj0
        decide)).1 rfl
  · have h := (c6_fetch_retry 2 attEx2).2 (fun j hj => by
      have : j = 0 ∨ j = 1 := by omega
      rcases this with h | h <;> (subst h; decide))
    rw [h]
    rfl

/-- **C7**: the cached-entry usability check agrees exactly with the
spec's description (schema-version tag equal to the current
SCHEMA_VERSION, and for binary kind both Opinion trade identifiers and
the Polymarket clob-token-id list present, or for categorical kind a
list-valued pairs field); in particular any entry whose schema-version
tag differs from the current version is never usable. -/
theorem c7_usable_iff (e : JObj) :
    entryIsUsable e = entryUsableSpec e ∧
    (dGet e "schema_version" ≠ some (.num SCHEMA_VERSION) →
      entryIsUsable e = false) := by
  refine ⟨entryIsUsable_eq_spec e, ?_⟩
  intro hne
  unfold entryIsUsable
  cases hsv : dGet e "schema_version" with
  | none => rfl
  | some v =>
    cases v with
    | num n =>
      have hnn : n ≠ SCHEMA_VERSION := by
        rintro rfl
        exact hne hsv
      simp [hnn]
    | null => rfl
    | bool b => rfl
    | str s => rfl
    | arr xs => rfl
    | obj fs => rfl

/-- Witness for C7: a field-complete binary entry persisted under schema
version 5 is not usable. -/
theorem c7_witness : entryIsUsable entryV5Ex = false := by
  refine (c7_usable_iff entryV5Ex).2 ?_
  intro h
  have h5 : dGet entryV5Ex "schema_version" = some (.num 5) := rfl
  rw [h5] at h
  simp [SCHEMA_VERSION] at h

/-! ### Dict and bind lemmas -/

theorem dGet_cons (p : String × JVal) (rest : JObj) (k : String) :
    dGet (p :: rest) k = if p.1 = k then some p.2 else dGet rest k := by
  by_cases h : p.1 = k <;> simp [dGet, List.find?_cons, h]

theorem dGet_jset_self (o : JObj) (k : String) (v : JVal) :
    dGet (jset o k v) k = some v := by
  induction o with
  | nil => simp [jset, dGet_cons]
  | cons p rest ih =>
    by_cases h : p.1 = k
    · simp [jset, h, dGet_cons]
    · simp [jset, h, dGet_cons, ih]

theorem dGet_jset_ne (o : JObj) (k k' : String) (v : JVal) (h : k' ≠ k) :
    dGet (jset o k v) k' = dGet o k' := by
  have hkk : ¬(k = k') := fun hh => h hh.symm
  induction o with
  | nil =>
    rw [jset, dGet_cons]
    simp [hkk, dGet]
  | cons p rest ih =>
    by_cases hp : p.1 = k
    · rw [jset]
      simp only [hp, if_true]
      rw [dGet_cons, dGet_cons]
      simp [hkk, hp]
    · rw [jset]
      simp only [hp, if_false]
      rw [dGet_cons, dGet_cons, ih]

theorem jset_id (o : JObj) (k : String) (v : JVal) (h : dGet o k = some v) :
    jset o k v = o := by
  induction o with
  | nil => simp [dGet] at h
  | cons p rest ih =>
    rw [dGet_cons] at h
    by_cases hp : p.1 = k
    · rw [if_pos hp] at h
      have hv : p.2 = v := Option.some.inj h
      rw [jset]
      simp only [hp, if_true]
      rw [← hv, ← hp]
    · rw [if_neg hp] at h
      rw [jset]
      simp [hp, ih h]

theorem ebind_ok {α β : Type} (a : α) (f : α → Except Unit β) :
    (Except.ok a >>= f) = f a := rfl

theorem ebind_err {α β : Type} (u : Unit) (f : α → Except Unit β) :
    ((Except.error u : Except Unit α) >>= f) = Except.error u := rfl

/-! ### Parser lemmas (C10) -/

theorem parseIsoDt_non_string (fromIso : String → Option Int) (v : Option JVal)
    (h : ∀ s : String, v ≠ some (.str s)) : parseIsoDt fromIso v = none := by
  cases v with
  | none => rfl
  | some w =>
    cases w with
    | str s => exact absurd rfl (h s)
    | null => rfl
    | bool b => rfl
    | num n => rfl
    | arr xs => rfl
    | obj fs => rfl

theorem parseIsoDt_empty (fromIso : String → Option Int) :
    parseIsoDt fromIso (some (.str "")) = none := by
  simp [parseIsoDt]

theorem parseIsoDt_unparseable (fromIso : String → Option Int) (s : String)
    (h : fromIso (String.mk (replaceZ (trimWs s.toList))) = none) :
    parseIsoDt fromIso (some (.str s)) = none := by
  show (if s = "" then none
    else fromIso (String.mk (replaceZ (trimWs s.toList)))) = none
  by_cases hs : s = ""
  · rw [if_pos hs]
  · rw [if_neg hs]
    exact h

/-! ### Sub-filter membership lemmas (C8, C10) -/

theorem filterPairList_keeps (fromIso : String → Option Int) (now grace : Int)
    (e : JObj) :
    ∀ l out, filterPairList fromIso now grace e l = .ok out →
      ∀ po pm, JVal.obj po ∈ l →
        asObjOrEmpty (dGet po "polymarket") = .ok pm →
        parseIsoDt fromIso (endField pm) = none →
        JVal.obj po ∈ out := by
  intro l
  induction l with
  | nil =>
    intro out _ po pm hmem
    simp at hmem
  | cons p rest ih =>
    intro out h po pm hmem hobj hparse
    rcases List.mem_cons.mp hmem with heq | hmem'
    · subst heq
      rw [filterPairList] at h
      simp only [hobj, ebind_ok, hparse] at h
      cases hr : filterPairList fromIso now grace e rest with
      | error u =>
        rw [hr, ebind_err] at h
        exact Except.noConfusion h
      | ok rest' =>
        simp only [hr, ebind_ok] at h
        injection h with h'
        rw [← h']
        exact List.mem_cons_self _ _
    · cases p with
      | obj qo =>
        rw [filterPairList] at h
        cases hq : asObjOrEmpty (dGet qo "polymarket") with
        | error u =>
          rw [hq, ebind_err] at h
          exact Except.noConfusion h
        | ok pmq =>
          simp only [hq, ebind_ok] at h
          cases hpq : parseIsoDt fromIso (endField pmq) with
          | some dt =>
            simp only [hpq] at h
            by_cases hex : isExpiredAt now grace dt = true
            · rw [if_pos hex] at h
              cases hsl : parentSlugChain e with
              | error u =>
                rw [hsl, ebind_err] at h
                exact Except.noConfusion h
              | ok u =>
                simp only [hsl, ebind_ok] at h
                exact ih out h po pm hmem' hobj hparse
            · rw [if_neg hex] at h
              cases hr : filterPairList fromIso now grace e rest with
              | error u =>
        rw [hr, ebind_err] at h
        exact Except.noConfusion h
              | ok rest' =>
                simp only [hr, ebind_ok] at h
                injection h with h'
                rw [← h']
                exact List.mem_cons_of_mem _ (ih rest' hr po pm hmem' hobj hparse)
          | none =>
            simp only [hpq] at h
            cases hr : filterPairList fromIso now grace e rest with
            | error u =>
        rw [hr, ebind_err] at h
        exact Except.noConfusion h
            | ok rest' =>
              simp only [hr, ebind_ok] at h
              injection h with h'
              rw [← h']
              exact List.mem_cons_of_mem _ (ih rest' hr po pm hmem' hobj hparse)
      | null => exact ih out h po pm hmem' hobj hparse
      | bool b => exact ih out h po pm hmem' hobj hparse
      | num n => exact ih out h po pm hmem' hobj hparse
      | str s => exact ih out h po pm hmem' hobj hparse
      | arr xs => exact ih out h po pm hmem' hobj hparse

theorem filterUnmatchedList_keeps (fromIso : String → Option Int) (now grace : Int)
    (e : JObj) :
    ∀ l out, filterUnmatchedList fromIso now grace e l = .ok out →
      ∀ uo, JVal.obj uo ∈ l →
        parseIsoDt fromIso (endField uo) = none →
        JVal.obj uo ∈ out := by
  intro l
  induction l with
  | nil =>
    intro out _ uo hmem
    simp at hmem
  | cons p rest ih =>
    intro out h uo hmem hparse
    rcases List.mem_cons.mp hmem with heq | hmem'
    · subst heq
      rw [filterUnmatchedList] at h
      simp only [hparse] at h
      cases hr : filterUnmatchedList fromIso now grace e rest with
      | error u =>
        rw [hr, ebind_err] at h
        exact Except.noConfusion h
      | ok rest' =>
        simp only [hr, ebind_ok] at h
        injection h with h'
        rw [← h']
        exact List.mem_cons_self _ _
    · cases p with
      | obj qo =>
        rw [filterUnmatchedList] at h
        cases hpq : parseIsoDt fromIso (endField qo) with
        | some dt =>
          simp only [hpq] at h
          by_cases hex : isExpiredAt now grace dt = true
          · rw [if_pos hex] at h
            cases hsl : parentSlugChain e with
            | error u =>
                rw [hsl, ebind_err] at h
                exact Except.noConfusion h
            | ok u =>
              simp only [hsl, ebind_ok] at h
              exact ih out h uo hmem' hparse
          · rw [if_neg hex] at h
            cases hr : filterUnmatchedList fromIso now grace e rest with
            | error u =>
        rw [hr, ebind_err] at h
        exact Except.noConfusion h
            | ok rest' =>
              simp only [hr, ebind_ok] at h
              injection h with h'
              rw [← h']
              exact List.mem_cons_of_mem _ (ih rest' hr uo hmem' hparse)
        | none =>
          simp only [hpq] at h
          cases hr : filterUnmatchedList fromIso now grace e rest with
          | error u =>
        rw [hr, ebind_err] at h
        exact Except.noConfusion h
          | ok rest' =>
            simp only [hr, ebind_ok] at h
            injection h with h'
            rw [← h']
            exact List.mem_cons_of_mem _ (ih rest' hr uo hmem' hparse)
      | null => exact ih out h uo hmem' hparse
      | bool b => exact ih out h uo hmem' hparse
      | num n => exact ih out h uo hmem' hparse
      | str s => exact ih out h uo hmem' hparse
      | arr xs => exact ih out h uo hmem' hparse

/-! ### Pruner success lemmas (C10) -/

theorem asObjOrEmpty_ok_of_fieldObjOk (o : JObj) (k : String)
    (h : fieldObjOk o k = true) :
    ∃ pm, asObjOrEmpty (dGet o k) = .ok pm := by
  unfold fieldObjOk at h
  unfold asObjOrEmpty
  cases hv : dGet o k with
  | none => exact ⟨[], rfl⟩
  | some w =>
    rw [hv] at h
    by_cases ht : truthy w = true
    · cases w with
      | obj o2 => exact ⟨o2, by simp [ht]⟩
      | null => simp [truthy] at ht
      | bool b => simp [ht] at h
      | num n => simp [ht] at h
      | str s => simp [ht] at h
      | arr xs => simp [ht] at h
    · refine ⟨[], ?_⟩
      simp only [Bool.not_eq_true] at ht
      simp [ht]

theorem parentSlugChain_ok (e : JObj) (h : fieldObjOk e "polymarket" = true) :
    parentSlugChain e = .ok () := by
  unfold parentSlugChain
  by_cases hs : truthyO (dGet e "polymarket_event_slug") = true
  · rw [if_pos hs]
  · rw [if_neg hs]
    obtain ⟨pm, hpm⟩ := asObjOrEmpty_ok_of_fieldObjOk e "polymarket" h
    rw [hpm, ebind_ok]

theorem iterVal_ok_of_listFieldOk (e : JObj) (k : String) (q : JVal → Bool)
    (h : listFieldOk e k q = true) :
    ∃ xs, iterVal (dGet e k) = .ok xs ∧ ∀ x ∈ xs, q x = true := by
  unfold listFieldOk at h
  unfold iterVal
  cases hv : dGet e k with
  | none => exact ⟨[], rfl, by simp⟩
  | some w =>
    rw [hv] at h
    by_cases ht : truthy w = true
    · cases w with
      | arr xs =>
        refine ⟨xs, by simp [ht], ?_⟩
        intro x hx
        exact List.all_eq_true.mp h x hx
      | null => simp [truthy] at ht
      | bool b => simp [ht] at h
      | num n => simp [ht] at h
      | str s => simp [ht] at h
      | obj fs => simp [ht] at h
    · refine ⟨[], ?_, by simp⟩
      simp only [Bool.not_eq_true] at ht
      simp [ht]

theorem filterPairList_ok (fromIso : String → Option Int) (now grace : Int)
    (e : JObj) (he : fieldObjOk e "polymarket" = true) :
    ∀ l, (∀ p ∈ l, pairElemOk p = true) →
      ∃ out, filterPairList fromIso now grace e l = .ok out ∧
        ∀ x ∈ out, x ∈ l := by
  intro l
  induction l with
  | nil => exact fun _ => ⟨[], rfl, by simp⟩
  | cons p rest ih =>
    intro hall
    have hrest := ih (fun x hx => hall x (List.mem_cons_of_mem _ hx))
    obtain ⟨out', hout', hsub⟩ := hrest
    cases p with
    | obj po =>
      have hpo : fieldObjOk po "polymarket" = true := by
        have := hall (.obj po) (List.mem_cons_self _ _)
        simpa [pairElemOk] using this
      obtain ⟨pm, hpm⟩ := asObjOrEmpty_ok_of_fieldObjOk po "polymarket" hpo
      rw [filterPairList]
      rw [hpm, ebind_ok]
      cases hpq : parseIsoDt fromIso (endField pm) with
      | some dt =>
        by_cases hex : isExpiredAt now grace dt = true
        · refine ⟨out', ?_, fun x hx => List.mem_cons_of_mem _ (hsub x hx)⟩
          rw [parentSlugChain_ok e he, ebind_ok]
          simp [hex, hout']
        · refine ⟨.obj po :: out', ?_, ?_⟩
          · simp only [Bool.not_eq_true] at hex
            simp [hex, hout', ebind_ok]
          · intro x hx
            rcases List.mem_cons.mp hx with rfl | hx'
            · exact List.mem_cons_self _ _
            · exact List.mem_cons_of_mem _ (hsub x hx')
      | none =>
        refine ⟨.obj po :: out', ?_, ?_⟩
        · simp [hout', ebind_ok]
        · intro x hx
          rcases List.mem_cons.mp hx with rfl | hx'
          · exact List.mem_cons_self _ _
          · exact List.mem_cons_of_mem _ (hsub x hx')
    | null =>
      exact ⟨out', hout', fun x hx => List.mem_cons_of_mem _ (hsub x hx)⟩
    | bool b =>
      exact ⟨out', hout', fun x hx => List.mem_cons_of_mem _ (hsub x hx)⟩
    | num n =>
      exact ⟨out', hout', fun x hx => List.mem_cons_of_mem _ (hsub x hx)⟩
    | str s =>
      exact ⟨out', hout', fun x hx => List.mem_cons_of_mem _ (hsub x hx)⟩
    | arr xs =>
      exact ⟨out', hout', fun x hx => List.mem_cons_of_mem _ (hsub x hx)⟩

theorem filterUnmatchedList_ok (fromIso : String → Option Int) (now grace : Int)
    (e : JObj) (he : fieldObjOk e "polymarket" = true) :
    ∀ l, ∃ out, filterUnmatchedList fromIso now grace e l = .ok out := by
  intro l
  induction l with
  | nil => exact ⟨[], rfl⟩
  | cons p rest ih =>
    obtain ⟨out', hout'⟩ := ih
    cases p with
    | obj uo =>
      rw [filterUnmatchedList]
      cases hpq : parseIsoDt fromIso (endField uo) with
      | some dt =>
        by_cases hex : isExpiredAt now grace dt = true
        · refine ⟨out', ?_⟩
          rw [parentSlugChain_ok e he, ebind_ok]
          simp [hex, hout']
        · refine ⟨.obj uo :: out', ?_⟩
          simp only [Bool.not_eq_true] at hex
          simp [hex, hout', ebind_ok]
      | none =>
        exact ⟨.obj uo :: out', by simp [hout', ebind_ok]⟩
    | null => exact ⟨out', hout'⟩
    | bool b => exact ⟨out', hout'⟩
    | num n => exact ⟨out', hout'⟩
    | str s => exact ⟨out', hout'⟩
    | arr xs => exact ⟨out', hout'⟩

theorem collectPairDts_ok (fromIso : String → Option Int) :
    ∀ l, (∀ p ∈ l, pairElemOk p = true) →
      ∃ dts, collectPairDts fromIso l = .ok dts := by
  intro l
  induction l with
  | nil => exact fun _ => ⟨[], rfl⟩
  | cons p rest ih =>
    intro hall
    obtain ⟨dts', hdts'⟩ := ih (fun x hx => hall x (List.mem_cons_of_mem _ hx))
    cases p with
    | obj po =>
      have hpo : fieldObjOk po "polymarket" = true := by
        have := hall (.obj po) (List.mem_cons_self _ _)
        simpa [pairElemOk] using this
      obtain ⟨pm, hpm⟩ := asObjOrEmpty_ok_of_fieldObjOk po "polymarket" hpo
      rw [collectPairDts, hpm, ebind_ok]
      cases hpq : parseIsoDt fromIso (endField pm) with
      | some dt => exact ⟨dt :: dts', by simp [hdts', ebind_ok]⟩
      | none => exact ⟨dts', by simp [hdts', ebind_ok]⟩
    | null => exact ⟨dts', hdts'⟩
    | bool b => exact ⟨dts', hdts'⟩
    | num n => exact ⟨dts', hdts'⟩
    | str s => exact ⟨dts', hdts'⟩
    | arr xs => exact ⟨dts', hdts'⟩

theorem collectUnmatchedDts_ok (fromIso : String → Option Int) :
    ∀ l, ∃ dts, collectUnmatchedDts fromIso l = .ok dts := by
  intro l
  induction l with
  | nil => exact ⟨[], rfl⟩
  | cons p rest ih =>
    obtain ⟨dts', hdts'⟩ := ih
    cases p with
    | obj uo =>
      rw [collectUnmatchedDts]
      cases hpq : parseIsoDt fromIso (endField uo) with
      | some dt => exact ⟨dt :: dts', by simp [hdts', ebind_ok]⟩
      | none => exact ⟨dts', by simp [hdts', ebind_ok]⟩
    | null => exact ⟨dts', hdts'⟩
    | bool b => exact ⟨dts', hdts'⟩
    | num n => exact ⟨dts', hdts'⟩
    | str s => exact ⟨dts', hdts'⟩
    | arr xs => exact ⟨dts', hdts'⟩

theorem collectEndDts_ok (fromIso : String → Option Int) (e : JObj)
    (h : wellShapedEntry e = true) :
    ∃ dts, collectEndDts fromIso e = .ok dts := by
  have hobj : fieldObjOk e "polymarket" = true := by
    unfold wellShapedEntry at h
    simp only [Bool.and_eq_true] at h
    exact h.1.1
  have hpl : listFieldOk e "pairs" pairElemOk = true := by
    unfold wellShapedEntry at h
    simp only [Bool.and_eq_true] at h
    exact h.1.2
  have hul : listFieldOk e "unmatched_polymarket" (fun _ => true) = true := by
    unfold wellShapedEntry at h
    simp only [Bool.and_eq_true] at h
    exact h.2
  unfold collectEndDts
  cases ht : dGet e "type" with
  | none => exact ⟨[], rfl⟩
  | some tv =>
    cases tv with
    | str t =>
      by_cases hb : t = "binary"
      · subst hb
        simp only [if_pos rfl]
        obtain ⟨pm, hpm⟩ := asObjOrEmpty_ok_of_fieldObjOk e "polymarket" hobj
        rw [hpm, ebind_ok]
        cases hpq : parseIsoDt fromIso (endField pm) with
        | some dt => exact ⟨[dt], by simp⟩
        | none => exact ⟨[], by simp⟩
      · by_cases hc : t = "categorical"
        · subst hc
          simp only [hb, if_false, if_pos rfl]
          obtain ⟨ps, hps, hpall⟩ := iterVal_ok_of_listFieldOk e "pairs" pairElemOk hpl
          obtain ⟨pdts, hpdts⟩ := collectPairDts_ok fromIso ps hpall
          obtain ⟨us, hus, _⟩ :=
            iterVal_ok_of_listFieldOk e "unmatched_polymarket" (fun _ => true) hul
          obtain ⟨udts, hudts⟩ := collectUnmatchedDts_ok fromIso us
          rw [hps, ebind_ok, hpdts, ebind_ok, hus, ebind_ok, hudts, ebind_ok]
          cases parseIsoDt fromIso (pyOrJ (dGet e "polymarket_event_endDate")
            (dGet e "polymarket_event_end_date")) with
          | some d => exact ⟨d :: (pdts ++ udts), rfl⟩
          | none => exact ⟨pdts ++ udts, rfl⟩
        · simp only [hb, hc, if_false]
          exact ⟨[], rfl⟩
    | null => exact ⟨[], rfl⟩
    | bool b => exact ⟨[], rfl⟩
    | num n => exact ⟨[], rfl⟩
    | arr xs => exact ⟨[], rfl⟩
    | obj fs => exact ⟨[], rfl⟩

theorem wellShaped_parts (e : JObj) (h : wellShapedEntry e = true) :
    fieldObjOk e "polymarket" = true ∧ listFieldOk e "pairs" pairElemOk = true ∧
      listFieldOk e "unmatched_polymarket" (fun _ => true) = true := by
  unfold wellShapedEntry at h
  simp only [Bool.and_eq_true] at h
  exact ⟨h.1.1, h.1.2, h.2⟩

theorem fieldObjOk_jset_ne (e : JObj) (k k' : String) (v : JVal) (h : k' ≠ k) :
    fieldObjOk (jset e k v) k' = fieldObjOk e k' := by
  unfold fieldObjOk
  rw [dGet_jset_ne e k k' v h]

theorem listFieldOk_jset_ne (e : JObj) (k k' : String) (v : JVal)
    (q : JVal → Bool) (h : k' ≠ k) :
    listFieldOk (jset e k v) k' q = listFieldOk e k' q := by
  unfold listFieldOk
  rw [dGet_jset_ne e k k' v h]

theorem wellShapedEntry_jset_pairs (e : JObj) (xs : List JVal)
    (h : wellShapedEntry e = true) (hxs : ∀ x ∈ xs, pairElemOk x = true) :
    wellShapedEntry (jset e "pairs" (.arr xs)) = true := by
  obtain ⟨h1, _, h3⟩ := wellShaped_parts e h
  have ha : fieldObjOk (jset e "pairs" (JVal.arr xs)) "polymarket" = true := by
    rw [fieldObjOk_jset_ne e "pairs" "polymarket" (JVal.arr xs) (by decide)]
    exact h1
  have hb : listFieldOk (jset e "pairs" (JVal.arr xs)) "pairs" pairElemOk = true := by
    unfold listFieldOk
    rw [dGet_jset_self]
    exact List.all_eq_true.mpr hxs
  have hcc : listFieldOk (jset e "pairs" (JVal.arr xs)) "unmatched_polymarket"
      (fun _ => true) = true := by
    rw [listFieldOk_jset_ne e "pairs" "unmatched_polymarket" (JVal.arr xs)
      (fun _ => true) (by decide)]
    exact h3
  unfold wellShapedEntry
  rw [ha, hb, hcc]
  rfl

theorem wellShapedEntry_jset_unmatched (e : JObj) (xs : List JVal)
    (h : wellShapedEntry e = true) :
    wellShapedEntry (jset e "unmatched_polymarket" (.arr xs)) = true := by
  obtain ⟨h1, h2, _⟩ := wellShaped_parts e h
  have ha : fieldObjOk (jset e "unmatched_polymarket" (JVal.arr xs))
      "polymarket" = true := by
    rw [fieldObjOk_jset_ne e "unmatched_polymarket" "polymarket" (JVal.arr xs)
      (by decide)]
    exact h1
  have hb : listFieldOk (jset e "unmatched_polymarket" (JVal.arr xs)) "pairs"
      pairElemOk = true := by
    rw [listFieldOk_jset_ne e "unmatched_polymarket" "pairs" (JVal.arr xs)
      pairElemOk (by decide)]
    exact h2
  have hcc : listFieldOk (jset e "unmatched_polymarket" (JVal.arr xs))
      "unmatched_polymarket" (fun _ => true) = true := by
    unfold listFieldOk
    rw [dGet_jset_self]
    simp
  unfold wellShapedEntry
  rw [ha, hb, hcc]
  rfl

theorem entryIsCategorical_jset_ne (e : JObj) (k : String) (v : JVal)
    (h : k ≠ "type") :
    entryIsCategorical (jset e k v) = entryIsCategorical e := by
  unfold entryIsCategorical
  rw [dGet_jset_ne e k "type" v (fun hh => h hh.symm)]

theorem subFilterEntry_ok (fromIso : String → Option Int) (now grace : Int)
    (e : JObj) (h : wellShapedEntry e = true) :
    ∃ e', subFilterEntry fromIso now grace e = .ok e' ∧
      wellShapedEntry e' = true := by
  obtain ⟨h1, h2, _⟩ := wellShaped_parts e h
  unfold subFilterEntry
  by_cases hc : entryIsCategorical e = true
  · rw [if_pos hc]
    obtain ⟨ps, hps, hpall⟩ := iterVal_ok_of_listFieldOk e "pairs" pairElemOk h2
    obtain ⟨newPairs, hnp, hnpsub⟩ :=
      filterPairList_ok fromIso now grace e h1 ps hpall
    rw [hps, ebind_ok, hnp, ebind_ok]
    have he1 : wellShapedEntry (jset e "pairs" (.arr newPairs)) = true :=
      wellShapedEntry_jset_pairs e newPairs h
        (fun x hx => hpall x (hnpsub x hx))
    obtain ⟨h1a, _, h3a⟩ := wellShaped_parts _ he1
    obtain ⟨us, hus, _⟩ :=
      iterVal_ok_of_listFieldOk (jset e "pairs" (.arr newPairs))
        "unmatched_polymarket" (fun _ => true) h3a
    obtain ⟨newUs, hnu⟩ :=
      filterUnmatchedList_ok fromIso now grace
        (jset e "pairs" (.arr newPairs)) h1a us
    unfold subFilterUnmStage
    rw [hus, ebind_ok, hnu, ebind_ok]
    exact ⟨_, rfl, wellShapedEntry_jset_unmatched _ newUs he1⟩
  · rw [if_neg hc]
    exact ⟨e, rfl, h⟩

theorem pruneEntryKeepCheck_ok (fromIso : String → Option Int) (now grace : Int)
    (e : JObj) (h : wellShapedEntry e = true) :
    ∃ r, pruneEntryKeepCheck fromIso now grace e = .ok r := by
  unfold pruneEntryKeepCheck
  by_cases hz : (entryIsCategorical e && noPairsLeft e) = true
  · rw [if_pos hz]
    obtain ⟨dts2, hdts2⟩ := collectEndDts_ok fromIso e h
    rw [hdts2, ebind_ok]
    cases hm : dts2.max? with
    | some l2 =>
      by_cases hex : isExpiredAt now grace l2 = true
      · exact ⟨none, by simp [hex]⟩
      · refine ⟨some e, ?_⟩
        simp only [Bool.not_eq_true] at hex
        simp [hex]
    | none => exact ⟨some e, by simp⟩
  · rw [if_neg hz]
    exact ⟨some e, rfl⟩

theorem pruneEntry_ok (fromIso : String → Option Int) (now grace : Int)
    (e : JObj) (h : wellShapedEntry e = true) :
    ∃ r, pruneEntry fromIso now grace e = .ok r := by
  obtain ⟨e', hsub, he'⟩ := subFilterEntry_ok fromIso now grace e h
  unfold pruneEntry
  rw [hsub, ebind_ok]
  obtain ⟨dts, hdts⟩ := collectEndDts_ok fromIso e' he'
  rw [hdts, ebind_ok]
  cases hm : dts.max? with
  | some latest =>
    by_cases hex : isExpiredAt now grace latest = true
    · obtain ⟨pm, hpm⟩ :=
        asObjOrEmpty_ok_of_fieldObjOk e' "polymarket" (wellShaped_parts e' he').1
      refine ⟨none, ?_⟩
      simp [hex, hpm, ebind_ok]
    · obtain ⟨r, hr⟩ := pruneEntryKeepCheck_ok fromIso now grace e' he'
      refine ⟨r, ?_⟩
      simp only [Bool.not_eq_true] at hex
      simp [hex, hr]
  | none => exact pruneEntryKeepCheck_ok fromIso now grace e' he'

theorem pruneExpiredMarkets_ok (fromIso : String → Option Int) (now grace : Int) :
    ∀ rs, (∀ e : JObj, JVal.obj e ∈ rs → wellShapedEntry e = true) →
      ∃ out, pruneExpiredMarkets fromIso now grace rs = .ok out := by
  intro rs
  induction rs with
  | nil => exact fun _ => ⟨[], rfl⟩
  | cons r rest ih =>
    intro hall
    obtain ⟨out', hout'⟩ := ih (fun e he => hall e (List.mem_cons_of_mem _ he))
    cases r with
    | obj e =>
      obtain ⟨kept, hkept⟩ := pruneEntry_ok fromIso now grace e
        (hall e (List.mem_cons_self _ _))
      rw [pruneExpiredMarkets, hkept, ebind_ok, hout', ebind_ok]
      cases kept with
      | some e' => exact ⟨.obj e' :: out', rfl⟩
      | none => exact ⟨out', rfl⟩
    | null => exact ⟨out', hout'⟩
    | bool b => exact ⟨out', hout'⟩
    | num n => exact ⟨out', hout'⟩
    | str s => exact ⟨out', hout'⟩
    | arr xs => exact ⟨out', hout'⟩

/-- **C10**: the timestamp parser returns `None` (never raises) on a
missing value, a non-string value, the empty string, and any string the
underlying ISO parser rejects; a dict sub-item whose timestamp parses to
`None` is kept by both sub-filters; and pruning never raises on entries
whose non-timestamp shape is well-formed, whatever their timestamp
fields hold. -/
theorem c10_malformed_timestamps (fromIso : String → Option Int)
    (now grace : Int) :
    (parseIsoDt fromIso none = none) ∧
    (∀ v : Option JVal, (∀ s : String, v ≠ some (.str s)) →
      parseIsoDt fromIso v = none) ∧
    (parseIsoDt fromIso (some (.str "")) = none) ∧
    (∀ s : String,
      fromIso (String.mk (replaceZ (trimWs s.toList))) = none →
      parseIsoDt fromIso (some (.str s)) = none) ∧
    (∀ e l out po pm, filterPairList fromIso now grace e l = .ok out →
      JVal.obj po ∈ l → asObjOrEmpty (dGet po "polymarket") = .ok pm →
      parseIsoDt fromIso (endField pm) = none → JVal.obj po ∈ out) ∧
    (∀ e l out uo, filterUnmatchedList fromIso now grace e l = .ok out →
      JVal.obj uo ∈ l → parseIsoDt fromIso (endField uo) = none →
      JVal.obj uo ∈ out) ∧
    (∀ rs, (∀ e : JObj, JVal.obj e ∈ rs → wellShapedEntry e = true) →
      ∃ out, pruneExpiredMarkets fromIso now grace rs = .ok out) := by
  refine ⟨rfl, parseIsoDt_non_string fromIso, parseIsoDt_empty fromIso,
    parseIsoDt_unparseable fromIso, ?_, ?_, pruneExpiredMarkets_ok fromIso now grace⟩
  · intro e l out po pm h1 h2 h3 h4
    exact filterPairList_keeps fromIso now grace e l out h1 po pm h2 h3 h4
  · intro e l out uo h1 h2 h3
    exact filterUnmatchedList_keeps fromIso now grace e l out h1 uo h2 h3

/-- Witness for C10: with a parser rejecting every string, a missing or
numeric timestamp parses to `None`; a timestampless pair survives the
sub-filter; pruning a well-shaped binary entry does not raise. -/
theorem c10_witness :
    parseIsoDt fiW (some (.num 3)) = none ∧
    parseIsoDt fiW (some (.str "not-a-date")) = none ∧
    (∃ out, filterPairList fiW 0 0 [] [JVal.obj pairW] = .ok out ∧
      JVal.obj pairW ∈ out) ∧
    (∃ out, pruneExpiredMarkets fiW 0 0 [JVal.obj entryW] = .ok out) := by
  refine ⟨?_, ?_, ?_, ?_⟩
  · exact (c10_malformed_timestamps fiW 0 0).2.1 (some (.num 3))
      (fun s h => by
        injection h with h'
        exact JVal.noConfusion h')
  · exact (c10_malformed_timestamps fiW 0 0).2.2.2.1 "not-a-date" rfl
  · refine ⟨[JVal.obj pairW], rfl, ?_⟩
    exact (c10_malformed_timestamps fiW 0 0).2.2.2.2.1 [] [JVal.obj pairW]
      [JVal.obj pairW] pairW [] rfl (List.mem_cons_self _ _) rfl rfl
  · exact (c10_malformed_timestamps fiW 0 0).2.2.2.2.2.2 [JVal.obj entryW]
      (fun e he => by
        have h1 := List.mem_singleton.mp he
        injection h1 with h2
        subst h2
        rfl)

/-! ### Drop-characterization lemmas (C8) -/

theorem pruneEntryKeepCheck_none (fromIso : String → Option Int)
    (now grace : Int) (e : JObj)
    (h : pruneEntryKeepCheck fromIso now grace e = .ok none) :
    ∃ ds L, collectEndDts fromIso e = .ok ds ∧ ds.max? = some L ∧
      isExpiredAt now grace L = true := by
  unfold pruneEntryKeepCheck at h
  by_cases hz : (entryIsCategorical e && noPairsLeft e) = true
  · rw [if_pos hz] at h
    cases hd : collectEndDts fromIso e with
    | error u =>
      rw [hd, ebind_err] at h
      exact Except.noConfusion h
    | ok ds =>
      simp only [hd, ebind_ok] at h
      cases hm : ds.max? with
      | some L =>
        simp only [hm] at h
        by_cases hex : isExpiredAt now grace L = true
        · exact ⟨ds, L, rfl, hm, hex⟩
        · rw [if_neg hex] at h
          injection h with h'
          exact Option.noConfusion h'
      | none =>
        simp only [hm] at h
        injection h with h'
        exact Option.noConfusion h'
  · rw [if_neg hz] at h
    injection h with h'
    exact Option.noConfusion h'

theorem pruneEntryKeepCheck_some_eq (fromIso : String → Option Int)
    (now grace : Int) (e x : JObj)
    (h : pruneEntryKeepCheck fromIso now grace e = .ok (some x)) :
    x = e := by
  unfold pruneEntryKeepCheck at h
  by_cases hz : (entryIsCategorical e && noPairsLeft e) = true
  · rw [if_pos hz] at h
    cases hd : collectEndDts fromIso e with
    | error u =>
      rw [hd, ebind_err] at h
      exact Except.noConfusion h
    | ok ds =>
      simp only [hd, ebind_ok] at h
      cases hm : ds.max? with
      | some L =>
        simp only [hm] at h
        by_cases hex : isExpiredAt now grace L = true
        · rw [if_pos hex] at h
          injection h with h'
          exact Option.noConfusion h'
        · rw [if_neg hex] at h
          injection h with h'
          injection h' with h''
          exact h''.symm
      | none =>
        simp only [hm] at h
        injection h with h'
        injection h' with h''
        exact h''.symm
  · rw [if_neg hz] at h
    injection h with h'
    injection h' with h''
    exact h''.symm

/-- **C8**: a dict sub-item (matched pair or unmatched side-B item)
whose resolution timestamp is absent is always kept by the sub-filter;
and a whole entry is dropped (by the latest-timestamp rule or the
zero-pairs rule) only when, after sub-filtering, at least one resolution
timestamp is present in it and the maximum of those timestamps is
earlier than `now - grace`; an entry with no timestamp anywhere is never
dropped. -/
theorem c8_prune_expiry_rules (fromIso : String → Option Int) (now grace : Int) :
    (∀ e l out po pm, filterPairList fromIso now grace e l = .ok out →
      JVal.obj po ∈ l → asObjOrEmpty (dGet po "polymarket") = .ok pm →
      parseIsoDt fromIso (endField pm) = none → JVal.obj po ∈ out) ∧
    (∀ e l out uo, filterUnmatchedList fromIso now grace e l = .ok out →
      JVal.obj uo ∈ l → parseIsoDt fromIso (endField uo) = none →
      JVal.obj uo ∈ out) ∧
    (∀ e, pruneEntry fromIso now grace e = .ok none →
      ∃ e' ds L, subFilterEntry fromIso now grace e = .ok e' ∧
        collectEndDts fromIso e' = .ok ds ∧ ds.max? = some L ∧
        isExpiredAt now grace L = true) := by
  refine ⟨?_, ?_, ?_⟩
  · intro e l out po pm h1 h2 h3 h4
    exact filterPairList_keeps fromIso now grace e l out h1 po pm h2 h3 h4
  · intro e l out uo h1 h2 h3
    exact filterUnmatchedList_keeps fromIso now grace e l out h1 uo h2 h3
  · intro e hnone
    unfold pruneEntry at hnone
    cases hs : subFilterEntry fromIso now grace e with
    | error u =>
      rw [hs, ebind_err] at hnone
      exact Except.noConfusion hnone
    | ok e' =>
      rw [hs, ebind_ok] at hnone
      cases hd : collectEndDts fromIso e' with
      | error u =>
        rw [hd, ebind_err] at hnone
        exact Except.noConfusion hnone
      | ok ds =>
        simp only [hd, ebind_ok] at hnone
        cases hm : ds.max? with
        | some L =>
          simp only [hm] at hnone
          by_cases hex : isExpiredAt now grace L = true
          · exact ⟨e', ds, L, rfl, hd, hm, hex⟩
          · rw [if_neg hex] at hnone
            obtain ⟨ds2, L2, hd2, hm2, hex2⟩ :=
              pruneEntryKeepCheck_none fromIso now grace e' hnone
            rw [hd] at hd2
            injection hd2 with hds
            subst hds
            rw [hm] at hm2
            injection hm2 with hL
            subst hL
            exact absurd hex2 hex
        | none =>
          simp only [hm] at hnone
          obtain ⟨ds2, L2, hd2, hm2, _⟩ :=
            pruneEntryKeepCheck_none fromIso now grace e' hnone
          rw [hd] at hd2
          injection hd2 with hds
          subst hds
          rw [hm] at hm2
          exact Option.noConfusion hm2

/-- Witness for C8: a timestampless pair is kept by the sub-filter; a
binary entry whose only timestamp (100) is expired at `now = 200` is
dropped, and the characterization exhibits that timestamp. -/
theorem c8_witness :
    (∃ out, filterPairList fiW2 200 0 [] [JVal.obj pairW] = .ok out ∧
      JVal.obj pairW ∈ out) ∧
    (∃ e' ds L, subFilterEntry fiW2 200 0 entryExp = .ok e' ∧
      collectEndDts fiW2 e' = .ok ds ∧ ds.max? = some L ∧
      isExpiredAt 200 0 L = true) := by
  constructor
  · refine ⟨[JVal.obj pairW], rfl, ?_⟩
    exact (c8_prune_expiry_rules fiW2 200 0).1 [] [JVal.obj pairW]
      [JVal.obj pairW] pairW [] rfl (List.mem_cons_self _ _) rfl rfl
  · exact (c8_prune_expiry_rules fiW2 200 0).2.2 entryExp rfl

/-! ### Idempotence lemmas (C9) -/

theorem iterVal_arr (xs : List JVal) : iterVal (some (.arr xs)) = .ok xs := by
  unfold iterVal
  cases xs with
  | nil => simp [truthy]
  | cons x rest => simp [truthy]

theorem filterPairList_idem (fromIso : String → Option Int) (now grace : Int)
    (e : JObj) :
    ∀ l out, filterPairList fromIso now grace e l = .ok out →
      ∀ e2, filterPairList fromIso now grace e2 out = .ok out := by
  intro l
  induction l with
  | nil =>
    intro out h e2
    injection h with h'
    rw [← h']
    rfl
  | cons p rest ih =>
    intro out h e2
    cases p with
    | obj po =>
      rw [filterPairList] at h
      cases hq : asObjOrEmpty (dGet po "polymarket") with
      | error u =>
        rw [hq, ebind_err] at h
        exact Except.noConfusion h
      | ok pm =>
        simp only [hq, ebind_ok] at h
        cases hpq : parseIsoDt fromIso (endField pm) with
        | some dt =>
          simp only [hpq] at h
          by_cases hex : isExpiredAt now grace dt = true
          · rw [if_pos hex] at h
            cases hsl : parentSlugChain e with
            | error u =>
              rw [hsl, ebind_err] at h
              exact Except.noConfusion h
            | ok u =>
              simp only [hsl, ebind_ok] at h
              exact ih out h e2
          · rw [if_neg hex] at h
            cases hr : filterPairList fromIso now grace e rest with
            | error u =>
              rw [hr, ebind_err] at h
              exact Except.noConfusion h
            | ok rest' =>
              simp only [hr, ebind_ok] at h
              injection h with h'
              rw [← h']
              rw [filterPairList]
              simp only [hq, ebind_ok, hpq]
              rw [if_neg hex]
              rw [ih rest' hr e2, ebind_ok]
        | none =>
          simp only [hpq] at h
          cases hr : filterPairList fromIso now grace e rest with
          | error u =>
            rw [hr, ebind_err] at h
            exact Except.noConfusion h
          | ok rest' =>
            simp only [hr, ebind_ok] at h
            injection h with h'
            rw [← h']
            rw [filterPairList]
            simp only [hq, ebind_ok, hpq]
            rw [ih rest' hr e2, ebind_ok]
    | null => exact ih out h e2
    | bool b => exact ih out h e2
    | num n => exact ih out h e2
    | str s => exact ih out h e2
    | arr xs => exact ih out h e2

theorem filterUnmatchedList_idem (fromIso : String → Option Int) (now grace : Int)
    (e : JObj) :
    ∀ l out, filterUnmatchedList fromIso now grace e l = .ok out →
      ∀ e2, filterUnmatchedList fromIso now grace e2 out = .ok out := by
  intro l
  induction l with
  | nil =>
    intro out h e2
    injection h with h'
    rw [← h']
    rfl
  | cons p rest ih =>
    intro out h e2
    cases p with
    | obj uo =>
      rw [filterUnmatchedList] at h
      cases hpq : parseIsoDt fromIso (endField uo) with
      | some dt =>
        simp only [hpq] at h
        by_cases hex : isExpiredAt now grace dt = true
        · rw [if_pos hex] at h
          cases hsl : parentSlugChain e with
          | error u =>
            rw [hsl, ebind_err] at h
            exact Except.noConfusion h
          | ok u =>
            simp only [hsl, ebind_ok] at h
            exact ih out h e2
        · rw [if_neg hex] at h
          cases hr : filterUnmatchedList fromIso now grace e rest with
          | error u =>
            rw [hr, ebind_err] at h
            exact Except.noConfusion h
          | ok rest' =>
            simp only [hr, ebind_ok] at h
            injection h with h'
            rw [← h']
            rw [filterUnmatchedList]
            simp only [hpq]
            rw [if_neg hex]
            rw [ih rest' hr e2, ebind_ok]
      | none =>
        simp only [hpq] at h
        cases hr : filterUnmatchedList fromIso now grace e rest with
        | error u =>
          rw [hr, ebind_err] at h
          exact Except.noConfusion h
        | ok rest' =>
          simp only [hr, ebind_ok] at h
          injection h with h'
          rw [← h']
          rw [filterUnmatchedList]
          simp only [hpq]
          rw [ih rest' hr e2, ebind_ok]
    | null => exact ih out h e2
    | bool b => exact ih out h e2
    | num n => exact ih out h e2
    | str s => exact ih out h e2
    | arr xs => exact ih out h e2

theorem subFilterEntry_idem (fromIso : String → Option Int) (now grace : Int)
    (e e' : JObj) (h : subFilterEntry fromIso now grace e = .ok e') :
    subFilterEntry fromIso now grace e' = .ok e' := by
  unfold subFilterEntry at h ⊢
  by_cases hc : entryIsCategorical e = true
  · rw [if_pos hc] at h
    cases hps : iterVal (dGet e "pairs") with
    | error u =>
      rw [hps, ebind_err] at h
      exact Except.noConfusion h
    | ok ps =>
      simp only [hps, ebind_ok] at h
      cases hnp : filterPairList fromIso now grace e ps with
      | error u =>
        rw [hnp, ebind_err] at h
        exact Except.noConfusion h
      | ok newPairs =>
        simp only [hnp, ebind_ok] at h
        unfold subFilterUnmStage at h
        cases hus : iterVal (dGet (jset e "pairs" (.arr newPairs))
            "unmatched_polymarket") with
        | error u =>
          rw [hus, ebind_err] at h
          exact Except.noConfusion h
        | ok us =>
          simp only [hus, ebind_ok] at h
          cases hnu : filterUnmatchedList fromIso now grace
              (jset e "pairs" (.arr newPairs)) us with
          | error u =>
            rw [hnu, ebind_err] at h
            exact Except.noConfusion h
          | ok newUs =>
            simp only [hnu, ebind_ok] at h
            injection h with h'
            have he' : e' = jset (jset e "pairs" (.arr newPairs))
                "unmatched_polymarket" (.arr newUs) := h'.symm
            have hcat' : entryIsCategorical e' = true := by
              rw [he', entryIsCategorical_jset_ne _ _ _ (by decide),
                entryIsCategorical_jset_ne _ _ _ (by decide)]
              exact hc
            rw [if_pos hcat']
            have hgp : dGet e' "pairs" = some (.arr newPairs) := by
              rw [he', dGet_jset_ne _ _ _ _ (by decide), dGet_jset_self]
            have hgu : dGet e' "unmatched_polymarket" = some (.arr newUs) := by
              rw [he', dGet_jset_self]
            rw [hgp, iterVal_arr, ebind_ok]
            rw [filterPairList_idem fromIso now grace e ps newPairs hnp e',
              ebind_ok]
            have hjp : jset e' "pairs" (.arr newPairs) = e' :=
              jset_id e' "pairs" (.arr newPairs) hgp
            rw [hjp]
            unfold subFilterUnmStage
            rw [hgu, iterVal_arr, ebind_ok]
            rw [filterUnmatchedList_idem fromIso now grace
              (jset e "pairs" (.arr newPairs)) us newUs hnu e', ebind_ok]
            rw [jset_id e' "unmatched_polymarket" (.arr newUs) hgu]
  · rw [if_neg hc] at h
    injection h with h'
    subst h'
    rw [if_neg hc]

theorem pruneEntry_idem (fromIso : String → Option Int) (now grace : Int)
    (e e' : JObj) (h : pruneEntry fromIso now grace e = .ok (some e')) :
    pruneEntry fromIso now grace e' = .ok (some e') := by
  unfold pruneEntry at h ⊢
  cases hs : subFilterEntry fromIso now grace e with
  | error u =>
    rw [hs, ebind_err] at h
    exact Except.noConfusion h
  | ok e1 =>
    rw [hs, ebind_ok] at h
    cases hd : collectEndDts fromIso e1 with
    | error u =>
      rw [hd, ebind_err] at h
      exact Except.noConfusion h
    | ok ds =>
      simp only [hd, ebind_ok] at h
      cases hm : ds.max? with
      | some L =>
        simp only [hm] at h
        by_cases hex : isExpiredAt now grace L = true
        · rw [if_pos hex] at h
          cases ho : asObjOrEmpty (dGet e1 "polymarket") with
          | error u =>
            rw [ho, ebind_err] at h
            exact Except.noConfusion h
          | ok pm =>
            simp only [ho, ebind_ok] at h
            injection h with h'
            exact Option.noConfusion h'
        · rw [if_neg hex] at h
          have he1 : e' = e1 :=
            pruneEntryKeepCheck_some_eq fromIso now grace e1 e' h
          subst he1
          rw [subFilterEntry_idem fromIso now grace e e' hs, ebind_ok]
          rw [hd, ebind_ok]
          simp only [hm]
          rw [if_neg hex]
          exact h
      | none =>
        simp only [hm] at h
        have he1 : e' = e1 :=
          pruneEntryKeepCheck_some_eq fromIso now grace e1 e' h
        subst he1
        rw [subFilterEntry_idem fromIso now grace e e' hs, ebind_ok]
        rw [hd, ebind_ok]
        simp only [hm]
        exact h

/-- **C9**: pruning is idempotent — pruning an already-pruned entry
list again with the same `now` and `grace` returns it unchanged. -/
theorem c9_prune_idempotent (fromIso : String → Option Int) (now grace : Int) :
    ∀ rs out, pruneExpiredMarkets fromIso now grace rs = .ok out →
      pruneExpiredMarkets fromIso now grace out = .ok out := by
  intro rs
  induction rs with
  | nil =>
    intro out h
    injection h with h'
    rw [← h']
    rfl
  | cons r rest ih =>
    intro out h
    cases r with
    | obj e =>
      rw [pruneExpiredMarkets] at h
      cases hk : pruneEntry fromIso now grace e with
      | error u =>
        rw [hk, ebind_err] at h
        exact Except.noConfusion h
      | ok kept =>
        simp only [hk, ebind_ok] at h
        cases hr : pruneExpiredMarkets fromIso now grace rest with
        | error u =>
          rw [hr, ebind_err] at h
          exact Except.noConfusion h
        | ok rest' =>
          simp only [hr, ebind_ok] at h
          cases kept with
          | some e' =>
            simp only [] at h
            injection h with h'
            rw [← h']
            rw [pruneExpiredMarkets]
            rw [pruneEntry_idem fromIso now grace e e' hk, ebind_ok]
            rw [ih rest' hr, ebind_ok]
          | none =>
            simp only [] at h
            injection h with h'
            rw [← h']
            exact ih rest' hr
    | null => exact ih out h
    | bool b => exact ih out h
    | num n => exact ih out h
    | str s => exact ih out h
    | arr xs => exact ih out h

/-- Witness for C9: pruning drops a junk element; pruning the result
again returns it unchanged. -/
theorem c9_witness :
    pruneExpiredMarkets fiW 0 0 [JVal.obj entryW] = .ok [JVal.obj entryW] := by
  exact c9_prune_idempotent fiW 0 0 [JVal.str "junk", JVal.obj entryW]
    [JVal.obj entryW] rfl

/-! ### Matcher eligibility lemmas (C4) -/

theorem pbStep_eligible (it : OpItem) (used : List String)
    (acc : Option PmItem × Nat) (cand : PmItem)
    (hacc : ∀ c, acc.1 = some c → pbEligible it used c = true) :
    ∀ c, (pbStep it used acc cand).1 = some c → pbEligible it used c = true := by
  intro c h
  unfold pbStep at h
  split at h
  · split at h
    · injection h with h'
      subst h'
      assumption
    · exact hacc c h
  · exact hacc c h

theorem pickBest_fold_eligible (it : OpItem) (used : List String) :
    ∀ (pms : List PmItem) (acc : Option PmItem × Nat),
      (∀ c, acc.1 = some c → pbEligible it used c = true) →
      ∀ c, (pms.foldl (pbStep it used) acc).1 = some c →
        pbEligible it used c = true := by
  intro pms
  induction pms with
  | nil => exact fun acc hacc => hacc
  | cons cand rest ih =>
    intro acc hacc
    exact ih (pbStep it used acc cand) (pbStep_eligible it used acc cand hacc)

theorem pickBest_some_eligible (it : OpItem) (pms : List PmItem)
    (used : List String) (cand : PmItem)
    (h : pickBest it pms used = some cand) :
    pbEligible it used cand = true := by
  exact pickBest_fold_eligible it used pms (none, 0)
    (fun c hc => Option.noConfusion hc) cand h

theorem pbEligible_parts (it : OpItem) (used : List String) (cand : PmItem)
    (h : pbEligible it used cand = true) :
    cand.m.market_id ≠ "" ∧ cand.m.market_id ∉ used ∧
      truthyOS cand.m.yes_token_id = true ∧ truthyOS cand.m.no_token_id = true ∧
      interKeys it.keys cand.keys ≠ [] := by
  unfold pbEligible at h
  simp only [Bool.and_eq_true, decide_eq_true_eq] at h
  exact ⟨h.1.1.1.1, h.1.1.1.2, h.1.1.2, h.1.2, h.2⟩

theorem matchLoop_pm_ids (pms : List PmItem) (ops : List OpItem)
    (evEnd : Option String) :
    ∀ acc, (∀ p ∈ acc.1, truthyOS p.pm_yes_token_id = true ∧
        truthyOS p.pm_no_token_id = true ∧ p.pm_market_id ≠ "") →
      ∀ p ∈ (matchLoop pms ops acc evEnd).1,
        truthyOS p.pm_yes_token_id = true ∧ truthyOS p.pm_no_token_id = true ∧
          p.pm_market_id ≠ "" := by
  induction ops with
  | nil => exact fun acc hacc => hacc
  | cons it rest ih =>
    intro acc hacc
    show ∀ p ∈ (matchLoop pms rest (match pickBest it pms acc.2 with
      | some best => (acc.1 ++ [mkPair it.child best.m evEnd],
          acc.2 ++ [best.m.market_id])
      | none => acc) evEnd).1, _
    cases hb : pickBest it pms acc.2 with
    | some best =>
      refine ih _ ?_
      intro p hp
      rcases List.mem_append.mp hp with hmem | hmem
      · exact hacc p hmem
      · have hpeq : p = mkPair it.child best.m evEnd := by
          simpa using hmem
        obtain ⟨_, _, hy, hn, _⟩ := pbEligible_parts it acc.2 best
          (pickBest_some_eligible it pms acc.2 best hb)
        subst hpeq
        exact ⟨hy, hn, by
          obtain ⟨hmid, _, _, _, _⟩ := pbEligible_parts it acc.2 best
            (pickBest_some_eligible it pms acc.2 best hb)
          exact hmid⟩
    | none => exact ih acc hacc

/-- **C4** (amended): only the side-B (Polymarket) candidates are
filtered for completeness of their trade identifiers, so every emitted
MatchedPair carries both Polymarket trade identifiers (and a non-empty
Polymarket market id); side-A (Opinion) outcomes are NOT filtered, and a
pair may carry missing Opinion trade identifiers. -/
theorem c4_amended (opChildren : List OpChild) (pms : List PmMarket)
    (evEnd : Option String) :
    ∀ p ∈ (matchCategorical opChildren pms evEnd).pairs,
      truthyOS p.pm_yes_token_id = true ∧ truthyOS p.pm_no_token_id = true ∧
        p.pm_market_id ≠ "" := by
  intro p hp
  have := matchLoop_pm_ids (mkPmItems pms) (opChildren.map mkOpItem) evEnd
    ([], []) (by intro q hq; simp at hq)
  exact this p hp

/-- Witness for C4: the pair emitted for the identifier-less Opinion
child still carries both Polymarket identifiers. -/
theorem c4_witness :
    truthyOS pairC4.pm_yes_token_id = true ∧
      truthyOS pairC4.pm_no_token_id = true ∧ pairC4.pm_market_id ≠ "" :=
  c4_amended [opChildNoIds] [pmMarketWithIds] none pairC4 (by decide)

/-! ### Key-generator lemmas (C2, C3) -/

theorem toNat_ofNat_lt (n : Nat) (h : n < 55296) : (Char.ofNat n).toNat = n := by
  unfold Char.ofNat
  rw [dif_pos (Or.inl h)]
  rfl

theorem pyLower_lowerAlnum (c : Char) (h : isAlnumC c = true) :
    isLowerAlnum (pyLower c) = true := by
  unfold isAlnumC isLowerC isUpperC isDigitC at h
  simp only [Bool.or_eq_true, Bool.and_eq_true, decide_eq_true_eq] at h
  unfold pyLower isUpperC
  rcases h with (⟨h1, h2⟩ | ⟨h1, h2⟩) | ⟨h1, h2⟩
  · have hn1 : 97 ≤ c.toNat := h1
    have hn2 : c.toNat ≤ 122 := h2
    rw [if_neg (by
      simp only [Bool.and_eq_true, decide_eq_true_eq, not_and]
      intro hA hZ
      have : c.toNat ≤ 90 := hZ
      omega)]
    unfold isLowerAlnum isLowerC
    have ha : 'a' ≤ c := h1
    have hz : c ≤ 'z' := h2
    simp [ha, hz]
  · have hn1 : 65 ≤ c.toNat := h1
    have hn2 : c.toNat ≤ 90 := h2
    rw [if_pos (by
      simp only [Bool.and_eq_true, decide_eq_true_eq]
      exact ⟨h1, h2⟩)]
    unfold isLowerAlnum isLowerC
    have ht : (Char.ofNat (c.toNat + 32)).toNat = c.toNat + 32 :=
      toNat_ofNat_lt _ (by omega)
    have ha : 'a' ≤ Char.ofNat (c.toNat + 32) := by
      show (97 : Nat) ≤ (Char.ofNat (c.toNat + 32)).toNat
      omega
    have hz : Char.ofNat (c.toNat + 32) ≤ 'z' := by
      show (Char.ofNat (c.toNat + 32)).toNat ≤ (122 : Nat)
      omega
    simp [ha, hz]
  · have hn1 : 48 ≤ c.toNat := h1
    have hn2 : c.toNat ≤ 57 := h2
    rw [if_neg (by
      simp only [Bool.and_eq_true, decide_eq_true_eq, not_and]
      intro hA hZ
      have : 65 ≤ c.toNat := hA
      omega)]
    unfold isLowerAlnum isDigitC
    have h0 : '0' ≤ c := h1
    have h9 : c ≤ '9' := h2
    simp [h0, h9]

theorem mem_dropLeadingWs (c : Char) :
    ∀ cs : List Char, c ∈ dropLeadingWs cs → c ∈ cs := by
  intro cs
  induction cs with
  | nil => intro h; exact h
  | cons a tl ih =>
    intro h
    rw [dropLeadingWs] at h
    split at h
    · exact List.mem_cons_of_mem a (ih h)
    · exact h

theorem dropLeadingWs_keep (c : Char) (hc : isPyWs c = false) :
    ∀ cs : List Char, c ∈ cs → c ∈ dropLeadingWs cs := by
  intro cs
  induction cs with
  | nil => intro h; exact h
  | cons a tl ih =>
    intro h
    rw [dropLeadingWs]
    split
    · rcases List.mem_cons.1 h with rfl | h
      · rename_i hws; rw [hc] at hws; exact absurd hws (by simp)
      · exact ih h
    · exact h

theorem head_dropLeadingWs (c : Char) :
    ∀ cs : List Char, (dropLeadingWs cs).head? = some c → isPyWs c = false := by
  intro cs
  induction cs with
  | nil => intro h; exact absurd h (by simp [dropLeadingWs])
  | cons a tl ih =>
    intro h
    rw [dropLeadingWs] at h
    split at h
    · exact ih h
    · rename_i hws
      rw [List.head?_cons, Option.some.injEq] at h
      subst h
      exact Bool.eq_false_iff.2 hws

theorem dropLeadingWs_eq_self (cs : List Char)
    (h : ∀ c, cs.head? = some c → isPyWs c = false) :
    dropLeadingWs cs = cs := by
  cases cs with
  | nil => rfl
  | cons a tl =>
    rw [dropLeadingWs, if_neg]
    rw [h a (by rw [List.head?_cons])]
    simp

theorem last_dropLeadingWs (cs : List Char) (h : dropLeadingWs cs ≠ []) :
    (dropLeadingWs cs).getLast? = cs.getLast? := by
  induction cs with
  | nil => rfl
  | cons a tl ih =>
    rw [dropLeadingWs]
    split
    · rw [dropLeadingWs] at h
      rw [if_pos (by assumption)] at h
      have htl : tl ≠ [] := by
        intro he
        rw [he] at h
        exact h rfl
      rw [ih h, List.getLast?_cons, List.getLast?_eq_getLast _ htl]
      simp [List.getLast?_eq_getLast _ htl]
    · rfl

theorem mem_trimWs (c : Char) (cs : List Char) (h : c ∈ trimWs cs) : c ∈ cs := by
  unfold trimWs at h
  have h1 := mem_dropLeadingWs c _ h
  rw [List.mem_reverse] at h1
  have h2 := mem_dropLeadingWs c _ h1
  rw [List.mem_reverse] at h2
  exact h2

theorem trimWs_keep (c : Char) (hc : isPyWs c = false) (cs : List Char)
    (h : c ∈ cs) : c ∈ trimWs cs := by
  unfold trimWs
  apply dropLeadingWs_keep c hc
  rw [List.mem_reverse]
  apply dropLeadingWs_keep c hc
  rw [List.mem_reverse]
  exact h

theorem head_trimWs (c : Char) (cs : List Char)
    (h : (trimWs cs).head? = some c) : isPyWs c = false :=
  head_dropLeadingWs c _ h

theorem last_trimWs (c : Char) (cs : List Char)
    (h : (trimWs cs).getLast? = some c) : isPyWs c = false := by
  unfold trimWs at h
  have hne : dropLeadingWs (dropLeadingWs cs.reverse).reverse ≠ [] := by
    intro he
    rw [he] at h
    exact Option.noConfusion h
  rw [last_dropLeadingWs _ hne, List.getLast?_reverse] at h
  exact head_dropLeadingWs c _ h

theorem trimWs_eq_self (cs : List Char)
    (h1 : ∀ c, cs.head? = some c → isPyWs c = false)
    (h2 : ∀ c, cs.getLast? = some c → isPyWs c = false) :
    trimWs cs = cs := by
  unfold trimWs
  rw [dropLeadingWs_eq_self cs.reverse (by
    intro c hc
    rw [List.head?_reverse] at hc
    exact h2 c hc)]
  rw [List.reverse_reverse]
  exact dropLeadingWs_eq_self cs h1

theorem trimWs_trimWs (cs : List Char) : trimWs (trimWs cs) = trimWs cs :=
  trimWs_eq_self _ (fun c h => head_trimWs c cs h) (fun c h => last_trimWs c cs h)

theorem trimWs_of_no_ws (cs : List Char)
    (h : ∀ c ∈ cs, isPyWs c = false) : trimWs cs = cs := by
  apply trimWs_eq_self
  · intro c hc
    exact h c (List.mem_of_mem_head? hc)
  · intro c hc
    exact h c (List.mem_of_mem_getLast? hc)

theorem mem_dropLeadingChar (q c : Char) :
    ∀ cs : List Char, c ∈ dropLeadingChar q cs → c ∈ cs := by
  intro cs
  induction cs with
  | nil => exact fun h => h
  | cons a tl ih =>
    intro h
    rw [dropLeadingChar] at h
    split at h
    · exact List.mem_cons_of_mem a (ih h)
    · exact h

theorem dropLeadingChar_keep (q c : Char) (hc : c ≠ q) :
    ∀ cs : List Char, c ∈ cs → c ∈ dropLeadingChar q cs := by
  intro cs
  induction cs with
  | nil => exact fun h => h
  | cons a tl ih =>
    intro h
    rw [dropLeadingChar]
    split
    · rcases List.mem_cons.1 h with rfl | h
      · rename_i he; exact absurd he hc
      · exact ih h
    · exact h

theorem mem_stripChar (q c : Char) (cs : List Char) (h : c ∈ stripChar q cs) :
    c ∈ cs := by
  unfold stripChar at h
  have h1 := mem_dropLeadingChar q c _ h
  rw [List.mem_reverse] at h1
  have h2 := mem_dropLeadingChar q c _ h1
  rw [List.mem_reverse] at h2
  exact h2

theorem stripChar_keep (q c : Char) (hc : c ≠ q) (cs : List Char)
    (h : c ∈ cs) : c ∈ stripChar q cs := by
  unfold stripChar
  apply dropLeadingChar_keep q c hc
  rw [List.mem_reverse]
  apply dropLeadingChar_keep q c hc
  rw [List.mem_reverse]
  exact h

theorem mem_squeezeSpaces (c : Char) :
    ∀ cs : List Char, c ∈ squeezeSpaces cs → c ∈ cs := by
  intro cs
  induction cs with
  | nil => exact fun h => h
  | cons a tl ih =>
    cases tl with
    | nil => exact fun h => h
    | cons b cs2 =>
      intro h
      rw [squeezeSpaces] at h
      split at h
      · exact List.mem_cons_of_mem a (ih h)
      · rcases List.mem_cons.1 h with rfl | h
        · exact List.mem_cons_self _ _
        · exact List.mem_cons_of_mem a (ih h)

theorem squeezeSpaces_keep (c : Char) (hc : c ≠ ' ') :
    ∀ cs : List Char, c ∈ cs → c ∈ squeezeSpaces cs := by
  intro cs
  induction cs with
  | nil => exact fun h => h
  | cons a tl ih =>
    cases tl with
    | nil => exact fun h => h
    | cons b cs2 =>
      intro h
      rw [squeezeSpaces]
      split
      · rename_i hab
        simp only [Bool.and_eq_true, decide_eq_true_eq] at hab
        rcases List.mem_cons.1 h with rfl | h
        · exact absurd hab.1 hc
        · exact ih h
      · rcases List.mem_cons.1 h with rfl | h
        · exact List.mem_cons_self _ _
        · exact List.mem_cons_of_mem a (ih h)

theorem mem_collapseWs (c : Char) (cs : List Char) (h : c ∈ collapseWs cs) :
    c = ' ' ∨ (c ∈ cs ∧ isPyWs c = false) := by
  unfold collapseWs at h
  have h1 := mem_squeezeSpaces c _ h
  rw [List.mem_map] at h1
  obtain ⟨d, hd, hdc⟩ := h1
  by_cases hws : isPyWs d = true
  · rw [if_pos hws] at hdc
    exact Or.inl hdc.symm
  · rw [if_neg hws] at hdc
    subst hdc
    exact Or.inr ⟨hd, Bool.eq_false_iff.2 hws⟩

theorem collapseWs_keep (c : Char) (hc : isPyWs c = false) (cs : List Char)
    (h : c ∈ cs) : c ∈ collapseWs cs := by
  unfold collapseWs
  have hcs : c ≠ ' ' := by
    intro he
    rw [he] at hc
    exact absurd hc (by decide)
  apply squeezeSpaces_keep c hcs
  rw [List.mem_map]
  refine ⟨c, h, ?_⟩
  rw [if_neg (by rw [hc]; exact Bool.false_ne_true)]

theorem mem_insertKey_self (k : String) (ks : List String) : k ∈ insertKey k ks := by
  unfold insertKey
  split
  · assumption
  · exact List.mem_append_right _ (List.mem_singleton.2 rfl)

theorem mem_insertKey_mono (k k' : String) (ks : List String) (h : k ∈ ks) :
    k ∈ insertKey k' ks := by
  unfold insertKey
  split
  · exact h
  · exact List.mem_append_left _ h

theorem mem_insertKey (k k' : String) (ks : List String) (h : k ∈ insertKey k' ks) :
    k = k' ∨ k ∈ ks := by
  unfold insertKey at h
  split at h
  · exact Or.inr h
  · rcases List.mem_append.1 h with h | h
    · exact Or.inr h
    · exact Or.inl (List.mem_singleton.1 h)

theorem mem_addIf_mono (k k' : String) (ks : List String) (h : k ∈ ks) :
    k ∈ addIf k' ks := by
  unfold addIf
  split
  · exact h
  · exact mem_insertKey_mono _ _ _ h

theorem mem_addIf_self (k : String) (ks : List String) (h : k ≠ "") :
    k ∈ addIf k ks := by
  unfold addIf
  rw [if_neg h]
  exact mem_insertKey_self _ _

theorem mem_addIf (k k' : String) (ks : List String) (h : k ∈ addIf k' ks) :
    k = k' ∨ k ∈ ks := by
  unfold addIf at h
  split at h
  · exact Or.inr h
  · exact mem_insertKey _ _ _ h

theorem mem_addOpt_mono (k : String) (o : Option String) (ks : List String)
    (h : k ∈ ks) : k ∈ addOpt o ks := by
  unfold addOpt
  cases o with
  | none => exact h
  | some k' => exact mem_insertKey_mono _ _ _ h

theorem mem_addOpt (k : String) (o : Option String) (ks : List String)
    (h : k ∈ addOpt o ks) : o = some k ∨ k ∈ ks := by
  unfold addOpt at h
  cases o with
  | none => exact Or.inr h
  | some k' =>
    rcases mem_insertKey _ _ _ h with rfl | h
    · exact Or.inl rfl
    · exact Or.inr h

theorem mem_foldl_mono {α β : Type} (f : List α → β → List α) (k : α)
    (hf : ∀ (a : List α) (x : β), k ∈ a → k ∈ f a x) :
    ∀ (l : List β) (a : List α), k ∈ a → k ∈ l.foldl f a := by
  intro l
  induction l with
  | nil => exact fun a h => h
  | cons x xs ih => exact fun a h => ih _ (hf a x h)

theorem foldl_inv {α β : Type} (P : α → Prop) (f : List α → β → List α) :
    ∀ (l : List β) (a : List α),
      (∀ (a' : List α) (x : β), x ∈ l → (∀ k ∈ a', P k) → ∀ k ∈ f a' x, P k) →
      (∀ k ∈ a, P k) → ∀ k ∈ l.foldl f a, P k := by
  intro l
  induction l with
  | nil => exact fun a _ ha => ha
  | cons x xs ih =>
    intro a hf ha
    exact ih _ (fun a' y hy => hf a' y (List.mem_cons_of_mem x hy))
      (hf a x (List.mem_cons_self _ _) ha)

theorem toList_mk (cs : List Char) : (String.mk cs).toList = cs := rfl

theorem toList_append (a b : String) : (a ++ b).toList = a.toList ++ b.toList := by
  cases a
  cases b
  rfl

theorem mk_ne_empty (cs : List Char) (h : cs ≠ []) : String.mk cs ≠ "" := by
  intro he
  rw [show ("" : String) = String.mk [] from rfl] at he
  injection he with he
  exact h he

theorem toList_ne_nil (s : String) (h : s ≠ "") : s.toList ≠ [] := by
  intro he
  apply h
  cases s with
  | mk data =>
    rw [toList_mk] at he
    rw [he]

theorem digitChar_digit (d : Nat) (h : d < 10) : isDigitC (digitChar d) = true := by
  unfold digitChar isDigitC
  have ht : (Char.ofNat (48 + d)).toNat = 48 + d := toNat_ofNat_lt _ (by omega)
  have h0 : '0' ≤ Char.ofNat (48 + d) := by
    show (48 : Nat) ≤ (Char.ofNat (48 + d)).toNat
    omega
  have h9 : Char.ofNat (48 + d) ≤ '9' := by
    show (Char.ofNat (48 + d)).toNat ≤ (57 : Nat)
    omega
  simp [h0, h9]

theorem natDigits_digits (c : Char) :
    ∀ f n : Nat, c ∈ natDigits f n → isDigitC c = true := by
  intro f
  induction f with
  | zero =>
    intro n h
    exact absurd h (by rw [natDigits]; exact List.not_mem_nil c)
  | succ f ih =>
    intro n h
    rw [natDigits] at h
    split at h
    · rw [List.mem_singleton] at h
      subst h
      exact digitChar_digit n (by assumption)
    · rcases List.mem_append.1 h with h | h
      · exact ih _ h
      · rw [List.mem_singleton] at h
        subst h
        exact digitChar_digit _ (Nat.mod_lt _ (by omega))

theorem natDigits_ne_nil (f n : Nat) : natDigits (f + 1) n ≠ [] := by
  rw [natDigits]
  split
  · simp
  · simp

theorem lowerAlnum_not_ws (c : Char) (h : isLowerAlnum c = true) :
    isPyWs c = false := by
  unfold isLowerAlnum isLowerC isDigitC at h
  simp only [Bool.or_eq_true, Bool.and_eq_true, decide_eq_true_eq] at h
  have hb : 48 ≤ c.toNat ∧ c.toNat ≤ 122 := by
    rcases h with ⟨h1, h2⟩ | ⟨h1, h2⟩
    · refine ⟨?_, h2⟩
      have : (97 : Nat) ≤ c.toNat := h1
      omega
    · refine ⟨h1, ?_⟩
      have : c.toNat ≤ (57 : Nat) := h2
      omega
  apply Bool.eq_false_iff.2
  intro hw
  unfold isPyWs at hw
  simp only [Bool.or_eq_true, decide_eq_true_eq] at hw
  have h32 : c.toNat ≠ 32 := by
    rcases h with ⟨h1, _⟩ | ⟨_, h2⟩
    · have : (97 : Nat) ≤ c.toNat := h1
      omega
    · have : c.toNat ≤ (57 : Nat) := h2
      omega
  rcases hw with ((((he | he) | he) | he) | he) | he <;> subst he <;>
    first
      | exact h32 rfl
      | exact absurd hb (by decide)

theorem isKeyChar_lowerAlnum (c : Char) (h : isLowerAlnum c = true) :
    isKeyChar c = true := by
  unfold isKeyChar
  rw [h]
  rfl

theorem isKeyChar_digit (c : Char) (h : isDigitC c = true) :
    isKeyChar c = true := by
  apply isKeyChar_lowerAlnum
  unfold isLowerAlnum
  rw [h]
  simp

theorem keyChar_not_ws (c : Char) (h : isKeyChar c = true) (hs : c ≠ ' ') :
    isPyWs c = false := by
  unfold isKeyChar at h
  simp only [Bool.or_eq_true, decide_eq_true_eq] at h
  rcases h with ((h | h) | h) | h
  · exact lowerAlnum_not_ws c h
  · exact absurd h hs
  · subst h; decide
  · subst h; decide

theorem lowerAlnum_toNat (c : Char) (h : isLowerAlnum c = true) :
    48 ≤ c.toNat ∧ c.toNat ≤ 122 := by
  unfold isLowerAlnum isLowerC isDigitC at h
  simp only [Bool.or_eq_true, Bool.and_eq_true, decide_eq_true_eq] at h
  rcases h with ⟨h1, h2⟩ | ⟨h1, h2⟩
  · refine ⟨?_, h2⟩
    have : (97 : Nat) ≤ c.toNat := h1
    omega
  · refine ⟨h1, ?_⟩
    have : c.toNat ≤ (57 : Nat) := h2
    omega

theorem alnum_not_ws (c : Char) (h : isAlnumC c = true) : isPyWs c = false := by
  unfold isAlnumC isLowerC isUpperC isDigitC at h
  simp only [Bool.or_eq_true, Bool.and_eq_true, decide_eq_true_eq] at h
  have hb : 48 ≤ c.toNat ∧ c.toNat ≤ 122 ∧ c.toNat ≠ 32 := by
    rcases h with (⟨h1, h2⟩ | ⟨h1, h2⟩) | ⟨h1, h2⟩
    · have ha : (97 : Nat) ≤ c.toNat := h1
      have hz : c.toNat ≤ (122 : Nat) := h2
      omega
    · have ha : (65 : Nat) ≤ c.toNat := h1
      have hz : c.toNat ≤ (90 : Nat) := h2
      omega
    · have ha : (48 : Nat) ≤ c.toNat := h1
      have hz : c.toNat ≤ (57 : Nat) := h2
      omega
  apply Bool.eq_false_iff.2
  intro hw
  unfold isPyWs at hw
  simp only [Bool.or_eq_true, decide_eq_true_eq] at hw
  rcases hw with ((((he | he) | he) | he) | he) | he <;> rw [he] at hb <;>
    exact absurd hb (by decide)

theorem quoteMap_fixed (d : Char) (h : isLowerAlnum d = true) :
    (if d = '“' || d = '”' then '"' else if d = '’' then '\'' else d) = d := by
  have hb := lowerAlnum_toNat d h
  have h1 : ¬((d = '“' || d = '”') = true) := by
    rw [Bool.or_eq_true, decide_eq_true_eq, decide_eq_true_eq]
    rintro (he | he) <;> rw [he] at hb <;> exact absurd hb (by decide)
  have h2 : ¬(d = '’') := by
    intro he
    rw [he] at hb
    exact absurd hb (by decide)
  rw [if_neg h1, if_neg h2]

theorem arrowMap_fixed (d : Char) (h : isLowerAlnum d = true) :
    (if d = '↑' || d = '↓' || d = '→' then ' '
     else if d = '–' then '-' else d) = d := by
  have hb := lowerAlnum_toNat d h
  have h1 : ¬((d = '↑' || d = '↓' || d = '→') = true) := by
    rw [Bool.or_eq_true, Bool.or_eq_true, decide_eq_true_eq, decide_eq_true_eq,
      decide_eq_true_eq]
    rintro ((he | he) | he) <;> rw [he] at hb <;> exact absurd hb (by decide)
  have h2 : ¬(d = '–') := by
    intro he
    rw [he] at hb
    exact absurd hb (by decide)
  rw [if_neg h1, if_neg h2]

theorem classMap_fixed (d : Char) (h : isLowerAlnum d = true) :
    (if isLowerAlnum d || isPyWs d then d else ' ') = d := by
  rw [if_pos]
  rw [h, Bool.true_or]

theorem mem_subScanB (matchAt : List Char → Option (List Char))
    (hm : ∀ cs rest, matchAt cs = some rest → ∀ c ∈ rest, c ∈ cs)
    (c : Char) :
    ∀ (f : Nat) (b : Bool) (cs : List Char),
      c ∈ subScanB matchAt f b cs → c = ' ' ∨ c ∈ cs := by
  intro f
  induction f with
  | zero => exact fun b cs h => Or.inr h
  | succ f ih =>
    intro b cs h
    cases cs with
    | nil =>
      rw [subScanB] at h
      exact absurd h (List.not_mem_nil c)
    | cons a rest =>
      rw [subScanB] at h
      split at h
      · cases hma : matchAt (a :: rest) with
        | some rest' =>
          simp only [hma] at h
          rcases List.mem_cons.1 h with rfl | h
          · exact Or.inl rfl
          · rcases ih true rest' h with h | h
            · exact Or.inl h
            · exact Or.inr (hm _ _ hma c h)
        | none =>
          simp only [hma] at h
          rcases List.mem_cons.1 h with rfl | h
          · exact Or.inr (List.mem_cons_self _ _)
          · rcases ih _ rest h with h | h
            · exact Or.inl h
            · exact Or.inr (List.mem_cons_of_mem a h)
      · rcases List.mem_cons.1 h with rfl | h
        · exact Or.inr (List.mem_cons_self _ _)
        · rcases ih _ rest h with h | h
          · exact Or.inl h
          · exact Or.inr (List.mem_cons_of_mem a h)

theorem searchScanB_some {α : Type} (matchAt : List Char → Option α) :
    ∀ (f : Nat) (b : Bool) (cs : List Char) (a : α),
      searchScanB matchAt f b cs = some a → ∃ cs', matchAt cs' = some a := by
  intro f
  induction f with
  | zero =>
    intro b cs a h
    rw [searchScanB] at h
    exact Option.noConfusion h
  | succ f ih =>
    intro b cs a h
    cases cs with
    | nil =>
      rw [searchScanB] at h
      exact Option.noConfusion h
    | cons x rest =>
      rw [searchScanB] at h
      split at h
      · cases hma : matchAt (x :: rest) with
        | some r =>
          simp only [hma, Option.some.injEq] at h
          subst h
          exact ⟨x :: rest, hma⟩
        | none =>
          simp only [hma] at h
          exact ih _ rest a h
      · exact ih _ rest a h

theorem searchScanNB_some {α : Type} (matchAt : List Char → Option α) :
    ∀ (f : Nat) (cs : List Char) (a : α),
      searchScanNB matchAt f cs = some a → ∃ cs', matchAt cs' = some a := by
  intro f
  induction f with
  | zero =>
    intro cs a h
    rw [searchScanNB] at h
    exact Option.noConfusion h
  | succ f ih =>
    intro cs a h
    cases cs with
    | nil =>
      rw [searchScanNB] at h
      exact Option.noConfusion h
    | cons x rest =>
      rw [searchScanNB] at h
      cases hma : matchAt (x :: rest) with
      | some r =>
        simp only [hma, Option.some.injEq] at h
        subst h
        exact ⟨x :: rest, hma⟩
      | none =>
        simp only [hma] at h
        exact ih rest a h

theorem normTextL_goodChars (cs : List Char) :
    ∀ c ∈ normTextL cs, isLowerAlnum c = true ∨ c = ' ' := by
  intro c h
  simp only [normTextL] at h
  have h1 := mem_trimWs c _ h
  rcases mem_collapseWs c _ h1 with h2 | ⟨h2, hnw⟩
  · exact Or.inr h2
  · rw [List.mem_map] at h2
    obtain ⟨d, _, hdc⟩ := h2
    by_cases hda : (isLowerAlnum d || isPyWs d) = true
    · rw [if_pos hda] at hdc
      subst hdc
      rw [Bool.or_eq_true] at hda
      rcases hda with h3 | h3
      · exact Or.inl h3
      · rw [h3] at hnw
        exact absurd hnw (by decide)
    · rw [if_neg hda] at hdc
      exact Or.inr hdc.symm

theorem normTextL_keyChars (cs : List Char) :
    ∀ c ∈ normTextL cs, isKeyChar c = true := by
  intro c h
  rcases normTextL_goodChars cs c h with h | rfl
  · exact isKeyChar_lowerAlnum c h
  · decide

theorem normTextL_trim (cs : List Char) : trimWs (normTextL cs) = normTextL cs := by
  simp only [normTextL]
  exact trimWs_trimWs _

theorem goodK_normText (s : String) : GoodK (normText s) := by
  constructor
  · intro c hc
    rw [normText, toList_mk] at hc
    exact normTextL_keyChars _ c hc
  · rw [normText, toList_mk]
    exact normTextL_trim _

theorem normTextL_has (cs : List Char) (c : Char) (hc : c ∈ cs)
    (ha : isAlnumC c = true) : pyLower c ∈ normTextL cs := by
  have hlo : isLowerAlnum (pyLower c) = true := pyLower_lowerAlnum c ha
  have hnw : isPyWs (pyLower c) = false := lowerAlnum_not_ws _ hlo
  have hb := lowerAlnum_toNat _ hlo
  simp only [normTextL]
  apply trimWs_keep _ hnw
  apply collapseWs_keep _ hnw
  rw [List.mem_map]
  refine ⟨pyLower c, ?_, classMap_fixed _ hlo⟩
  rw [List.mem_map]
  refine ⟨pyLower c, ?_, arrowMap_fixed _ hlo⟩
  have hq1 : pyLower c ≠ '\'' := by
    intro he
    rw [he] at hb
    exact absurd hb (by decide)
  have hq2 : pyLower c ≠ '"' := by
    intro he
    rw [he] at hb
    exact absurd hb (by decide)
  apply stripChar_keep _ _ hq1
  apply stripChar_keep _ _ hq2
  rw [List.mem_map]
  refine ⟨pyLower c, ?_, quoteMap_fixed _ hlo⟩
  rw [List.mem_map]
  refine ⟨c, ?_, rfl⟩
  exact trimWs_keep c (alnum_not_ws c ha) cs hc

theorem normText_ne_empty (s : String) (c : Char) (hc : c ∈ s.toList)
    (ha : isAlnumC c = true) : normText s ≠ "" := by
  rw [normText]
  apply mk_ne_empty
  exact List.ne_nil_of_mem (normTextL_has _ c hc ha)

theorem digit_not_ws (c : Char) (h : isDigitC c = true) : isPyWs c = false :=
  lowerAlnum_not_ws c (by unfold isLowerAlnum; rw [h, Bool.or_true])

theorem lowerC_lowerAlnum (c : Char) (h : isLowerC c = true) :
    isLowerAlnum c = true := by
  unfold isLowerAlnum
  rw [h, Bool.true_or]

theorem mem_afterPrefix (p : List Char) :
    ∀ (cs rest : List Char), afterPrefix p cs = some rest →
      ∀ x ∈ rest, x ∈ cs := by
  induction p with
  | nil =>
    intro cs rest h x hx
    rw [afterPrefix, Option.some.injEq] at h
    subst h
    exact hx
  | cons p ps ih =>
    intro cs rest h x hx
    cases cs with
    | nil =>
      rw [afterPrefix] at h
      exact Option.noConfusion h
    | cons a t =>
      rw [afterPrefix] at h
      split at h
      · exact List.mem_cons_of_mem a (ih t rest h x hx)
      · exact Option.noConfusion h

theorem mem_takeWs (cs : List Char) : ∀ x ∈ (takeWs cs).2, x ∈ cs := by
  induction cs with
  | nil => exact fun x hx => hx
  | cons a t ih =>
    intro x hx
    simp only [takeWs] at hx
    split at hx
    · exact List.mem_cons_of_mem a (ih x hx)
    · exact hx

theorem takeDigits_digits (cs : List Char) :
    ∀ x ∈ (takeDigits cs).1, isDigitC x = true := by
  induction cs with
  | nil => exact fun x hx => absurd hx (List.not_mem_nil x)
  | cons a t ih =>
    intro x hx
    simp only [takeDigits] at hx
    split at hx
    · rcases List.mem_cons.1 hx with rfl | hx
      · assumption
      · exact ih x hx
    · exact absurd hx (List.not_mem_nil x)

theorem matchYearAt_sub (cs rest : List Char) (h : matchYearAt cs = some rest) :
    ∀ x ∈ rest, x ∈ cs := by
  intro x hx
  unfold matchYearAt at h
  split at h
  · split at h
    · rw [Option.some.injEq] at h
      subst h
      simp only [List.mem_cons]
      exact Or.inr (Or.inr (Or.inr (Or.inr hx)))
    · exact Option.noConfusion h
  · exact Option.noConfusion h

theorem matchRateTail_sub (cs rest : List Char) (h : matchRateTail cs = some rest) :
    ∀ x ∈ rest, x ∈ cs := by
  intro x hx
  unfold matchRateTail at h
  cases hap : afterPrefix ['r', 'a', 't', 'e'] cs with
  | none =>
    rw [hap] at h
    exact Option.noConfusion h
  | some r =>
    simp only [hap] at h
    split at h
    · split at h
      · rw [Option.some.injEq] at h
        subst h
        exact mem_afterPrefix _ _ _ hap x (List.mem_cons_of_mem 's' hx)
      · exact Option.noConfusion h
    · split at h
      · rw [Option.some.injEq] at h
        subst h
        exact mem_afterPrefix _ _ _ hap x hx
      · exact Option.noConfusion h

theorem matchInterestRatesAt_sub (cs rest : List Char)
    (h : matchInterestRatesAt cs = some rest) : ∀ x ∈ rest, x ∈ cs := by
  intro x hx
  unfold matchInterestRatesAt at h
  cases hap : afterPrefix ['i', 'n', 't', 'e', 'r', 'e', 's', 't'] cs with
  | none =>
    rw [hap] at h
    exact Option.noConfusion h
  | some r1 =>
    simp only [hap] at h
    split at h
    · exact Option.noConfusion h
    · have hr := matchRateTail_sub _ _ h x hx
      exact mem_afterPrefix _ _ _ hap x (mem_takeWs r1 x hr)

theorem matchRateOnlyAt_sub (cs rest : List Char)
    (h : matchRateOnlyAt cs = some rest) : ∀ x ∈ rest, x ∈ cs := by
  intro x hx
  unfold matchRateOnlyAt at h
  cases hap : afterPrefix ['r', 'a', 't', 'e'] cs with
  | none =>
    rw [hap] at h
    exact Option.noConfusion h
  | some r =>
    simp only [hap] at h
    split at h
    · rw [Option.some.injEq] at h
      subst h
      exact mem_afterPrefix _ _ _ hap x hx
    · exact Option.noConfusion h

theorem goodK_stripYears (s : String) (hg : GoodK s) : GoodK (stripYears s) := by
  obtain ⟨hks, -⟩ := hg
  constructor
  · intro c hc
    rw [stripYears, toList_mk] at hc
    unfold stripYearsL at hc
    have h1 := mem_trimWs c _ hc
    rcases mem_collapseWs c _ h1 with rfl | ⟨h2, -⟩
    · decide
    · rcases mem_subScanB matchYearAt matchYearAt_sub c _ _ _ h2 with rfl | h3
      · decide
      · exact hks c h3
  · rw [stripYears, toList_mk]
    unfold stripYearsL
    exact trimWs_trimWs _

theorem goodK_stripRateWords (s : String) (hg : GoodK s) :
    GoodK (stripRateWords s) := by
  obtain ⟨hks, -⟩ := hg
  constructor
  · intro c hc
    rw [stripRateWords, toList_mk] at hc
    simp only [stripRateWordsL] at hc
    have h1 := mem_trimWs c _ hc
    rcases mem_collapseWs c _ h1 with rfl | ⟨h2, -⟩
    · decide
    · rcases mem_subScanB _ matchRateOnlyAt_sub c _ _ _ h2 with rfl | h3
      · decide
      · rcases mem_subScanB _ matchRateTail_sub c _ _ _ h3 with rfl | h4
        · decide
        · rcases mem_subScanB _ matchInterestRatesAt_sub c _ _ _ h4 with rfl | h5
          · decide
          · exact hks c (mem_trimWs c _ h5)
  · rw [stripRateWords, toList_mk]
    simp only [stripRateWordsL]
    exact trimWs_trimWs _

theorem MONTHS_chars :
    ∀ m ∈ MONTHS, (∀ c ∈ m, isLowerC c = true) ∧ m ≠ [] := by decide

theorem matchMonthAt_month (cs m rest : List Char)
    (h : matchMonthAt cs = some (m, rest)) : m ∈ MONTHS := by
  unfold matchMonthAt at h
  have hmem := List.mem_of_mem_head? (Option.mem_def.2 h)
  rw [List.mem_filterMap] at hmem
  obtain ⟨a, ha, hf⟩ := hmem
  cases hap : afterPrefix a cs with
  | none =>
    rw [hap] at hf
    exact Option.noConfusion hf
  | some r =>
    simp only [hap, Option.some.injEq, Prod.mk.injEq] at hf
    rw [← hf.1]
    exact ha

theorem matchMonthDayAt_month (cs m : List Char) (d : Nat)
    (h : matchMonthDayAt cs = some (m, d)) : m ∈ MONTHS := by
  unfold matchMonthDayAt at h
  cases hma : matchMonthAt cs with
  | none =>
    rw [hma] at h
    exact Option.noConfusion h
  | some p =>
    obtain ⟨mm, rest⟩ := p
    have hmon : mm ∈ MONTHS := matchMonthAt_month cs mm rest hma
    simp only [hma] at h
    split at h
    · exact Option.noConfusion h
    · split at h
      · split at h
        · rw [Option.some.injEq, Prod.mk.injEq] at h
          exact h.1 ▸ hmon
        · split at h
          · rw [Option.some.injEq, Prod.mk.injEq] at h
            exact h.1 ▸ hmon
          · exact Option.noConfusion h
      · split at h
        · rw [Option.some.injEq, Prod.mk.injEq] at h
          exact h.1 ▸ hmon
        · exact Option.noConfusion h
      · exact Option.noConfusion h

theorem goodK_monthDayKey (m : List Char) (d : Nat) (hm : m ∈ MONTHS) :
    GoodK (String.mk (m ++ ' ' :: natDigits (d + 1) d)) ∧
      String.mk (m ++ ' ' :: natDigits (d + 1) d) ≠ "" := by
  have hmc := (MONTHS_chars m hm).1
  have hmne := (MONTHS_chars m hm).2
  refine ⟨⟨?_, ?_⟩, ?_⟩
  · intro c hc
    rw [toList_mk] at hc
    rcases List.mem_append.1 hc with hc | hc
    · exact isKeyChar_lowerAlnum c (lowerC_lowerAlnum c (hmc c hc))
    · rcases List.mem_cons.1 hc with rfl | hc
      · decide
      · exact isKeyChar_digit c (natDigits_digits c _ _ hc)
  · rw [toList_mk]
    apply trimWs_eq_self
    · intro c hc0
      rw [List.head?_append_of_ne_nil _ hmne] at hc0
      have hcm := List.mem_of_mem_head? (Option.mem_def.2 hc0)
      exact lowerAlnum_not_ws c (lowerC_lowerAlnum c (hmc c hcm))
    · intro c hc0
      have hds := natDigits_ne_nil d d
      rw [List.getLast?_append_of_ne_nil m (by simp)] at hc0
      rw [show (' ' :: natDigits (d + 1) d) = [' '] ++ natDigits (d + 1) d from rfl,
        List.getLast?_append_of_ne_nil _ hds] at hc0
      have hcd := List.mem_of_mem_getLast? (Option.mem_def.2 hc0)
      exact digit_not_ws c (natDigits_digits c _ _ hcd)
  · apply mk_ne_empty
    simp [hmne]

theorem matchRangeAt_digits (cs a b : List Char)
    (h : matchRangeAt cs = some (a, b)) :
    (∀ x ∈ a, isDigitC x = true) ∧ (∀ x ∈ b, isDigitC x = true) := by
  simp only [matchRangeAt] at h
  have hgoal : ∀ r3 : List Char,
      (if (takeDigits (takeWs r3).2).1 = [] then none
       else some ((takeDigits cs).1, (takeDigits (takeWs r3).2).1)) = some (a, b) →
      (∀ x ∈ a, isDigitC x = true) ∧ (∀ x ∈ b, isDigitC x = true) := by
    intro r3 hc
    split at hc
    · exact Option.noConfusion hc
    · rw [Option.some.injEq, Prod.mk.injEq] at hc
      obtain ⟨rfl, rfl⟩ := hc
      exact ⟨fun x hx => takeDigits_digits _ x hx,
        fun x hx => takeDigits_digits _ x hx⟩
  split at h
  · exact Option.noConfusion h
  · split at h
    · exact hgoal _ h
    · exact hgoal _ h
    · split at h
      · exact hgoal _ h
      · exact Option.noConfusion h
    · exact Option.noConfusion h

theorem goodK_extractRange (s k : String) (h : extractRange s = some k) :
    GoodK k ∧ k ≠ "" := by
  simp only [extractRange] at h
  split at h
  · exact Option.noConfusion h
  · rename_i a b heq
    rw [Option.some.injEq] at h
    subst h
    obtain ⟨cs', hm⟩ := searchScanNB_some _ _ _ _ heq
    obtain ⟨hda, hdb⟩ := matchRangeAt_digits cs' a b hm
    refine ⟨⟨?_, ?_⟩, ?_⟩
    · intro c hc
      rw [toList_mk] at hc
      rcases List.mem_append.1 hc with hc | hc
      · exact isKeyChar_digit c (hda c hc)
      · rcases List.mem_cons.1 hc with rfl | hc
        · decide
        · exact isKeyChar_digit c (hdb c hc)
    · rw [toList_mk]
      apply trimWs_of_no_ws
      intro c hc
      rcases List.mem_append.1 hc with hc | hc
      · exact digit_not_ws c (hda c hc)
      · rcases List.mem_cons.1 hc with rfl | hc
        · decide
        · exact digit_not_ws c (hdb c hc)
    · apply mk_ne_empty
      simp

theorem matchSymAt_op (cs : List Char) (op : String) (n : Nat)
    (h : matchSymAt cs = some (op, n)) :
    op = "ge" ∨ op = "le" ∨ op = "gt" ∨ op = "lt" := by
  simp only [matchSymAt] at h
  repeat' split at h
  all_goals
    first
      | exact Option.noConfusion h
      | (rw [Option.some.injEq, Prod.mk.injEq] at h
         obtain ⟨rfl, -⟩ := h
         decide)

theorem extractDirThreshold_op (s op : String) (n : Nat)
    (h : extractDirThreshold s = some (op, n)) :
    op = "ge" ∨ op = "le" ∨ op = "gt" ∨ op = "lt" := by
  simp only [extractDirThreshold] at h
  split at h
  · rename_i r heq
    rw [Option.some.injEq] at h
    subst h
    obtain ⟨cs', hm⟩ := searchScanNB_some _ _ _ _ heq
    exact matchSymAt_op cs' op n hm
  · repeat' split at h
    all_goals
      first
        | exact Option.noConfusion h
        | (rw [Option.some.injEq, Prod.mk.injEq] at h
           obtain ⟨rfl, -⟩ := h
           decide)

theorem goodK_natToStr (n : Nat) : GoodK (natToStr n) ∧ natToStr n ≠ "" := by
  refine ⟨⟨?_, ?_⟩, ?_⟩
  · intro c hc
    rw [natToStr, toList_mk] at hc
    exact isKeyChar_digit c (natDigits_digits c _ _ hc)
  · rw [natToStr, toList_mk]
    apply trimWs_of_no_ws
    intro c hc
    exact digit_not_ws c (natDigits_digits c _ _ hc)
  · rw [natToStr]
    exact mk_ne_empty _ (natDigits_ne_nil n n)

theorem goodK_opKey (op : String) (n : Nat)
    (hop : op = "ge" ∨ op = "le" ∨ op = "gt" ∨ op = "lt") :
    GoodK (op ++ "_" ++ natToStr n) ∧ (op ++ "_" ++ natToStr n) ≠ "" := by
  have hchars : ∀ c ∈ (op ++ "_").toList, isKeyChar c = true ∧ isPyWs c = false := by
    rcases hop with rfl | rfl | rfl | rfl <;> decide
  refine ⟨⟨?_, ?_⟩, ?_⟩
  · intro c hc
    rw [toList_append] at hc
    rcases List.mem_append.1 hc with hc | hc
    · exact (hchars c hc).1
    · rw [natToStr, toList_mk] at hc
      exact isKeyChar_digit c (natDigits_digits c _ _ hc)
  · rw [toList_append]
    apply trimWs_of_no_ws
    intro c hc
    rcases List.mem_append.1 hc with hc | hc
    · exact (hchars c hc).2
    · rw [natToStr, toList_mk] at hc
      exact digit_not_ws c (natDigits_digits c _ _ hc)
  · intro he
    have hl : (op ++ "_" ++ natToStr n).toList = [] := by rw [he]; rfl
    rw [toList_append, List.append_eq_nil] at hl
    rcases hop with rfl | rfl | rfl | rfl <;> exact absurd hl.1 (by decide)

theorem goodK_digitsOnly (cs : List Char) : GoodK (String.mk (digitsOnlyL cs)) := by
  constructor
  · intro c hc
    rw [toList_mk] at hc
    exact isKeyChar_digit c (List.of_mem_filter hc)
  · rw [toList_mk]
    apply trimWs_of_no_ws
    intro c hc
    exact digit_not_ws c (List.of_mem_filter hc)

theorem goodK_extractMonthDay (s k : String) (h : extractMonthDay s = some k) :
    GoodK k ∧ k ≠ "" := by
  simp only [extractMonthDay] at h
  split at h
  · exact Option.noConfusion h
  · rename_i m d heq
    rw [Option.some.injEq] at h
    subst h
    obtain ⟨cs', hm⟩ := searchScanB_some _ _ _ _ _ heq
    exact goodK_monthDayKey m d (matchMonthDayAt_month cs' m d hm)

theorem incDecHead_eq (k w : String) (h : incDecHead k = some w) :
    w = "increase" ∨ w = "decrease" := by
  have htw : ∀ (w0 : String),
      (match afterPrefix w0.toList k.toList with
       | none => none
       | some rest =>
         if rest = [] then some w0
         else
           if (takeWs rest).1 = 0 then none
           else
             match afterPrefix ['r', 'a', 't', 'e'] (takeWs rest).2 with
             | some [] => some w0
             | some ['s'] => some w0
             | _ => none) = some w → w = w0 := by
    intro w0 hh
    repeat' split at hh
    all_goals
      first
        | exact Option.noConfusion hh
        | exact (Option.some.inj hh).symm
  simp only [incDecHead] at h
  split at h
  · rename_i w' heq
    rw [Option.some.injEq] at h
    subst h
    exact Or.inl (htw "increase" heq)
  · exact Or.inr (htw "decrease" h)

theorem addIf_good (k' : String) (ks : List String) (hk' : GoodK k')
    (h : ∀ k ∈ ks, GoodK k) : ∀ k ∈ addIf k' ks, GoodK k := by
  intro k hk
  rcases mem_addIf _ _ _ hk with rfl | hk
  · exact hk'
  · exact h k hk

theorem ys_stage_good (b : String) (ks : List String) (hb : GoodK b)
    (h : ∀ k ∈ ks, GoodK k) :
    ∀ k ∈ (if b = "" then ks else addIf (stripYears b) ks), GoodK k := by
  split
  · exact h
  · exact addIf_good _ _ (goodK_stripYears b hb) h

theorem srw_fold_good (l : List String) (hl : ∀ k ∈ l, GoodK k) :
    ∀ a : List String, (∀ k ∈ a, GoodK k) →
      ∀ k ∈ l.foldl (fun a k0 => addIf (stripRateWords k0) a) a, GoodK k := by
  induction l with
  | nil => exact fun a ha => ha
  | cons x xs ih =>
    intro a ha
    have hx : GoodK x := hl x (List.mem_cons_self _ _)
    apply ih (fun k hk => hl k (List.mem_cons_of_mem x hk))
    exact addIf_good _ _ (goodK_stripRateWords x hx) ha

theorem md_stage_good (s : String) (ks : List String)
    (h : ∀ k ∈ ks, GoodK k) : ∀ k ∈ addOpt (extractMonthDay s) ks, GoodK k := by
  intro k hk
  rcases mem_addOpt _ _ _ hk with hmd | hk
  · exact (goodK_extractMonthDay s k hmd).1
  · exact h k hk

theorem digits_stage_good (s : String) (ks : List String)
    (h : ∀ k ∈ ks, GoodK k) :
    ∀ k ∈ (if (String.mk (digitsOnlyL s.toList)).length ≥ 3
           then insertKey (String.mk (digitsOnlyL s.toList)) ks else ks),
      GoodK k := by
  split
  · intro k hk
    rcases mem_insertKey _ _ _ hk with rfl | hk
    · exact goodK_digitsOnly _
    · exact h k hk
  · exact h

theorem compact_stage_good (s : String) (ks : List String)
    (h : ∀ k ∈ ks, GoodK k) :
    ∀ k ∈ (match expandCompactNumber s with
           | some v => if v ≥ 100 then insertKey (natToStr v) ks else ks
           | none => ks), GoodK k := by
  cases expandCompactNumber s with
  | none => exact h
  | some v =>
    intro k hk
    have hk2 : k ∈ (if v ≥ 100 then insertKey (natToStr v) ks else ks) := hk
    split at hk2
    · rcases mem_insertKey _ _ _ hk2 with rfl | hk2
      · exact (goodK_natToStr v).1
      · exact h k hk2
    · exact h k hk2

theorem rg_stage_good (s : String) (ks : List String)
    (h : ∀ k ∈ ks, GoodK k) : ∀ k ∈ addOpt (extractRange s) ks, GoodK k := by
  intro k hk
  rcases mem_addOpt _ _ _ hk with hrg | hk
  · exact (goodK_extractRange s k hrg).1
  · exact h k hk

theorem dir_stage_good (s : String) (ks : List String)
    (h : ∀ k ∈ ks, GoodK k) :
    ∀ k ∈ (match extractDirThreshold s with
           | some (op, n) =>
             insertKey (natToStr n) (insertKey (op ++ "_" ++ natToStr n) ks)
           | none => ks), GoodK k := by
  cases hdt : extractDirThreshold s with
  | none => exact h
  | some p =>
    obtain ⟨op, n⟩ := p
    intro k hk
    rcases mem_insertKey _ _ _ hk with rfl | hk
    · exact (goodK_natToStr n).1
    · rcases mem_insertKey _ _ _ hk with rfl | hk
      · exact (goodK_opKey op n (extractDirThreshold_op s op n hdt)).1
      · exact h k hk

theorem keysForTextStripped_good (acc : List String) (rawT : String)
    (h : ∀ k ∈ acc, GoodK k) : ∀ k ∈ keysForTextStripped acc rawT, GoodK k := by
  have i2 := addIf_good _ _ (goodK_normText (String.mk (rawT.toList.filter
    (fun c => !(c = ',' || c = '，'))))) (addIf_good _ _ (goodK_normText rawT) h)
  have i3 := ys_stage_good _ _ (goodK_normText rawT) i2
  have i4 := ys_stage_good _ _ (goodK_normText (String.mk (rawT.toList.filter
    (fun c => !(c = ',' || c = '，'))))) i3
  have i5 := srw_fold_good _ i4 _ i4
  have i6 := md_stage_good rawT _ i5
  have i7 := digits_stage_good rawT _ i6
  have i8 := compact_stage_good rawT _ i7
  have i9 := rg_stage_good rawT _ i8
  have i10 := dir_stage_good rawT _ i9
  intro k hk
  apply i10
  simp only [keysForTextStripped] at hk
  exact hk

theorem ys_stage_mono (b : String) (ks : List String) (k : String) (h : k ∈ ks) :
    k ∈ (if b = "" then ks else addIf (stripYears b) ks) := by
  split
  · exact h
  · exact mem_addIf_mono _ _ _ h

theorem srw_fold_mono (l a : List String) (k : String) (h : k ∈ a) :
    k ∈ l.foldl (fun a k0 => addIf (stripRateWords k0) a) a :=
  mem_foldl_mono _ k (fun _ _ hx => mem_addIf_mono _ _ _ hx) l a h

theorem digits_stage_mono (s : String) (ks : List String) (k : String)
    (h : k ∈ ks) :
    k ∈ (if (String.mk (digitsOnlyL s.toList)).length ≥ 3
         then insertKey (String.mk (digitsOnlyL s.toList)) ks else ks) := by
  split
  · exact mem_insertKey_mono _ _ _ h
  · exact h

theorem compact_stage_mono (s : String) (ks : List String) (k : String)
    (h : k ∈ ks) :
    k ∈ (match expandCompactNumber s with
         | some v => if v ≥ 100 then insertKey (natToStr v) ks else ks
         | none => ks) := by
  cases expandCompactNumber s with
  | none => exact h
  | some v =>
    show k ∈ (if v ≥ 100 then insertKey (natToStr v) ks else ks)
    split
    · exact mem_insertKey_mono _ _ _ h
    · exact h

theorem dir_stage_mono (s : String) (ks : List String) (k : String)
    (h : k ∈ ks) :
    k ∈ (match extractDirThreshold s with
         | some (op, n) =>
           insertKey (natToStr n) (insertKey (op ++ "_" ++ natToStr n) ks)
         | none => ks) := by
  cases extractDirThreshold s with
  | none => exact h
  | some p =>
    obtain ⟨op, n⟩ := p
    exact mem_insertKey_mono _ _ _ (mem_insertKey_mono _ _ _ h)

theorem keysForTextStripped_mono (acc : List String) (rawT k : String)
    (h : k ∈ acc) : k ∈ keysForTextStripped acc rawT := by
  simp only [keysForTextStripped]
  apply dir_stage_mono
  apply mem_addOpt_mono
  apply compact_stage_mono
  apply digits_stage_mono
  apply mem_addOpt_mono
  apply srw_fold_mono
  apply ys_stage_mono
  apply ys_stage_mono
  apply mem_addIf_mono
  apply mem_addIf_mono
  exact h

theorem keysForTextStripped_has (acc : List String) (rawT : String)
    (hne : normText rawT ≠ "") : normText rawT ∈ keysForTextStripped acc rawT := by
  simp only [keysForTextStripped]
  apply dir_stage_mono
  apply mem_addOpt_mono
  apply compact_stage_mono
  apply digits_stage_mono
  apply mem_addOpt_mono
  apply srw_fold_mono
  apply ys_stage_mono
  apply ys_stage_mono
  apply mem_addIf_mono
  exact mem_addIf_self _ _ hne

theorem keysForText_good (acc : List String) (raw : String)
    (h : ∀ k ∈ acc, GoodK k) : ∀ k ∈ keysForText acc raw, GoodK k := by
  intro k hk
  simp only [keysForText] at hk
  split at hk
  · exact h k hk
  · exact keysForTextStripped_good acc _ h k hk

theorem keysForText_mono (acc : List String) (raw k : String)
    (h : k ∈ acc) : k ∈ keysForText acc raw := by
  simp only [keysForText]
  split
  · exact h
  · exact keysForTextStripped_mono _ _ _ h

theorem keysForText_has (acc : List String) (raw : String) (c : Char)
    (hc : c ∈ raw.toList) (ha : isAlnumC c = true) :
    normText (String.mk (trimWs raw.toList)) ∈ keysForText acc raw := by
  simp only [keysForText]
  have hmem : c ∈ trimWs raw.toList := trimWs_keep c (alnum_not_ws c ha) _ hc
  rw [if_neg (mk_ne_empty _ (List.ne_nil_of_mem hmem))]
  apply keysForTextStripped_has
  apply normText_ne_empty _ c _ ha
  rw [toList_mk]
  exact hmem

theorem incDec_mid_good (a : List String) (k0 : String) (h : ∀ k ∈ a, GoodK k) :
    ∀ k ∈ (match incDecHead k0 with | some w => insertKey w a | none => a),
      GoodK k := by
  cases hid : incDecHead k0 with
  | none => exact h
  | some w =>
    intro k hk
    rcases mem_insertKey _ _ _ hk with rfl | hk
    · rcases incDecHead_eq k0 k hid with rfl | rfl
      · exact ⟨by decide, by decide⟩
      · exact ⟨by decide, by decide⟩
    · exact h k hk

theorem incDec_step_good (a : List String) (k0 : String) (h : ∀ k ∈ a, GoodK k) :
    ∀ k ∈ (if k0 = "hold" || k0 = "no change" || k0 = "unchanged" || k0 = "nochange"
           then insertKey "no change" (insertKey "hold"
             (match incDecHead k0 with | some w => insertKey w a | none => a))
           else match incDecHead k0 with | some w => insertKey w a | none => a),
      GoodK k := by
  split
  · intro k hk
    rcases mem_insertKey _ _ _ hk with rfl | hk
    · exact ⟨by decide, by decide⟩
    · rcases mem_insertKey _ _ _ hk with rfl | hk
      · exact ⟨by decide, by decide⟩
      · exact incDec_mid_good a k0 h k hk
  · exact incDec_mid_good a k0 h

theorem incDec_fold_good (l a : List String) (h : ∀ k ∈ a, GoodK k) :
    ∀ k ∈ l.foldl (fun a k0 =>
      if k0 = "hold" || k0 = "no change" || k0 = "unchanged" || k0 = "nochange"
      then insertKey "no change" (insertKey "hold"
        (match incDecHead k0 with | some w => insertKey w a | none => a))
      else match incDecHead k0 with | some w => insertKey w a | none => a) a,
      GoodK k :=
  foldl_inv GoodK _ l a (fun a' x _ ha' => incDec_step_good a' x ha') h

theorem another1_good (ks : List String) (h : ∀ k ∈ ks, GoodK k) :
    ∀ k ∈ (if ks.contains "another game" || ks.contains "another"
           then insertKey "other" ks else ks), GoodK k := by
  split
  · intro k hk
    rcases mem_insertKey _ _ _ hk with rfl | hk
    · exact ⟨by decide, by decide⟩
    · exact h k hk
  · exact h

theorem another2_good (ks : List String) (h : ∀ k ∈ ks, GoodK k) :
    ∀ k ∈ (if ks.contains "other" then insertKey "another game" ks else ks),
      GoodK k := by
  split
  · intro k hk
    rcases mem_insertKey _ _ _ hk with rfl | hk
    · exact ⟨by decide, by decide⟩
    · exact h k hk
  · exact h

theorem makeKeys_good (label extra : String) :
    ∀ k ∈ makeKeys label extra, GoodK k ∧ k ≠ "" := by
  intro k hk
  simp only [makeKeys] at hk
  split at hk
  · exact absurd hk (List.not_mem_nil k)
  · rw [List.mem_filter] at hk
    obtain ⟨hk, hne⟩ := hk
    rw [decide_eq_true_eq] at hne
    refine ⟨?_, hne⟩
    have h0 : ∀ k ∈ ((if label = "" then [] else [label])
        ++ (if extra = "" then [] else [extra])).foldl keysForText
        ([] : List String), GoodK k :=
      foldl_inv GoodK keysForText _ _
        (fun a' x _ ha' => keysForText_good a' x ha')
        (fun k hk => absurd hk (List.not_mem_nil k))
    have h1 := incDec_fold_good (((if label = "" then [] else [label])
        ++ (if extra = "" then [] else [extra])).foldl keysForText []) _ h0
    have h2 := another1_good _ h1
    have h3 := another2_good _ h2
    exact h3 k hk

theorem incDec_fold_mono (l a : List String) (k : String) (h : k ∈ a) :
    k ∈ l.foldl (fun a k0 =>
      if k0 = "hold" || k0 = "no change" || k0 = "unchanged" || k0 = "nochange"
      then insertKey "no change" (insertKey "hold"
        (match incDecHead k0 with | some w => insertKey w a | none => a))
      else match incDecHead k0 with | some w => insertKey w a | none => a) a := by
  refine mem_foldl_mono _ k ?_ l a h
  intro a' x hk
  have hmid : k ∈ (match incDecHead x with
      | some w => insertKey w a' | none => a') := by
    cases incDecHead x with
    | none => exact hk
    | some w => exact mem_insertKey_mono _ _ _ hk
  split
  · exact mem_insertKey_mono _ _ _ (mem_insertKey_mono _ _ _ hmid)
  · exact hmid

theorem another1_mono (ks : List String) (k : String) (h : k ∈ ks) :
    k ∈ (if ks.contains "another game" || ks.contains "another"
         then insertKey "other" ks else ks) := by
  split
  · exact mem_insertKey_mono _ _ _ h
  · exact h

theorem another2_mono (ks : List String) (k : String) (h : k ∈ ks) :
    k ∈ (if ks.contains "other" then insertKey "another game" ks else ks) := by
  split
  · exact mem_insertKey_mono _ _ _ h
  · exact h

theorem makeKeys_has_of_key (label extra key : String)
    (hkey : key ∈ ((if label = "" then [] else [label])
      ++ (if extra = "" then [] else [extra])).foldl keysForText [])
    (hne : key ≠ "") (hcond : ¬((label = "" && extra = "") = true)) :
    makeKeys label extra ≠ [] := by
  simp only [makeKeys]
  rw [if_neg hcond]
  apply @List.ne_nil_of_mem _ key
  rw [List.mem_filter]
  refine ⟨?_, by simp [hne]⟩
  exact another2_mono _ _ (another1_mono _ _ (incDec_fold_mono _ _ _ hkey))

theorem makeKeys_has (label extra : String) (c : Char)
    (hc : c ∈ label.toList ∨ c ∈ extra.toList) (ha : isAlnumC c = true) :
    makeKeys label extra ≠ [] := by
  rcases hc with hc | hc
  · have hlne : label ≠ "" := by
      intro he
      rw [he] at hc
      exact absurd hc (List.not_mem_nil c)
    have hmemT : c ∈ trimWs label.toList :=
      trimWs_keep c (alnum_not_ws c ha) _ hc
    have hne : normText (String.mk (trimWs label.toList)) ≠ "" := by
      apply normText_ne_empty _ c _ ha
      rw [toList_mk]
      exact hmemT
    apply makeKeys_has_of_key label extra _ ?_ hne
      (by simp [hlne])
    rw [if_neg hlne]
    by_cases hex : extra = ""
    · rw [if_pos hex]
      simp only [List.append_nil, List.foldl_cons, List.foldl_nil]
      exact keysForText_has [] label c hc ha
    · rw [if_neg hex]
      simp only [List.singleton_append, List.foldl_cons, List.foldl_nil]
      exact keysForText_mono _ extra _ (keysForText_has [] label c hc ha)
  · have hexne : extra ≠ "" := by
      intro he
      rw [he] at hc
      exact absurd hc (List.not_mem_nil c)
    have hmemT : c ∈ trimWs extra.toList :=
      trimWs_keep c (alnum_not_ws c ha) _ hc
    have hne : normText (String.mk (trimWs extra.toList)) ≠ "" := by
      apply normText_ne_empty _ c _ ha
      rw [toList_mk]
      exact hmemT
    apply makeKeys_has_of_key label extra _ ?_ hne
      (by simp [hexne])
    rw [if_neg hexne]
    by_cases hlb : label = ""
    · rw [if_pos hlb]
      simp only [List.nil_append, List.foldl_cons, List.foldl_nil]
      exact keysForText_has [] extra c hc ha
    · rw [if_neg hlb]
      simp only [List.singleton_append, List.foldl_cons, List.foldl_nil]
      exact keysForText_has _ extra c hc ha

theorem keyWeight_pos (k : String) (hg : GoodK k) (hne : k ≠ "") :
    1 ≤ keyWeight k := by
  simp only [keyWeight]
  rw [hg.2]
  have hnil : k.toList ≠ [] := toList_ne_nil k hne
  rw [if_neg hnil]
  repeat' split
  all_goals omega

/-- **C3** (amended): every fingerprint the key generator returns is a
non-empty string of key characters (lowercase letters, digits, space,
hyphen, underscore) -- in particular lowercase and punctuation-stripped --
and the returned set is non-empty whenever at least one of the two inputs
contains an alphanumeric character (the original claim's "non-empty
input" condition is refuted by `c3_counterexample`). -/
theorem c3_amended (label extra : String) :
    (∀ k ∈ makeKeys label extra,
      k ≠ "" ∧ ∀ c ∈ k.toList, isKeyChar c = true) ∧
    (((∃ c ∈ label.toList, isAlnumC c = true) ∨
      (∃ c ∈ extra.toList, isAlnumC c = true)) →
      makeKeys label extra ≠ []) := by
  constructor
  · intro k hk
    obtain ⟨⟨hchars, -⟩, hne⟩ := makeKeys_good label extra k hk
    exact ⟨hne, hchars⟩
  · rintro (⟨c, hc, ha⟩ | ⟨c, hc, ha⟩)
    · exact makeKeys_has label extra c (Or.inl hc) ha
    · exact makeKeys_has label extra c (Or.inr hc) ha

/-- Witness for C3: a concrete label with an alphanumeric character
yields a non-empty key set. -/
theorem c3_witness :
    makeKeys "Fed decision in March?" "" ≠ [] ∧
      "fed decision in march" ∈ makeKeys "Fed decision in March?" "" :=
  ⟨(c3_amended "Fed decision in March?" "").2 (Or.inl ⟨'F', by decide, by decide⟩),
    by decide⟩

/-! ### Matcher tie-break lemmas (C2) -/

theorem pbStep_inv (it : OpItem) (used : List String)
    (hsc : ∀ c, pbEligible it used c = true → 1 ≤ pbScore it c)
    (processed : List PmItem) (acc : Option PmItem × Nat) (cand : PmItem)
    (hinv : pbInv it used processed acc) :
    pbInv it used (processed ++ [cand]) (pbStep it used acc cand) := by
  unfold pbStep
  split
  · rename_i he
    split
    · -- replacement branch
      rename_i hrep
      rw [Bool.or_eq_true, Bool.and_eq_true, Bool.and_eq_true] at hrep
      simp only [decide_eq_true_eq] at hrep
      have hle : ∀ c ∈ processed, pbEligible it used c = true →
          pbScore it c ≤ acc.2 := by
        intro c hc hce
        rcases hinv with ⟨hacc, hall⟩ | ⟨b, hacc, -, hmax, -⟩
        · rw [hall c hc] at hce
          exact absurd hce (by simp)
        · have h2 : acc.2 = pbScore it b := by rw [hacc]
          rw [h2]
          exact hmax c hc hce
      have hbnd : acc.2 ≤ pbScore it cand := by
        rcases hrep with hgt | ⟨⟨heq, -⟩, -⟩ <;> omega
      right
      refine ⟨cand, rfl, he, ?_, processed, [], rfl, ?_, ?_⟩
      · intro c hc hce
        rcases List.mem_append.1 hc with hc | hc
        · exact le_trans (hle c hc hce) hbnd
        · rw [List.mem_singleton.1 hc]
      · intro c hc
        exact absurd hc (List.not_mem_nil c)
      · by_cases hnt : it.norm ≠ "" ∧ it.norm = cand.norm
        · exact Or.inl hnt
        · right
          have hgt : acc.2 < pbScore it cand := by
            rcases hrep with hgt | ⟨⟨heq, hne2⟩, heq2⟩
            · exact hgt
            · exact absurd ⟨hne2, heq2⟩ hnt
          constructor
          · intro c hc hce
            exact lt_of_le_of_lt (hle c hc hce) hgt
          · intro c hc hce hsceq
            rcases List.mem_append.1 hc with hc | hc
            · have := hle c hc hce
              omega
            · rw [List.mem_singleton.1 hc] at hsceq ⊢
              exact fun hcontra => hnt hcontra
    · -- keep branch (eligible but neither better nor norm-tied equal)
      rename_i hrep
      have hrepf : (decide (pbScore it cand > acc.2) ||
          (decide (pbScore it cand = acc.2) && decide (it.norm ≠ "")
            && decide (it.norm = cand.norm))) = false :=
        Bool.eq_false_iff.2 hrep
      rw [Bool.or_eq_false_iff] at hrepf
      obtain ⟨hr1, hr2⟩ := hrepf
      rw [decide_eq_false_iff_not] at hr1
      have hnoties : pbScore it cand = acc.2 →
          ¬(it.norm ≠ "" ∧ it.norm = cand.norm) := by
        intro heq hcontra
        rw [decide_eq_true heq, decide_eq_true hcontra.1,
          decide_eq_true hcontra.2] at hr2
        simp at hr2
      rcases hinv with ⟨hacc, hall⟩ | ⟨b, hacc, heb, hmax, l1, l2, hsplit, hl2, hlast⟩
      · exfalso
        have h1 := hsc cand he
        have h2 : acc.2 = 0 := by rw [hacc]
        omega
      · have hacc2 : acc.2 = pbScore it b := by rw [hacc]
        right
        refine ⟨b, hacc, heb, ?_, l1, l2 ++ [cand], ?_, ?_, ?_⟩
        · intro c hc hce
          rcases List.mem_append.1 hc with hc | hc
          · exact hmax c hc hce
          · rw [List.mem_singleton.1 hc]
            omega
        · rw [hsplit, List.append_assoc]
          rfl
        · intro c hc hce hsceq
          rcases List.mem_append.1 hc with hc | hc
          · exact hl2 c hc hce hsceq
          · rw [List.mem_singleton.1 hc] at hsceq ⊢
            exact hnoties (by omega)
        · rcases hlast with hnt | ⟨hstrict, hnone⟩
          · exact Or.inl hnt
          · right
            refine ⟨hstrict, ?_⟩
            intro c hc hce hsceq
            rcases List.mem_append.1 hc with hc | hc
            · exact hnone c hc hce hsceq
            · rw [List.mem_singleton.1 hc] at hsceq ⊢
              exact hnoties (by omega)
  · -- ineligible candidate: skipped
    rename_i he
    have hef : pbEligible it used cand = false := Bool.eq_false_iff.2 he
    rcases hinv with ⟨hacc, hall⟩ | ⟨b, hacc, heb, hmax, l1, l2, hsplit, hl2, hlast⟩
    · left
      refine ⟨hacc, ?_⟩
      intro c hc
      rcases List.mem_append.1 hc with hc | hc
      · exact hall c hc
      · rw [List.mem_singleton.1 hc]
        exact hef
    · right
      refine ⟨b, hacc, heb, ?_, l1, l2 ++ [cand], ?_, ?_, ?_⟩
      · intro c hc hce
        rcases List.mem_append.1 hc with hc | hc
        · exact hmax c hc hce
        · rw [List.mem_singleton.1 hc] at hce
          rw [hef] at hce
          exact absurd hce (by simp)
      · rw [hsplit, List.append_assoc]
        rfl
      · intro c hc hce hsceq
        rcases List.mem_append.1 hc with hc | hc
        · exact hl2 c hc hce hsceq
        · rw [List.mem_singleton.1 hc] at hce
          rw [hef] at hce
          exact absurd hce (by simp)
      · rcases hlast with hnt | ⟨hstrict, hnone⟩
        · exact Or.inl hnt
        · right
          refine ⟨hstrict, ?_⟩
          intro c hc hce hsceq
          rcases List.mem_append.1 hc with hc | hc
          · exact hnone c hc hce hsceq
          · rw [List.mem_singleton.1 hc] at hce
            rw [hef] at hce
            exact absurd hce (by simp)

theorem pbFold_inv (it : OpItem) (used : List String)
    (hsc : ∀ c, pbEligible it used c = true → 1 ≤ pbScore it c) :
    ∀ (rest processed : List PmItem) (acc : Option PmItem × Nat),
      pbInv it used processed acc →
      pbInv it used (processed ++ rest) (rest.foldl (pbStep it used) acc) := by
  intro rest
  induction rest with
  | nil =>
    intro processed acc h
    rw [List.append_nil]
    exact h
  | cons c rest ih =>
    intro processed acc h
    rw [List.foldl_cons]
    have h3 := ih (processed ++ [c]) _ (pbStep_inv it used hsc processed acc c h)
    rw [List.append_assoc] at h3
    exact h3

theorem pickBest_inv (it : OpItem) (pms : List PmItem) (used : List String)
    (hsc : ∀ c, pbEligible it used c = true → 1 ≤ pbScore it c) :
    pbInv it used pms (pms.foldl (pbStep it used) (none, 0)) := by
  have h := pbFold_inv it used hsc pms [] (none, 0)
    (Or.inl ⟨rfl, fun c hc => absurd hc (List.not_mem_nil c)⟩)
  rw [List.nil_append] at h
  exact h

theorem mkOpItem_score_pos (oc : OpChild) (used : List String) (cand : PmItem)
    (he : pbEligible (mkOpItem oc) used cand = true) :
    1 ≤ pbScore (mkOpItem oc) cand := by
  unfold pbEligible at he
  simp only [Bool.and_eq_true] at he
  obtain ⟨-, hne⟩ := he
  rw [decide_eq_true_eq] at hne
  obtain ⟨k, hk⟩ := List.exists_mem_of_ne_nil _ hne
  have hkin : k ∈ (mkOpItem oc).keys := List.mem_of_mem_filter hk
  have hg := makeKeys_good oc.title "" k hkin
  have hw := keyWeight_pos k hg.1 hg.2
  unfold pbScore scoreKeys
  have hmem : keyWeight k ∈
      (interKeys (mkOpItem oc).keys cand.keys).map keyWeight :=
    List.mem_map_of_mem _ hk
  exact le_trans hw (List.single_le_sum (fun x _ => Nat.zero_le x) _ hmem)

/-- **C2** (amended): for a side-A item built by the pipeline (so its
fingerprints come from the key generator), `pickBest` returns nothing iff
no side-B candidate is eligible (usable ids, not yet used, non-empty
fingerprint intersection); and a returned candidate is an eligible
maximal scorer such that either it is norm-tied (non-empty normalized
label equal to side A's) and no norm-tied candidate of equal score comes
after it -- i.e. it is the LAST norm-tied maximal scorer, not the first
encountered -- or no eligible norm-tied maximal scorer exists at all and
it is the first maximal scorer. -/
theorem c2_amended (oc : OpChild) (pms : List PmItem) (used : List String) :
    (pickBest (mkOpItem oc) pms used = none ↔
      ∀ cand ∈ pms, pbEligible (mkOpItem oc) used cand = false) ∧
    ∀ best, pickBest (mkOpItem oc) pms used = some best →
      best ∈ pms ∧ pbEligible (mkOpItem oc) used best = true ∧
      (∀ cand ∈ pms, pbEligible (mkOpItem oc) used cand = true →
        pbScore (mkOpItem oc) cand ≤ pbScore (mkOpItem oc) best) ∧
      ∃ l1 l2, pms = l1 ++ best :: l2 ∧
        (((mkOpItem oc).norm ≠ "" ∧ (mkOpItem oc).norm = best.norm ∧
          ∀ cand ∈ l2, pbEligible (mkOpItem oc) used cand = true →
            pbScore (mkOpItem oc) cand = pbScore (mkOpItem oc) best →
            (mkOpItem oc).norm ≠ cand.norm) ∨
         ((∀ cand ∈ l1, pbEligible (mkOpItem oc) used cand = true →
            pbScore (mkOpItem oc) cand < pbScore (mkOpItem oc) best) ∧
          ∀ cand ∈ pms, pbEligible (mkOpItem oc) used cand = true →
            pbScore (mkOpItem oc) cand = pbScore (mkOpItem oc) best →
            ¬((mkOpItem oc).norm ≠ "" ∧ (mkOpItem oc).norm = cand.norm))) := by
  have hinv := pickBest_inv (mkOpItem oc) pms used (mkOpItem_score_pos oc used)
  constructor
  · constructor
    · intro hn
      rcases hinv with ⟨-, hall⟩ | ⟨b, hacc, -, -, -⟩
      · exact hall
      · exfalso
        unfold pickBest at hn
        rw [hacc] at hn
        exact Option.noConfusion hn
    · intro hall
      rcases hinv with ⟨hacc, -⟩ | ⟨b, hacc, heb, -, l1, l2, hsplit, -, -⟩
      · unfold pickBest
        rw [hacc]
      · exfalso
        have hb : b ∈ pms := by
          rw [hsplit]
          exact List.mem_append_right l1 (List.mem_cons_self b l2)
        rw [hall b hb] at heb
        exact absurd heb (by simp)
  · intro best hbest
    rcases hinv with ⟨hacc, -⟩ | ⟨b, hacc, heb, hmax, l1, l2, hsplit, hl2, hlast⟩
    · exfalso
      unfold pickBest at hbest
      rw [hacc] at hbest
      exact Option.noConfusion hbest
    · have hbb : b = best := by
        unfold pickBest at hbest
        rw [hacc] at hbest
        exact Option.some.inj hbest
      subst hbb
      refine ⟨?_, heb, hmax, l1, l2, hsplit, ?_⟩
      · rw [hsplit]
        exact List.mem_append_right l1 (List.mem_cons_self b l2)
      · rcases hlast with ⟨hne, hnorm⟩ | ⟨hstrict, hnone⟩
        · left
          refine ⟨hne, hnorm, ?_⟩
          intro cand hc hce hsceq
          have := hl2 cand hc hce hsceq
          intro hcontra
          exact this ⟨hne, hcontra⟩
        · exact Or.inr ⟨hstrict, hnone⟩

/-- Witness for C2: on the tie example the theorem applies concretely and
certifies the second-encountered norm-tied candidate. -/
theorem c2_witness :
    pmItemTieB ∈ [pmItemTieA, pmItemTieB] ∧
      pbEligible opItemTie [] pmItemTieB = true ∧
      (∀ cand ∈ [pmItemTieA, pmItemTieB], pbEligible opItemTie [] cand = true →
        pbScore opItemTie cand ≤ pbScore opItemTie pmItemTieB) ∧
      ∃ l1 l2, [pmItemTieA, pmItemTieB] = l1 ++ pmItemTieB :: l2 ∧
        ((opItemTie.norm ≠ "" ∧ opItemTie.norm = pmItemTieB.norm ∧
          ∀ cand ∈ l2, pbEligible opItemTie [] cand = true →
            pbScore opItemTie cand = pbScore opItemTie pmItemTieB →
            opItemTie.norm ≠ cand.norm) ∨
         ((∀ cand ∈ l1, pbEligible opItemTie [] cand = true →
            pbScore opItemTie cand < pbScore opItemTie pmItemTieB) ∧
          ∀ cand ∈ [pmItemTieA, pmItemTieB], pbEligible opItemTie [] cand = true →
            pbScore opItemTie cand = pbScore opItemTie pmItemTieB →
            ¬(opItemTie.norm ≠ "" ∧ opItemTie.norm = cand.norm))) :=
  (c2_amended ⟨some 1, "alpha", some "y", some "n"⟩ [pmItemTieA, pmItemTieB] []).2
    pmItemTieB (by decide)

/-! ### `build_all` lemmas (C5) -/

theorem cacheGet_cacheSet_ne (c : CacheMap) (k k' : String) (e : JObj)
    (h : k ≠ k') : cacheGet (cacheSet c k' e) k = cacheGet c k := by
  induction c with
  | nil =>
    unfold cacheSet cacheGet
    simp only [List.find?]
    rw [show (decide (k' = k)) = false from decide_eq_false (fun he => h he.symm)]
  | cons p rest ih =>
    unfold cacheSet
    split
    · rename_i hp
      unfold cacheGet
      simp only [List.find?]
      rw [show (decide (k' = k)) = false from decide_eq_false (fun he => h he.symm),
        show (decide (p.1 = k)) = false from decide_eq_false (by rw [hp]; exact fun he => h he.symm)]
    · unfold cacheGet
      simp only [List.find?]
      cases hpk : decide (p.1 = k) with
      | true => rfl
      | false => exact ih

theorem cacheUsableAt_congr (c c' : CacheMap) (k : String)
    (h : cacheGet c k = cacheGet c' k) : cacheUsableAt c k = cacheUsableAt c' k := by
  unfold cacheUsableAt
  rw [h]

theorem cacheGetD_congr (c c' : CacheMap) (k : String)
    (h : cacheGet c k = cacheGet c' k) : cacheGetD c k = cacheGetD c' k := by
  unfold cacheGetD
  rw [h]

theorem foldl_optset_length {α : Type} (g : α → Option JObj) (idx : α → Nat) :
    ∀ (ts : List α) (r : List (Option JObj)),
      (ts.foldl (fun r t => match g t with
        | some v => r.set (idx t) (some v)
        | none => r) r).length = r.length := by
  intro ts
  induction ts with
  | nil => exact fun r => rfl
  | cons t0 ts ih =>
    intro r
    rw [List.foldl_cons, ih]
    cases g t0 with
    | some v => exact List.length_set r (idx t0) (some v)
    | none => rfl

theorem foldl_optset_nmem {α : Type} (g : α → Option JObj) (idx : α → Nat) :
    ∀ (ts : List α) (r : List (Option JObj)) (i : Nat),
      (∀ t ∈ ts, idx t ≠ i) →
      (ts.foldl (fun r t => match g t with
        | some v => r.set (idx t) (some v)
        | none => r) r)[i]? = r[i]? := by
  intro ts
  induction ts with
  | nil => exact fun r i _ => rfl
  | cons t0 ts ih =>
    intro r i hni
    rw [List.foldl_cons, ih _ i (fun t ht => hni t (List.mem_cons_of_mem t0 ht))]
    cases g t0 with
    | some v => exact List.getElem?_set_ne (hni t0 (List.mem_cons_self t0 ts))
    | none => rfl

theorem foldl_optset_mem {α : Type} (g : α → Option JObj) (idx : α → Nat) :
    ∀ (ts : List α) (t : α), t ∈ ts → (ts.map idx).Nodup →
      ∀ (r : List (Option JObj)), idx t < r.length →
      (ts.foldl (fun r t => match g t with
        | some v => r.set (idx t) (some v)
        | none => r) r)[idx t]?
        = match g t with
          | some v => some (some v)
          | none => r[idx t]? := by
  intro ts
  induction ts with
  | nil => exact fun t ht => absurd ht (List.not_mem_nil t)
  | cons t0 ts ih =>
    intro t ht hnd r hin
    rw [List.map_cons, List.nodup_cons] at hnd
    rcases List.mem_cons.1 ht with rfl | ht
    · rw [List.foldl_cons]
      rw [foldl_optset_nmem g idx ts _ (idx t) (fun t' ht' he =>
        hnd.1 (he ▸ List.mem_map_of_mem idx ht'))]
      cases hg : g t with
      | some v => exact List.getElem?_set_eq_of_lt _ hin
      | none => rfl
    · rw [List.foldl_cons]
      have hne : idx t0 ≠ idx t := fun he =>
        hnd.1 (he ▸ List.mem_map_of_mem idx ht)
      have hlen : (match g t0 with
          | some v => r.set (idx t0) (some v)
          | none => r).length = r.length := by
        cases g t0 with
        | some v => exact List.length_set r (idx t0) (some v)
        | none => rfl
      rw [ih t ht hnd.2 _ (by rw [hlen]; exact hin)]
      cases g t with
      | some v => rfl
      | none =>
        cases g t0 with
        | some v => exact List.getElem?_set_ne hne
        | none => rfl

theorem enum_filterMap_key {β : Type} (f : MCfg → Option β) :
    ∀ (l : List MCfg) (n : Nat),
      (List.enumFrom n l).filterMap (fun p => f p.2) = l.filterMap f := by
  intro l
  induction l with
  | nil => exact fun n => rfl
  | cons c l ih =>
    intro n
    rw [List.enumFrom, List.filterMap_cons, List.filterMap_cons]
    cases f c with
    | none => exact ih (n + 1)
    | some b => rw [ih (n + 1)]

theorem phase1Task_some (cacheI : CacheMap) (refresh : Bool)
    (keyOf : MCfg → Option String) (p : Nat × MCfg) (t : Nat × String × MCfg)
    (h : phase1Task cacheI refresh keyOf p = some t) :
    keyOf p.2 = some t.2.1 ∧ (!refresh && cacheUsableAt cacheI t.2.1) = false
      ∧ t = (p.1, t.2.1, p.2) := by
  unfold phase1Task at h
  cases hk : keyOf p.2 with
  | none =>
    rw [hk] at h
    exact Option.noConfusion h
  | some k =>
    simp only [hk] at h
    split at h
    · exact Option.noConfusion h
    · rename_i hcond
      rw [Option.some.injEq] at h
      subst h
      exact ⟨rfl, Bool.eq_false_iff.2 hcond, rfl⟩

theorem phase1_fold (keyOf : MCfg → Option String) (refresh : Bool)
    (cacheI : CacheMap) :
    ∀ (ps : List (Nat × MCfg)) (st0 : B1State),
      (∀ p ∈ ps, ∀ k, keyOf p.2 = some k →
        cacheGet st0.cache k = cacheGet cacheI k) →
      (ps.filterMap (fun p => keyOf p.2)).Nodup →
      (ps.foldl (phase1Step keyOf refresh) st0).results
          = ps.foldl (fun r p =>
              match phase1Res cacheI refresh keyOf p.2 with
              | some e => r.set p.1 (some e)
              | none => r) st0.results
        ∧ (ps.foldl (phase1Step keyOf refresh) st0).tasks
          = st0.tasks ++ ps.filterMap (phase1Task cacheI refresh keyOf)
        ∧ (∀ k, (∀ p ∈ ps, keyOf p.2 ≠ some k) →
            cacheGet (ps.foldl (phase1Step keyOf refresh) st0).cache k
              = cacheGet st0.cache k)
        ∧ (∀ p ∈ ps, ∀ k, keyOf p.2 = some k →
            (!refresh && cacheUsableAt cacheI k) = false →
            cacheGet (ps.foldl (phase1Step keyOf refresh) st0).cache k
              = cacheGet cacheI k) := by
  intro ps
  induction ps with
  | nil =>
    intro st0 hag hnd
    refine ⟨rfl, (List.append_nil _).symm, fun k _ => rfl, ?_⟩
    intro p hp
    exact absurd hp (List.not_mem_nil p)
  | cons p0 ps ih =>
    intro st0 hag hnd
    rw [List.foldl_cons, List.foldl_cons, List.filterMap_cons]
    cases hk0 : keyOf p0.2 with
    | none =>
      have hstep : phase1Step keyOf refresh st0 p0 = st0 := by
        unfold phase1Step
        rw [hk0]
      have hres : phase1Res cacheI refresh keyOf p0.2 = none := by
        unfold phase1Res
        rw [hk0]
      have htask : phase1Task cacheI refresh keyOf p0 = none := by
        unfold phase1Task
        rw [hk0]
      rw [hstep]
      simp only [hres, htask]
      rw [List.filterMap_cons, hk0] at hnd
      obtain ⟨h1, h2, h3, h4⟩ := ih st0
        (fun p hp => hag p (List.mem_cons_of_mem p0 hp)) hnd
      refine ⟨h1, h2, ?_, ?_⟩
      · intro k hk
        exact h3 k (fun p hp => hk p (List.mem_cons_of_mem p0 hp))
      · intro p hp k hkp hmiss
        rcases List.mem_cons.1 hp with rfl | hp
        · rw [hk0] at hkp
          exact Option.noConfusion hkp
        · exact h4 p hp k hkp hmiss
    | some k0 =>
      rw [List.filterMap_cons, hk0] at hnd
      rw [List.nodup_cons] at hnd
      obtain ⟨hk0nin, hndtail⟩ := hnd
      have hagree0 : cacheGet st0.cache k0 = cacheGet cacheI k0 :=
        hag p0 (List.mem_cons_self p0 ps) k0 hk0
      have hu0 : cacheUsableAt st0.cache k0 = cacheUsableAt cacheI k0 :=
        cacheUsableAt_congr _ _ _ hagree0
      have hd0 : cacheGetD st0.cache k0 = cacheGetD cacheI k0 :=
        cacheGetD_congr _ _ _ hagree0
      by_cases hhit : (!refresh && cacheUsableAt cacheI k0) = true
      · -- cache hit
        have hstep : phase1Step keyOf refresh st0 p0 =
            { st0 with
              results := st0.results.set p0.1
                (some (setNm (cacheGetD cacheI k0) p0.2.name))
              cache := cacheSet st0.cache k0
                (setNm (cacheGetD cacheI k0) p0.2.name) } := by
          unfold phase1Step
          simp only [hk0]
          rw [if_pos (by rw [hu0]; exact hhit)]
          rw [hd0]
        have hres : phase1Res cacheI refresh keyOf p0.2
            = some (setNm (cacheGetD cacheI k0) p0.2.name) := by
          unfold phase1Res
          simp only [hk0]
          rw [if_pos hhit]
        have htask : phase1Task cacheI refresh keyOf p0 = none := by
          unfold phase1Task
          simp only [hk0]
          rw [if_pos hhit]
        rw [hstep]
        simp only [hres, htask]
        have hag' : ∀ p ∈ ps, ∀ k, keyOf p.2 = some k →
            cacheGet (cacheSet st0.cache k0
              (setNm (cacheGetD cacheI k0) p0.2.name)) k = cacheGet cacheI k := by
          intro p hp k hkp
          have hkne : k ≠ k0 := by
            intro he
            subst he
            exact hk0nin (List.mem_filterMap.2 ⟨p, hp, hkp⟩)
          rw [cacheGet_cacheSet_ne _ _ _ _ hkne]
          exact hag p (List.mem_cons_of_mem p0 hp) k hkp
        obtain ⟨h1, h2, h3, h4⟩ := ih
          { st0 with
            results := st0.results.set p0.1
              (some (setNm (cacheGetD cacheI k0) p0.2.name))
            cache := cacheSet st0.cache k0
              (setNm (cacheGetD cacheI k0) p0.2.name) } hag' hndtail
        refine ⟨h1, h2, ?_, ?_⟩
        · intro k hk
          rw [h3 k (fun p hp => hk p (List.mem_cons_of_mem p0 hp))]
          exact cacheGet_cacheSet_ne _ _ _ _
            (fun he => hk p0 (List.mem_cons_self p0 ps) (he ▸ hk0))
        · intro p hp k hkp hmiss
          rcases List.mem_cons.1 hp with rfl | hp
          · rw [hk0, Option.some.injEq] at hkp
            subst hkp
            exact absurd hhit (by rw [hmiss]; exact Bool.false_ne_true)
          · exact h4 p hp k hkp hmiss
      · -- no hit: becomes a task
        have hhitf : (!refresh && cacheUsableAt cacheI k0) = false :=
          Bool.eq_false_iff.2 hhit
        have hstep : phase1Step keyOf refresh st0 p0 =
            { st0 with tasks := st0.tasks ++ [(p0.1, k0, p0.2)] } := by
          unfold phase1Step
          simp only [hk0]
          rw [if_neg (by rw [hu0, hhitf]; exact Bool.false_ne_true)]
        have hres : phase1Res cacheI refresh keyOf p0.2 = none := by
          unfold phase1Res
          simp only [hk0]
          rw [if_neg (by rw [hhitf]; exact Bool.false_ne_true)]
        have htask : phase1Task cacheI refresh keyOf p0 = some (p0.1, k0, p0.2) := by
          unfold phase1Task
          simp only [hk0]
          rw [if_neg (by rw [hhitf]; exact Bool.false_ne_true)]
        rw [hstep]
        simp only [hres, htask]
        have hag' : ∀ p ∈ ps, ∀ k, keyOf p.2 = some k →
            cacheGet st0.cache k = cacheGet cacheI k :=
          fun p hp k hkp => hag p (List.mem_cons_of_mem p0 hp) k hkp
        obtain ⟨h1, h2, h3, h4⟩ := ih
          { st0 with tasks := st0.tasks ++ [(p0.1, k0, p0.2)] } hag' hndtail
        refine ⟨h1, ?_, ?_, ?_⟩
        · rw [h2]
          simp only [List.append_assoc, List.singleton_append]
        · intro k hk
          exact h3 k (fun p hp => hk p (List.mem_cons_of_mem p0 hp))
        · intro p hp k hkp hmiss
          rcases List.mem_cons.1 hp with rfl | hp
          · rw [hk0, Option.some.injEq] at hkp
            subst hkp
            rw [h3 k0 (fun p hp he => hk0nin
              (List.mem_filterMap.2 ⟨p, hp, he⟩))]
            exact hagree0
          · exact h4 p hp k hkp hmiss

theorem phase2_fold (refresh keep : Bool) (buildRes : MCfg → Option JObj) :
    ∀ (ts : List (Nat × String × MCfg)) (res : List (Option JObj)) (cache : CacheMap),
      (∀ t ∈ ts, refresh = false → cacheUsableAt cache t.2.1 = false) →
      (ts.map (fun t => t.2.1)).Nodup →
      (ts.foldl (taskStep refresh keep buildRes) (res, cache)).1
        = ts.foldl (fun r t => match buildRes t.2.2 with
            | some e => r.set t.1 (some e)
            | none => r) res := by
  intro ts
  induction ts with
  | nil => exact fun res cache _ _ => rfl
  | cons t0 ts ih =>
    intro res cache hus hnd
    rw [List.map_cons, List.nodup_cons] at hnd
    rw [List.foldl_cons, List.foldl_cons]
    cases hb : buildRes t0.2.2 with
    | some e =>
      have hstep : taskStep refresh keep buildRes (res, cache) t0
          = (res.set t0.1 (some e), cacheSet cache t0.2.1 e) := by
        unfold taskStep
        simp only [hb]
      rw [hstep]
      exact ih (res.set t0.1 (some e)) (cacheSet cache t0.2.1 e)
        (by
          intro t ht hrf
          have hne : t.2.1 ≠ t0.2.1 := fun he =>
            hnd.1 (he ▸ List.mem_map_of_mem (fun t => t.2.1) ht)
          rw [cacheUsableAt_congr _ cache _ (cacheGet_cacheSet_ne cache _ _ _ hne)]
          exact hus t (List.mem_cons_of_mem t0 ht) hrf)
        hnd.2
    | none =>
      have hcond : (!refresh && keep && cacheUsableAt cache t0.2.1) = false := by
        cases hrf : refresh with
        | false =>
          rw [hus t0 (List.mem_cons_self t0 ts) hrf, Bool.and_false]
        | true => rfl
      have hstep : taskStep refresh keep buildRes (res, cache) t0 = (res, cache) := by
        unfold taskStep
        simp only [hb]
        rw [if_neg (by rw [hcond]; exact Bool.false_ne_true)]
      rw [hstep]
      exact ih res cache (fun t ht => hus t (List.mem_cons_of_mem t0 ht)) hnd.2

theorem range_filterMap_get? {α : Type} :
    ∀ l : List α, (List.range l.length).filterMap (fun j => l.get? j) = l := by
  intro l
  induction l with
  | nil => rfl
  | cons a l ih =>
    rw [List.length_cons, List.range_succ_eq_map, List.filterMap_cons]
    simp only [List.get?_cons_zero, List.filterMap_map]
    congr 1

theorem perm_tasks_of_order {α : Type} (l : List α) (order : List Nat)
    (h : order.Perm (List.range l.length)) :
    (order.filterMap (fun j => l.get? j)).Perm l := by
  have h2 := List.Perm.filterMap (fun j => l.get? j) h
  rw [range_filterMap_get? l] at h2
  exact h2

theorem filterMap_sublist_of_pointwise {α β : Type} (f g : α → Option β)
    (h : ∀ x, g x = none ∨ g x = f x) :
    ∀ l : List α, (l.filterMap g).Sublist (l.filterMap f) := by
  intro l
  induction l with
  | nil => exact List.nil_sublist []
  | cons x l ih =>
    rw [List.filterMap_cons, List.filterMap_cons]
    rcases h x with hx | hx
    · rw [hx]
      cases f x with
      | none => exact ih
      | some b => exact ih.cons b
    · rw [hx]
      cases f x with
      | none => exact ih
      | some b => exact ih.cons₂ b

theorem ph1_spec (cfgs : List MCfg) (cache0 : CacheMap) (refresh : Bool)
    (keyOf : MCfg → Option String)
    (hnd : (cfgs.filterMap keyOf).Nodup) :
    (buildPhase1 keyOf refresh cache0 cfgs).results
        = cfgs.enum.foldl (fun r p =>
            match phase1Res (if refresh then [] else cache0) refresh keyOf p.2 with
            | some e => r.set p.1 (some e)
            | none => r) (List.replicate cfgs.length none)
      ∧ (buildPhase1 keyOf refresh cache0 cfgs).tasks
        = cfgs.enum.filterMap
            (phase1Task (if refresh then [] else cache0) refresh keyOf)
      ∧ ∀ p ∈ cfgs.enum, ∀ k, keyOf p.2 = some k →
          (!refresh && cacheUsableAt (if refresh then [] else cache0) k) = false →
          cacheGet (buildPhase1 keyOf refresh cache0 cfgs).cache k
            = cacheGet (if refresh then [] else cache0) k := by
  have hnd' : (cfgs.enum.filterMap (fun p => keyOf p.2)).Nodup := by
    rw [show cfgs.enum = List.enumFrom 0 cfgs from rfl, enum_filterMap_key]
    exact hnd
  obtain ⟨h1, h2, -, h4⟩ := phase1_fold keyOf refresh (if refresh then [] else cache0)
    cfgs.enum
    { results := List.replicate cfgs.length none
      cache := if refresh then [] else cache0
      tasks := [] }
    (fun p _ k _ => rfl) hnd'
  refine ⟨h1, ?_, h4⟩
  rw [show (buildPhase1 keyOf refresh cache0 cfgs).tasks
    = (cfgs.enum.foldl (phase1Step keyOf refresh)
        { results := List.replicate cfgs.length none
          cache := if refresh then [] else cache0
          tasks := [] }).tasks from rfl, h2]
  rfl

theorem tasks_fst_nodup (cfgs : List MCfg) (cacheI : CacheMap) (refresh : Bool)
    (keyOf : MCfg → Option String) :
    ((cfgs.enum.filterMap (phase1Task cacheI refresh keyOf)).map
      (fun t => t.1)).Nodup := by
  rw [List.map_filterMap]
  apply @List.Sublist.nodup _ _ (cfgs.enum.filterMap (fun p => some p.1))
  · apply filterMap_sublist_of_pointwise
    intro p
    cases hpt : phase1Task cacheI refresh keyOf p with
    | none => exact Or.inl rfl
    | some t =>
      obtain ⟨-, -, hteq⟩ := phase1Task_some _ _ _ _ _ hpt
      right
      exact congrArg some (by rw [hteq])
  · rw [show (fun p : Nat × MCfg => some p.1) = some ∘ (fun p => p.1) from rfl,
      List.filterMap_eq_map]
    exact List.nodup_enum_map_fst cfgs

theorem tasks_key_nodup (cfgs : List MCfg) (cacheI : CacheMap) (refresh : Bool)
    (keyOf : MCfg → Option String)
    (hnd : (cfgs.filterMap keyOf).Nodup) :
    ((cfgs.enum.filterMap (phase1Task cacheI refresh keyOf)).map
      (fun t => t.2.1)).Nodup := by
  rw [List.map_filterMap]
  apply @List.Sublist.nodup _ _ (cfgs.enum.filterMap (fun p => keyOf p.2))
  · apply filterMap_sublist_of_pointwise
    intro p
    cases hpt : phase1Task cacheI refresh keyOf p with
    | none => exact Or.inl rfl
    | some t =>
      obtain ⟨hk, -, -⟩ := phase1Task_some _ _ _ _ _ hpt
      right
      exact hk.symm
  · rw [show cfgs.enum = List.enumFrom 0 cfgs from rfl, enum_filterMap_key]
    exact hnd

theorem no_task_at (cfgs : List MCfg) (cacheI : CacheMap) (refresh : Bool)
    (keyOf : MCfg → Option String) (i : Nat) (cfg : MCfg)
    (hcfg : cfgs[i]? = some cfg)
    (hnone : phase1Task cacheI refresh keyOf (i, cfg) = none) :
    ∀ t ∈ cfgs.enum.filterMap (phase1Task cacheI refresh keyOf), t.1 ≠ i := by
  intro t ht he
  rw [List.mem_filterMap] at ht
  obtain ⟨p, hp, hpt⟩ := ht
  obtain ⟨-, -, hteq⟩ := phase1Task_some _ _ _ _ _ hpt
  have hp1 : p.1 = i := by
    rw [hteq] at he
    exact he
  have hp2 : p.2 = cfg := by
    have hg := List.mem_enum_iff_getElem?.1 hp
    rw [hp1, hcfg] at hg
    exact (Option.some.inj hg).symm
  have hpe : p = (i, cfg) := Prod.ext hp1 hp2
  rw [hpe, hnone] at hpt
  exact Option.noConfusion hpt

theorem buildAll_results_eq (cfgs : List MCfg) (cache0 : CacheMap)
    (refresh keep : Bool) (keyOf : MCfg → Option String)
    (buildRes : MCfg → Option JObj)
    (hnd : (cfgs.filterMap keyOf).Nodup) :
    ((buildPhase1 keyOf refresh cache0 cfgs).tasks.foldl
        (fun r t => match buildRes t.2.2 with
          | some e => r.set t.1 (some e)
          | none => r)
        (buildPhase1 keyOf refresh cache0 cfgs).results)
      = cfgs.map (perConfig cache0 refresh keep keyOf buildRes) := by
  obtain ⟨hres, htasks, -⟩ := ph1_spec cfgs cache0 refresh keyOf hnd
  have hlen : (buildPhase1 keyOf refresh cache0 cfgs).results.length
      = cfgs.length := by
    rw [hres,
      foldl_optset_length (fun p => phase1Res (if refresh then [] else cache0)
        refresh keyOf p.2) (fun p => p.1) cfgs.enum,
      List.length_replicate]
  rw [List.ext_get?_iff]
  intro i
  rw [List.get?_eq_getElem?, List.get?_eq_getElem?]
  by_cases hi : i < cfgs.length
  · have hcfg : cfgs[i]? = some cfgs[i] := List.getElem?_eq_getElem hi
    have hmem : (i, cfgs[i]) ∈ cfgs.enum := List.mem_enum_iff_getElem?.2 hcfg
    have hresi : (buildPhase1 keyOf refresh cache0 cfgs).results[i]?
        = match phase1Res (if refresh then [] else cache0) refresh keyOf cfgs[i] with
          | some e => some (some e)
          | none => some none := by
      rw [hres]
      have hfo := foldl_optset_mem
        (fun p => phase1Res (if refresh then [] else cache0) refresh keyOf p.2)
        (fun p => p.1) cfgs.enum (i, cfgs[i]) hmem
        (List.nodup_enum_map_fst cfgs)
        (List.replicate cfgs.length (none : Option JObj))
        (by rw [List.length_replicate]; exact hi)
      have hfo2 : (cfgs.enum.foldl (fun r p =>
          match phase1Res (if refresh then [] else cache0) refresh keyOf p.2 with
          | some e => r.set p.1 (some e)
          | none => r) (List.replicate cfgs.length (none : Option JObj)))[i]?
          = match phase1Res (if refresh then [] else cache0) refresh keyOf cfgs[i] with
            | some v => some (some v)
            | none => (List.replicate cfgs.length (none : Option JObj))[i]? := hfo
      rw [hfo2]
      cases phase1Res (if refresh then [] else cache0) refresh keyOf cfgs[i] with
      | some e => rfl
      | none => rw [List.getElem?_replicate, if_pos hi]
    rw [List.getElem?_map, hcfg, Option.map_some']
    cases hk : keyOf cfgs[i] with
    | none =>
      have hp1r : phase1Res (if refresh then [] else cache0) refresh keyOf cfgs[i]
          = none := by
        unfold phase1Res
        rw [hk]
      have hp1t : phase1Task (if refresh then [] else cache0) refresh keyOf
          (i, cfgs[i]) = none := by
        unfold phase1Task
        rw [hk]
      have hnm := foldl_optset_nmem (fun t => buildRes t.2.2)
        (fun t : Nat × String × MCfg => t.1)
        (buildPhase1 keyOf refresh cache0 cfgs).tasks
        (buildPhase1 keyOf refresh cache0 cfgs).results i
        (by rw [htasks]; exact no_task_at cfgs _ refresh keyOf i cfgs[i] hcfg hp1t)
      have hnm2 : ((buildPhase1 keyOf refresh cache0 cfgs).tasks.foldl
          (fun r t => match buildRes t.2.2 with
            | some e => r.set t.1 (some e)
            | none => r)
          (buildPhase1 keyOf refresh cache0 cfgs).results)[i]?
          = (buildPhase1 keyOf refresh cache0 cfgs).results[i]? := hnm
      rw [hnm2, hresi]
      simp only [hp1r]
      rw [show perConfig cache0 refresh keep keyOf buildRes cfgs[i] = none by
        unfold perConfig; rw [hk]]
    | some k =>
      by_cases hhit :
          (!refresh && cacheUsableAt (if refresh then [] else cache0) k) = true
      · have hp1r : phase1Res (if refresh then [] else cache0) refresh keyOf cfgs[i]
            = some (setNm (cacheGetD (if refresh then [] else cache0) k)
                cfgs[i].name) := by
          unfold phase1Res
          simp only [hk]
          rw [if_pos hhit]
        have hp1t : phase1Task (if refresh then [] else cache0) refresh keyOf
            (i, cfgs[i]) = none := by
          unfold phase1Task
          simp only [hk]
          rw [if_pos hhit]
        have hnm := foldl_optset_nmem (fun t => buildRes t.2.2)
          (fun t : Nat × String × MCfg => t.1)
          (buildPhase1 keyOf refresh cache0 cfgs).tasks
          (buildPhase1 keyOf refresh cache0 cfgs).results i
          (by rw [htasks]; exact no_task_at cfgs _ refresh keyOf i cfgs[i] hcfg hp1t)
        have hnm2 : ((buildPhase1 keyOf refresh cache0 cfgs).tasks.foldl
            (fun r t => match buildRes t.2.2 with
              | some e => r.set t.1 (some e)
              | none => r)
            (buildPhase1 keyOf refresh cache0 cfgs).results)[i]?
            = (buildPhase1 keyOf refresh cache0 cfgs).results[i]? := hnm
        rw [hnm2, hresi]
        simp only [hp1r]
        rw [show perConfig cache0 refresh keep keyOf buildRes cfgs[i]
            = some (setNm (cacheGetD (if refresh then [] else cache0) k)
                cfgs[i].name) by
          unfold perConfig
          simp only [hk]
          rw [if_pos hhit]]
      · have hhitf : (!refresh && cacheUsableAt (if refresh then [] else cache0) k)
            = false := Bool.eq_false_iff.2 hhit
        have hp1r : phase1Res (if refresh then [] else cache0) refresh keyOf cfgs[i]
            = none := by
          unfold phase1Res
          simp only [hk]
          rw [if_neg hhit]
        have hp1t : phase1Task (if refresh then [] else cache0) refresh keyOf
            (i, cfgs[i]) = some (i, k, cfgs[i]) := by
          unfold phase1Task
          simp only [hk]
          rw [if_neg hhit]
        have htmem : (i, k, cfgs[i]) ∈ (buildPhase1 keyOf refresh cache0 cfgs).tasks := by
          rw [htasks]
          exact List.mem_filterMap.2 ⟨(i, cfgs[i]), hmem, hp1t⟩
        have hfo := foldl_optset_mem (fun t => buildRes t.2.2)
          (fun t : Nat × String × MCfg => t.1)
          (buildPhase1 keyOf refresh cache0 cfgs).tasks (i, k, cfgs[i]) htmem
          (by rw [htasks]; exact tasks_fst_nodup cfgs _ refresh keyOf)
          (buildPhase1 keyOf refresh cache0 cfgs).results
          (by rw [hlen]; exact hi)
        have hfo2 : ((buildPhase1 keyOf refresh cache0 cfgs).tasks.foldl
            (fun r t => match buildRes t.2.2 with
              | some e => r.set t.1 (some e)
              | none => r)
            (buildPhase1 keyOf refresh cache0 cfgs).results)[i]?
            = match buildRes cfgs[i] with
              | some v => some (some v)
              | none => (buildPhase1 keyOf refresh cache0 cfgs).results[i]? := hfo
        rw [hfo2, hresi]
        simp only [hp1r]
        rw [show perConfig cache0 refresh keep keyOf buildRes cfgs[i]
            = match buildRes cfgs[i] with
              | some e => some e
              | none => none by
          unfold perConfig
          simp only [hk]
          rw [if_neg hhit]
          cases buildRes cfgs[i] with
          | some e => rfl
          | none =>
            rw [if_neg (by
              intro hcon
              rw [Bool.and_eq_true, Bool.and_eq_true] at hcon
              obtain ⟨⟨hr, -⟩, hu⟩ := hcon
              have hc2 : (!refresh && cacheUsableAt
                  (if refresh then [] else cache0) k) = true := by
                rw [Bool.and_eq_true]
                exact ⟨hr, hu⟩
              rw [hhitf] at hc2
              exact Bool.false_ne_true hc2)]]
        cases buildRes cfgs[i] with
        | some e => rfl
        | none => rfl
  · have h1 : ((buildPhase1 keyOf refresh cache0 cfgs).tasks.foldl
        (fun r t => match buildRes t.2.2 with
          | some e => r.set t.1 (some e)
          | none => r)
        (buildPhase1 keyOf refresh cache0 cfgs).results).length = cfgs.length := by
      rw [foldl_optset_length (fun t => buildRes t.2.2)
        (fun t : Nat × String × MCfg => t.1), hlen]
    rw [List.getElem?_eq_none (by rw [h1]; omega),
      List.getElem?_eq_none (by rw [List.length_map]; omega)]

/-- **C5** (amended): under the claim's implicit assumption that distinct
configurations have distinct cache keys (refuted without it by
`c5_counterexample`), and for ANY completion order of the dispatched
tasks, `build_all` returns exactly one entry per configuration in the
original configuration order: the usable prior cache entry on a cache
hit, else the fresh successfully-built entry, else nothing (the
stale-but-valid fallback inside the task loop re-checks the same
initial-cache usability that already failed, so a failing task
contributes nothing); one config's failure never removes or alters any
other config's contribution. -/
theorem c5_amended (cfgs : List MCfg) (cache0 : CacheMap) (refresh keep : Bool)
    (keyOf : MCfg → Option String) (buildRes : MCfg → Option JObj)
    (order : List Nat)
    (hnd : (cfgs.filterMap keyOf).Nodup)
    (hord : order.Perm (List.range (numTasks cfgs cache0 refresh keyOf))) :
    buildAll cfgs cache0 refresh keep keyOf buildRes order
      = cfgs.filterMap (perConfig cache0 refresh keep keyOf buildRes) := by
  have hmain := buildAll_results_eq cfgs cache0 refresh keep keyOf buildRes hnd
  have hmapfm : (cfgs.map (perConfig cache0 refresh keep keyOf buildRes)).filterMap id
      = cfgs.filterMap (perConfig cache0 refresh keep keyOf buildRes) := by
    rw [List.filterMap_map]
    rfl
  obtain ⟨-, htasks, hcache⟩ := ph1_spec cfgs cache0 refresh keyOf hnd
  simp only [buildAll]
  split
  · rename_i hT
    rw [hT, List.foldl_nil] at hmain
    rw [hmain, hmapfm]
  · have hperm : (order.filterMap (fun j =>
        (buildPhase1 keyOf refresh cache0 cfgs).tasks.get? j)).Perm
        (buildPhase1 keyOf refresh cache0 cfgs).tasks :=
      perm_tasks_of_order _ order hord
    have hfstnd : ((buildPhase1 keyOf refresh cache0 cfgs).tasks.map
        (fun t => t.1)).Nodup := by
      rw [htasks]
      exact tasks_fst_nodup cfgs _ refresh keyOf
    have hus : ∀ t ∈ (order.filterMap (fun j =>
        (buildPhase1 keyOf refresh cache0 cfgs).tasks.get? j)),
        refresh = false →
        cacheUsableAt (buildPhase1 keyOf refresh cache0 cfgs).cache t.2.1
          = false := by
      intro t ht hrf
      have htm : t ∈ (buildPhase1 keyOf refresh cache0 cfgs).tasks :=
        (hperm.mem_iff).1 ht
      rw [htasks, List.mem_filterMap] at htm
      obtain ⟨p, hp, hpt⟩ := htm
      obtain ⟨hk, hcond, -⟩ := phase1Task_some _ _ _ _ _ hpt
      rw [cacheUsableAt_congr _ (if refresh then [] else cache0) _
        (hcache p hp t.2.1 hk hcond)]
      rw [hrf] at hcond
      rw [show ((!false && cacheUsableAt (if false then [] else cache0) t.2.1))
          = cacheUsableAt (if false then [] else cache0) t.2.1 from
        Bool.true_and _] at hcond
      rw [hrf]
      exact hcond
    have hknd : ((order.filterMap (fun j =>
        (buildPhase1 keyOf refresh cache0 cfgs).tasks.get? j)).map
        (fun t => t.2.1)).Nodup := by
      rw [(hperm.map (fun t => t.2.1)).nodup_iff]
      rw [htasks]
      exact tasks_key_nodup cfgs _ refresh keyOf hnd
    have h2f := phase2_fold refresh keep buildRes
      (order.filterMap (fun j =>
        (buildPhase1 keyOf refresh cache0 cfgs).tasks.get? j))
      (buildPhase1 keyOf refresh cache0 cfgs).results
      (buildPhase1 keyOf refresh cache0 cfgs).cache hus hknd
    have hcomm : ∀ x ∈ (order.filterMap (fun j =>
          (buildPhase1 keyOf refresh cache0 cfgs).tasks.get? j)),
        ∀ y ∈ (order.filterMap (fun j =>
          (buildPhase1 keyOf refresh cache0 cfgs).tasks.get? j)),
        ∀ z : List (Option JObj),
        (match buildRes y.2.2 with
         | some e => (match buildRes x.2.2 with
             | some e2 => z.set x.1 (some e2)
             | none => z).set y.1 (some e)
         | none => match buildRes x.2.2 with
             | some e2 => z.set x.1 (some e2)
             | none => z)
        = (match buildRes x.2.2 with
           | some e => (match buildRes y.2.2 with
               | some e2 => z.set y.1 (some e2)
               | none => z).set x.1 (some e)
           | none => match buildRes y.2.2 with
               | some e2 => z.set y.1 (some e2)
               | none => z) := by
      intro x hx y hy z
      by_cases hxy : x = y
      · rw [hxy]
      · have hxm : x ∈ (buildPhase1 keyOf refresh cache0 cfgs).tasks :=
          (hperm.mem_iff).1 hx
        have hym : y ∈ (buildPhase1 keyOf refresh cache0 cfgs).tasks :=
          (hperm.mem_iff).1 hy
        have hne : x.1 ≠ y.1 := fun he =>
          hxy (List.inj_on_of_nodup_map hfstnd hxm hym he)
        cases buildRes x.2.2 with
        | none =>
          cases buildRes y.2.2 with
          | none => rfl
          | some ey => rfl
        | some ex =>
          cases buildRes y.2.2 with
          | none => rfl
          | some ey => exact List.set_comm _ _ _ hne
    have hreo := @List.Perm.foldl_eq' (List (Option JObj)) (Nat × String × MCfg)
      (fun r t => match buildRes t.2.2 with
        | some e => r.set t.1 (some e)
        | none => r)
      (order.filterMap (fun j =>
        (buildPhase1 keyOf refresh cache0 cfgs).tasks.get? j))
      (buildPhase1 keyOf refresh cache0 cfgs).tasks
      hperm hcomm (buildPhase1 keyOf refresh cache0 cfgs).results
    rw [h2f, hreo, hmain, hmapfm]

/-- Witness for C5: two configs with distinct keys, `B`'s build fails and
contributes nothing while `A`'s fresh entry survives, with the tasks
completing in reversed order. -/
theorem c5_witness :
    buildAll [cfgWA, cfgWB] [] false true keyOfW buildResW [1, 0]
      = [cfgWA, cfgWB].filterMap (perConfig [] false true keyOfW buildResW) ∧
    buildAll [cfgWA, cfgWB] [] false true keyOfW buildResW [1, 0]
      = [entryUsableEx] :=
  ⟨c5_amended [cfgWA, cfgWB] [] false true keyOfW buildResW [1, 0]
      (by decide) (by decide), rfl⟩

end TokReg
